import Mathlib

/-
Verification of the CasADi sparsity-pattern core (src/casadi/matrix/sparsity_tools.cpp)
and the marking discipline of the sparse QR kernel
(src/casadi/core/runtime/casadi_runtime.hpp, casadi_qr).

Conventions of the embedding:
* C++ std::vector<int> is List Int; vector indices are Nat positions.
* vector::at (bounds-checked, throws std::out_of_range) is modelled by setAt / getI,
  which return Except String.  Out-of-bounds writes through operator[] are undefined
  behaviour in C++; they are modelled as errors as well, so that a run that returns
  Except.ok performed only in-bounds accesses.
* casadi_assert_message / CasadiException are modelled by Except.error.
* C++ integer division and modulus appear only on nonnegative operands in every
  theorem below, where they agree with Lean Int division and modulus.
-/

/-- Modelled from the spec: the CRSSparsity class itself is not under src/.  Per the
data model it is a plain compressed-row record: dimensions nrow and ncol, the
row-pointer array rowind of length nrow+1 and the per-nonzero column-index array col.
The constructor CRSSparsity(nrow, ncol, col, rowind) used by the builders just stores
the four fields. -/
structure CRSSparsity where
  nrow : Nat
  ncol : Nat
  col : List Int
  rowind : List Int
  deriving DecidableEq

/-- Number of stored nonzeros (CRSSparsity::size, the length of col). -/
def CRSSparsity.size (s : CRSSparsity) : Nat := s.col.length

/-- Number of matrix elements (CRSSparsity::numel = size1 times size2). -/
def CRSSparsity.numel (s : CRSSparsity) : Nat := s.nrow * s.ncol

/-- Modelled from the spec: CRSSparsity::getRow is not under src/.  Per the
compressed-row storage description, nonzero positions rowind[i] .. rowind[i+1]-1
belong to row i, so the per-nonzero row index list repeats each row index i
(rowind[i+1] - rowind[i]) times, for i = 0 .. nrow-1. -/
def CRSSparsity.getRow (s : CRSSparsity) : List Int :=
  (List.range s.nrow).flatMap fun i =>
    List.replicate ((s.rowind.getD (i + 1) 0) - (s.rowind.getD i 0)).toNat (i : Int)

/-- The list of nonzero (row, column) positions in storage order. -/
def CRSSparsity.toPairs (s : CRSSparsity) : List (Int × Int) :=
  s.getRow.zip s.col

/-- The representation invariant of the data model: rowind has length nrow+1,
rowind[0] = 0, rowind is non-decreasing, rowind[nrow] equals the number of stored
column indices, and every column index lies in [0, ncol). -/
def Valid (s : CRSSparsity) : Prop :=
  s.rowind.length = s.nrow + 1 ∧
  s.rowind.getD 0 0 = 0 ∧
  (∀ i, i < s.nrow → s.rowind.getD i 0 ≤ s.rowind.getD (i + 1) 0) ∧
  s.rowind.getD s.nrow 0 = (s.col.length : Int) ∧
  ∀ c ∈ s.col, 0 ≤ c ∧ c < (s.ncol : Int)

instance : DecidablePred Valid := fun s => by
  unfold Valid
  infer_instance

/-- Bounds-checked assignment, modelling vector::at(i) = v.  A negative C++ int index
converts to a huge size_t, so it is out of range as well. -/
def setAt (l : List Int) (i : Int) (v : Int) : Except String (List Int) :=
  if 0 ≤ i ∧ i < (l.length : Int) then .ok (l.set i.toNat v) else .error "out_of_range"

/-- Bounds-checked read, modelling vector::at(i) (and reads through operator[] whose
out-of-bounds case is undefined behaviour). -/
def getI (l : List Int) (i : Int) : Except String Int :=
  if 0 ≤ i ∧ i < (l.length : Int) then .ok (l.getD i.toNat 0) else .error "out_of_range"

/-- Body of fillUp, structurally recursive on the remaining iteration count, which
for the loop "while (z < target) rowind.at(++z) = cnt;" is (target - z).toNat since
z increases by one per iteration. -/
def fillUpAux (cnt : Int) : Nat → Int → List Int → Except String (Int × List Int)
  | 0, z, rowind => .ok (z, rowind)
  | n + 1, z, rowind =>
    match setAt rowind (z + 1) cnt with
    | .error e => .error e
    | .ok rowind' => fillUpAux cnt n (z + 1) rowind'

/-- Loop "while (z < target) rowind.at(++z) = cnt;" shared by sp_NZ and sp_rowcol
(sparsity_tools.cpp lines 123-124, 129-130, 157-158, 162-163). -/
def fillUp (target : Int) (z cnt : Int) (rowind : List Int) :
    Except String (Int × List Int) :=
  fillUpAux cnt (target - z).toNat z rowind

/-- Step of the column-index loop of sp_tril (sparsity_tools.cpp lines 46-52):
emit t, increment it, and on passing the current row length reset it and move to the
next row. -/
def sp_tril_colStep (st : Int × Int × List Int) (_i : Nat) : Int × Int × List Int :=
  let c := st.1
  let t := st.2.1
  let acc := st.2.2
  let acc := acc ++ [t]
  let t := t + 1
  if t > c then (c + 1, 0, acc) else (c, t, acc)

/-- Lower-triangular pattern sp_tril (sparsity_tools.cpp lines 39-60).  The dimension
argument is a Nat, so the negative-argument throw at line 40 cannot fire. -/
def sp_tril (n : Nat) : CRSSparsity :=
  let colSt := (List.range (n * (n + 1) / 2)).foldl sp_tril_colStep (0, 0, [])
  let rowindSt := (List.range n).foldl
    (fun (st : List Int × Int) (i : Nat) => (st.1 ++ [st.2 + 1 + (i : Int)], st.2 + 1 + (i : Int)))
    ([0], 0)
  ⟨n, n, colSt.2.2, rowindSt.1⟩

/-- Diagonal pattern sp_diag (sparsity_tools.cpp lines 62-76): col = [0, .., n-1],
rowind = col with n appended.  The n >= 0 assertion holds by the Nat argument. -/
def sp_diag (n : Nat) : CRSSparsity :=
  let col := (List.range n).map (fun (i : Nat) => (i : Int))
  ⟨n, n, col, col ++ [(n : Int)]⟩

/-- Banded pattern sp_band (sparsity_tools.cpp lines 78-100).  The n >= 0 assertion
holds by the Nat argument; the |p| < n assertion is modelled by the error branch. -/
def sp_band (n : Nat) (p : Int) : Except String CRSSparsity :=
  if (if p < 0 then -p else p) < (n : Int) then
    let nc : Int := (n : Int) - (if p < 0 then -p else p)
    let offset1 := max p 0
    let col := (List.range nc.toNat).map (fun (i : Nat) => (i : Int) + offset1)
    let offset2 := min p 0
    let rowind := (List.range (n + 1)).map (fun (i : Nat) => max (min ((i : Int) + offset2) nc) 0)
    .ok ⟨n, n, col, rowind⟩
  else .error "sp_band: position of band schould be smaller then size argument"

/-- Main loop of sp_NZ (sparsity_tools.cpp lines 155-161): for each row entry, fill the
skipped rowind slots with the counter, then store the counter at row[k]+1 and
post-increment it. -/
def sp_NZ_main : List Int → Int → Int → List Int → Except String (Int × Int × List Int)
  | [], z, cnt, rowind => .ok (z, cnt, rowind)
  | r :: rest, z, cnt, rowind =>
    match fillUp r z cnt rowind with
    | .error e => .error e
    | .ok (z', rowind') =>
      match setAt rowind' (r + 1) cnt with
      | .error e => .error e
      | .ok rowind'' => sp_NZ_main rest z' (cnt + 1) rowind''

/-- Explicit nonzero-list constructor sp_NZ (sparsity_tools.cpp lines 141-172).
The given col is stored as is; only rowind is computed.  The out_of_range catch at
line 165 rethrows as a casadi error, modelled by propagating the error. -/
def sp_NZ (row col : List Int) (nrow ncol : Nat) (monotone : Bool) :
    Except String CRSSparsity :=
  if row.length ≠ col.length then
    .error "sp_NZ: row and col vectors must be of same length"
  else if monotone = false then
    .error "sp_NZ: Not implemented for monotone false"
  else
    match sp_NZ_main row 0 0 (List.replicate (nrow + 1) 0) with
    | .error _ => .error "sp_NZ: out-of-range error"
    | .ok (z, cnt, rowind) =>
      match fillUp (nrow : Int) z cnt rowind with
      | .error _ => .error "sp_NZ: out-of-range error"
      | .ok (_, rowind') => .ok ⟨nrow, ncol, col, rowind'⟩

/-- Main loop of sp_rowcol (sparsity_tools.cpp lines 120-131): like sp_NZ but the
counter grows by col.size() per row entry and the incremented value is stored. -/
def sp_rowcol_loop (colsize : Nat) :
    List Int → Int → Int → List Int → Except String (Int × Int × List Int)
  | [], z, cnt, rowind => .ok (z, cnt, rowind)
  | r :: rest, z, cnt, rowind =>
    match fillUp r z cnt rowind with
    | .error e => .error e
    | .ok (z', rowind') =>
      match setAt rowind' (r + 1) (cnt + (colsize : Int)) with
      | .error e => .error e
      | .ok rowind'' => sp_rowcol_loop colsize rest z' (cnt + (colsize : Int)) rowind''

/-- Block pattern sp_rowcol (sparsity_tools.cpp lines 107-139): the column list is
repeated once per row entry; rowind jumps by col.size() at each row entry.  The
out_of_range catch at line 132 reports a casadi error, modelled by the error case. -/
def sp_rowcol (row col : List Int) (nrow ncol : Nat) : Except String CRSSparsity :=
  let col_new := (List.range row.length).flatMap (fun _ => col)
  match sp_rowcol_loop col.length row 0 0 (List.replicate (nrow + 1) 0) with
  | .error _ => .error "sp_rowcol: out-of-range error"
  | .ok (z, cnt, rowind) =>
    match fillUp (nrow : Int) z cnt rowind with
    | .error _ => .error "sp_rowcol: out-of-range error"
    | .ok (_, rowind') => .ok ⟨nrow, ncol, col_new, rowind'⟩

/-- Reshape (sparsity_tools.cpp lines 185-209): flatten each nonzero (i, j) to
z = j + i*ncol, reinterpret as (z / m, z mod m), and rebuild through sp_NZ with the
monotone flag set. -/
def reshape (a : CRSSparsity) (n m : Nat) : Except String CRSSparsity :=
  if a.numel ≠ n * m then
    .error "reshape: number of elements must remain the same"
  else
    let row := a.getRow
    let zs := List.zipWith (fun i j => j + i * (a.ncol : Int)) row a.col
    let row_new := zs.map (fun z => z / (m : Int))
    let col_new := zs.map (fun z => z % (m : Int))
    sp_NZ row_new col_new n m true

/-- Vectorization (sparsity_tools.cpp lines 211-213). -/
def vec (a : CRSSparsity) : Except String CRSSparsity :=
  reshape a a.numel 1

/-- Lower-triangular extraction lowerSparsity (sparsity_tools.cpp lines 216-241):
keep the nonzeros with row >= col and rebuild through sp_NZ with the monotone flag. -/
def lowerSparsity (a : CRSSparsity) : Except String CRSSparsity :=
  let kept := (a.getRow.zip a.col).filter (fun p => p.2 ≤ p.1)
  sp_NZ (kept.map Prod.fst) (kept.map Prod.snd) a.nrow a.ncol true

/-- Lower-triangular nonzero indices lowerNZ (sparsity_tools.cpp lines 243-262):
the storage positions k with row[k] >= col[k], in increasing order. -/
def lowerNZ (a : CRSSparsity) : List Nat :=
  (List.range a.col.length).filter
    (fun k => a.col.getD k 0 ≤ a.getRow.getD k 0)

/-- Specification value: the number of entries of keys that are smaller than i.
This is the value the cumulative-sum row pointers take. -/
def startCnt (keys : List Int) (i : Int) : Int :=
  (keys.countP (fun r => decide (r < i)) : Nat)

/-- Specification row-pointer array: position i holds the number of keys below i. -/
def rowindOf (nrow : Nat) (keys : List Int) : List Int :=
  (List.range (nrow + 1)).map (fun (i : Nat) => startCnt keys (i : Int))

/-- Histogram loop of sp_triplet (sparsity_tools.cpp lines 270-274): assert each key
below the bound, then increment slot key+1.  A key below -1 indexes the vector out of
bounds, which is undefined behaviour in C++ and an error here. -/
def bucketHistogram (nb : Nat) : List Int → List Int → Except String (List Int)
  | [], acc => .ok acc
  | k :: rest, acc =>
    if k < (nb : Int) then
      if 0 ≤ k + 1 then
        bucketHistogram nb rest (acc.set (k + 1).toNat (acc.getD (k + 1).toNat 0 + 1))
      else .error "out_of_range"
    else .error "Row index out of bounds"

/-- Cumulative sums, modelling the in-place loop
"for (i=0; i<nrow; ++i) rowcount[i+1] += rowcount[i];" (sparsity_tools.cpp line 278):
the output at position i is the sum of the inputs at positions 0..i. -/
def cumsum : Int → List Int → List Int
  | _, [] => []
  | acc, x :: rest => (acc + x) :: cumsum (acc + x) rest

/-- Scatter loop of sp_triplet (sparsity_tools.cpp lines 289-298): for each (key,
payload) in order, read the cursor of the key's bucket, store the payload at that
output slot and advance the cursor.  The payload is the original input index, so the
output is the mapping; the new column array is recovered by composing with col. -/
def scatterPerm :
    List (Int × Int) → List Int → List Int → Except String (List Int × List Int)
  | [], cursor, perm => .ok (cursor, perm)
  | (key, k) :: rest, cursor, perm =>
    if 0 ≤ key ∧ key < (cursor.length : Int) then
      let newk := cursor.getD key.toNat 0
      match setAt perm newk k with
      | .error e => .error e
      | .ok perm' => scatterPerm rest (cursor.set key.toNat (newk + 1)) perm'
    else .error "out_of_range"

/-- The (key, payload) list fed by the scatter loop of countingSortPerm: each input
position paired with its key, the payload being the position itself (sparsity_tools.cpp
lines 289-298: the loop index k is the payload and row[k] the key). -/
def enumPairs (keys : List Int) : List (Int × Int) :=
  keys.enum.map (fun p => (p.2, (p.1 : Int)))

/-- Counting sort by key: histogram, cumulative sums, scatter.  This is the shared
shape of sp_triplet's assembly (sparsity_tools.cpp lines 270-298) and of the
transpose described in the spec.  Returns the bucket-start array (the row pointer,
length nb+1) and the stable permutation mapping output slots to input indices. -/
def countingSortPerm (nb : Nat) (keys : List Int) :
    Except String (List Int × List Int) :=
  match bucketHistogram nb keys (List.replicate (nb + 1) 0) with
  | .error e => .error e
  | .ok hist =>
    let starts := cumsum 0 hist
    match scatterPerm (enumPairs keys) starts
        (List.replicate keys.length 0) with
    | .error e => .error e
    | .ok (_, perm) => .ok (starts, perm)

/-- Column indices stored for row i (the slice rowind[i] .. rowind[i+1]-1 of col). -/
def rowSliceCol (s : CRSSparsity) (i : Nat) : List Int :=
  (s.col.take (s.rowind.getD (i + 1) 0).toNat).drop (s.rowind.getD i 0).toNat

/-- Adjacent-pairs ordering check: strictly increasing when strict, non-decreasing
otherwise. -/
def sortedRun (strict : Bool) : List Int → Bool
  | [] => true
  | [_] => true
  | a :: b :: rest =>
    (if strict then decide (a < b) else decide (a ≤ b)) && sortedRun strict (b :: rest)

/-- Modelled from the spec: CRSSparsity::columnsSequential(strict) is not under src/.
Per the data model, a pattern is sequential when within each row the column indices
are strictly increasing; the non-strict variant tolerates duplicates (sorted order
with possible repeats). -/
def columnsSequential (s : CRSSparsity) (strict : Bool) : Bool :=
  (List.range s.nrow).all fun i => sortedRun strict (rowSliceCol s i)

/-- Modelled from the spec: CRSSparsity::transpose(mapping) is not under src/.  Per
the Transposer component: histogram the per-column counts to build the output row
pointer, then scatter the nonzeros, visited in row-major order, into per-column
buckets (one cursor per bucket), recording for each output nonzero the original
storage index.  The output column indices are the original row indices. -/
def CRSSparsity.transpose (s : CRSSparsity) : Except String (CRSSparsity × List Int) :=
  match countingSortPerm s.ncol s.col with
  | .error e => .error e
  | .ok (starts, perm) =>
    let row := s.getRow
    .ok (⟨s.ncol, s.nrow, perm.map (fun k => row.getD k.toNat 0), starts⟩, perm)

/-- Coalesce a run of equal column indices inside one row, keeping the mapping entry
of the last duplicate. -/
def dedupAdj : List (Int × Int) → List (Int × Int)
  | [] => []
  | [p] => [p]
  | p :: q :: rest => if p.1 = q.1 then dedupAdj (q :: rest) else p :: dedupAdj (q :: rest)

/-- Modelled from the spec: CRSSparsity::removeDuplicates(mapping) is not under src/.
Per assembly step 4 and the design notes: duplicate (row, column) pairs, adjacent
after the per-row sort, are coalesced to a single surviving entry; exactly one
surviving input identity is kept in the mapping and no values are summed. -/
def removeDuplicates (s : CRSSparsity) (mapping : List Int) : CRSSparsity × List Int :=
  let rows := (List.range s.nrow).map fun i =>
    dedupAdj (((s.col.zip mapping).take (s.rowind.getD (i + 1) 0).toNat).drop
      (s.rowind.getD i 0).toNat)
  let col' := rows.flatMap (fun r => r.map Prod.fst)
  let mapping' := rows.flatMap (fun r => r.map Prod.snd)
  let rowind' := 0 :: cumsum 0 (rows.map (fun r => (r.length : Int)))
  (⟨s.nrow, s.ncol, col', rowind'⟩, mapping')

/-- Double-transpose sorting step of sp_triplet (sparsity_tools.cpp lines 300-317):
when the columns are not flagged sorted and the pattern is not column-sorted within
rows, transpose twice, composing the mappings at each transposition. -/
def sp_triplet_sortStep (columns_are_sorted : Bool) (ret : CRSSparsity)
    (mapping : List Int) : Except String (CRSSparsity × List Int) :=
  if !columns_are_sorted && !(columnsSequential ret false) then
    match ret.transpose with
    | .error e => .error e
    | .ok (ret_trans, tm) =>
      let trans_mapping := tm.map (fun it => mapping.getD it.toNat 0)
      match ret_trans.transpose with
      | .error e => .error e
      | .ok (ret2, m2) =>
        .ok (ret2, m2.map (fun it => trans_mapping.getD it.toNat 0))
  else .ok (ret, mapping)

/-- Duplicate-removal step of sp_triplet (sparsity_tools.cpp lines 319-324): when the
columns are not flagged sorted and the pattern is not strictly column-sorted within
rows, duplicate entries remain and are coalesced. -/
def sp_triplet_dedupStep (columns_are_sorted : Bool) (ret : CRSSparsity)
    (mapping : List Int) : Except String (CRSSparsity × List Int) :=
  if !columns_are_sorted && !(columnsSequential ret true) then
    .ok (removeDuplicates ret mapping)
  else .ok (ret, mapping)

/-- Triplet assembler sp_triplet with mapping (sparsity_tools.cpp lines 264-328):
length assertion; counting sort by row (histogram with the row-bound assertion,
cumulative sums, scatter recording the mapping); if the columns are not flagged
sorted and the result is not column-sorted within rows, sort by transposing twice and
compose the mappings; if duplicates remain, coalesce them. -/
def sp_triplet_mapped (nrow ncol : Nat) (row col : List Int)
    (columns_are_sorted : Bool) : Except String (CRSSparsity × List Int) :=
  if row.length ≠ col.length then .error "inconsistent lengths"
  else
    match countingSortPerm nrow row with
    | .error e => .error e
    | .ok (rowind, perm) =>
      let ret : CRSSparsity := ⟨nrow, ncol, perm.map (fun k => col.getD k.toNat 0), rowind⟩
      match sp_triplet_sortStep columns_are_sorted ret perm with
      | .error e => .error e
      | .ok (ret2, mapping2) => sp_triplet_dedupStep columns_are_sorted ret2 mapping2

/-- Triplet assembler without the mapping output (sparsity_tools.cpp lines 331-334). -/
def sp_triplet (n m : Nat) (row col : List Int) (columns_are_sorted : Bool) :
    Except String CRSSparsity :=
  match sp_triplet_mapped n m row col columns_are_sorted with
  | .error e => .error e
  | .ok (s, _) => .ok s

/-- The input validation performed by sp_triplet (sparsity_tools.cpp lines 267-274):
the row/col length assertion, and inside the histogram loop an upper-bound-only
assertion on each row index.  Column indices are not inspected. -/
def sp_triplet_checks (nrow : Nat) (row col : List Int) : Except String Unit :=
  if row.length ≠ col.length then .error "inconsistent lengths"
  else if row.all (fun r => decide (r < (nrow : Int))) then .ok ()
  else .error "Row index out of bounds"

/-- Integer interval [a, b) as a list, modelling "for (k = a; k < b; ++k)". -/
def intRange (a b : Int) : List Int :=
  (List.range (b - a).toNat).map (fun (t : Nat) => a + (t : Int))

/-- Inputs of casadi_qr (casadi_runtime.hpp lines 234-247) that integer control flow
depends on: the input pattern (ncol columns, colind / row in compressed column
storage as packed in sp_a), the pre-declared Householder-vector pattern sp_v
(v_colind / v_row over nrow_ext extended rows), and the elimination metadata
leftmost, parent and pinv.  The numeric arrays nz_a, x, nz_v, nz_r, beta carry no
information into any index or branch and are not represented. -/
structure QRInput where
  ncol : Nat
  colind : List Int
  row : List Int
  nrow_ext : Nat
  v_colind : List Int
  v_row : List Int
  leftmost : List Int
  parent : List Int
  pinv : List Int
  deriving DecidableEq

/-- Integer state of casadi_qr: the marker array iw (one entry per extended row), the
elimination-path stack region s (the first ncol entries of the callers iw workspace,
disjoint from the marker region), and the running nonzero counters of V and R. -/
structure QRState where
  iw : List Int
  s : List Int
  nnz_v : Int
  nnz_r : Int
  deriving DecidableEq

/-- Elimination-tree ascent of casadi_qr (casadi_runtime.hpp line 265-268):
"for (len=0; iw[r]!=c; r=parent[r]) then s[len++] = r; iw[r] = c;".  Fuel-indexed:
every iteration marks a previously unmarked in-bounds row, so the count of entries
differing from c plus one bounds the iterations and the fuel branch is unreachable
on any run that returns ok. -/
def qr_walkAux (c : Int) (parent : List Int) :
    Nat → Int → Int → List Int → List Int → Except String (Int × List Int × List Int)
  | 0, _, _, _, _ => .error "out of fuel"
  | fuel + 1, r, len, st, iw =>
    if 0 ≤ r ∧ r < (iw.length : Int) then
      if iw.getD r.toNat 0 = c then .ok (len, st, iw)
      else
        if 0 ≤ len ∧ len < (st.length : Int) then
          if 0 ≤ r ∧ r < (parent.length : Int) then
            qr_walkAux c parent fuel (parent.getD r.toNat 0) (len + 1)
              (st.set len.toNat r) (iw.set r.toNat c)
          else .error "out_of_range"
        else .error "out_of_range"
    else .error "out_of_range"

/-- Entry point of the ascent, with fuel as explained at qr_walkAux. -/
def qr_walk (c : Int) (parent : List Int) (r : Int) (st iw : List Int) :
    Except String (Int × List Int × List Int) :=
  qr_walkAux c parent (iw.countP (fun v => v != c) + 1) r 0 st iw

/-- Path transfer of casadi_qr (casadi_runtime.hpp line 269):
"while (len>0) s[--top] = s[--len];", structurally recursive on the exact iteration
count len.toNat. -/
def qr_pushPathAux : Nat → Int → Int → List Int → Except String (Int × List Int)
  | 0, _, top, st => .ok (top, st)
  | n + 1, len, top, st =>
    match getI st (len - 1) with
    | .error e => .error e
    | .ok v =>
      match setAt st (top - 1) v with
      | .error e => .error e
      | .ok st' => qr_pushPathAux n (len - 1) (top - 1) st'

/-- Wrapper computing the iteration count of the path transfer. -/
def qr_pushPath (len top : Int) (st : List Int) : Except String (Int × List Int) :=
  qr_pushPathAux len.toNat len top st

/-- Body of the per-nonzero loop of casadi_qr for column c (casadi_runtime.hpp lines
262-276): ascend from the leftmost column of the nonzeros row, transfer the
collected path to the stack top, then possibly add the permuted row to the pattern
of V (the write x[r] = nz_a[k] at line 271 is a pure value operation). -/
def qr_entry (inp : QRInput) (c k : Int) (top : Int) (st iw : List Int) (nnz_v : Int) :
    Except String (Int × List Int × List Int × Int) := do
  let rk ← getI inp.row k
  let r0 ← getI inp.leftmost rk
  let (len, st1, iw1) ← qr_walk c inp.parent r0 st iw
  let (top1, st2) ← qr_pushPath len top st1
  let r1 ← getI inp.pinv rk
  if c < r1 then
    let m ← getI iw1 r1
    if m < c then .ok (top1, st2, iw1.set r1.toNat c, nnz_v + 1)
    else .ok (top1, st2, iw1, nnz_v)
  else .ok (top1, st2, iw1, nnz_v)

/-- Per-column loop over the nonzeros of column c (casadi_runtime.hpp line 262). -/
def qr_entries (inp : QRInput) (c : Int) :
    List Int → Int → List Int → List Int → Int →
    Except String (Int × List Int × List Int × Int)
  | [], top, st, iw, nnz_v => .ok (top, st, iw, nnz_v)
  | k :: rest, top, st, iw, nnz_v => do
    let (top1, st1, iw1, nnz_v1) ← qr_entry inp c k top st iw nnz_v
    qr_entries inp c rest top1 st1 iw1 nnz_v1

/-- Fill propagation of casadi_qr (casadi_runtime.hpp lines 289-295): rows in the
support of reflector r not yet marked for column c join the pattern of V. -/
def qr_fillLoop (inp : QRInput) (c : Int) :
    List Int → List Int → Int → Except String (List Int × Int)
  | [], iw, nnz_v => .ok (iw, nnz_v)
  | k2 :: rest, iw, nnz_v => do
    let r2 ← getI inp.v_row k2
    let m ← getI iw r2
    if m < c then qr_fillLoop inp c rest (iw.set r2.toNat c) (nnz_v + 1)
    else qr_fillLoop inp c rest iw nnz_v

/-- Stack-drain loop of casadi_qr (casadi_runtime.hpp lines 278-297): for each row r
on the stack, the reflector application and the write nz_r[nnz_r++] = x[r] are value
operations over the support v_colind[r] .. v_colind[r+1]; the integer effects are the
counter increment and, when parent[r] = c, the fill propagation. -/
def qr_drain (inp : QRInput) (c : Int) :
    List Int → List Int → List Int → Int → Int → Except String (List Int × Int × Int)
  | [], _, iw, nnz_v, nnz_r => .ok (iw, nnz_v, nnz_r)
  | k :: rest, st, iw, nnz_v, nnz_r => do
    let r ← getI st k
    let a ← getI inp.v_colind r
    let b ← getI inp.v_colind (r + 1)
    let p ← getI inp.parent r
    if p = c then do
      let (iw1, nnz_v1) ← qr_fillLoop inp c (intRange a b) iw nnz_v
      qr_drain inp c rest st iw1 nnz_v1 (nnz_r + 1)
    else qr_drain inp c rest st iw nnz_v (nnz_r + 1)

/-- Integer effects of one column of casadi_qr (casadi_runtime.hpp lines 255-305):
mark the diagonal (iw[c] = c, line 259) and count it in V, process the nonzeros of
column c, drain the stack from top to ncol, and count the diagonal entry of R
produced by the Householder constructor (line 304; the gather at lines 299-302 and
casadi_house touch only values). -/
def qr_column (inp : QRInput) (st : QRState) (c : Int) : Except String QRState := do
  let iw0 ← setAt st.iw c c
  let a ← getI inp.colind c
  let b ← getI inp.colind (c + 1)
  let (top, st1, iw1, nnz_v1) ←
    qr_entries inp c (intRange a b) (inp.ncol : Int) st.s iw0 (st.nnz_v + 1)
  let (iw2, nnz_v2, nnz_r2) ←
    qr_drain inp c (intRange top (inp.ncol : Int)) st1 iw1 nnz_v1 st.nnz_r
  .ok ⟨iw2, st1, nnz_v2, nnz_r2 + 1⟩

/-- The integer/marking projection of casadi_qr (casadi_runtime.hpp lines 234-306)
run over the first ccount columns (the full factorization runs all ncol columns):
the work vector region iw is cleared to -1 (line 251), then columns are processed in
increasing order.  Every array access of the source that feeds an index or a branch
is bounds-checked here, so a run returning ok performed only in-bounds accesses. -/
def casadi_qr_marks (inp : QRInput) (ccount : Nat) : Except String QRState :=
  (List.range ccount).foldlM (fun (st : QRState) (c : Nat) => qr_column inp st (c : Int))
    ⟨List.replicate inp.nrow_ext (-1), List.replicate inp.ncol 0, 0, 0⟩

/-- The flat index of a nonzero under the pattern shape. -/
def flatIdx (ncol : Nat) (p : Int × Int) : Int := p.2 + p.1 * (ncol : Int)

/-- The sp_tril column-loop step, with the ignored loop index fixed. -/
def sp_tril_step (st : Int × Int × List Int) : Int × Int × List Int := sp_tril_colStep st 0

/-- Triangle numbers, the row-pointer values of sp_tril. -/
def tri (i : Nat) : Int := ((i * (i + 1) / 2 : Nat) : Int)

/-- The column list of sp_tril: row r stores columns 0 .. r. -/
def trilCols (n : Nat) : List Int :=
  (List.range n).flatMap (fun r => (List.range (r + 1)).map (fun (x : Nat) => (x : Int)))

/-- Number of items carrying a given bucket key. -/
def cntKey (S : List (Int × Int)) (b : Int) : Int :=
  ((S.countP (fun p => decide (p.1 = b))) : Nat)

/-- Specification value for the scatter output: the input positions grouped by
bucket, in input order within each bucket (the stable counting sort of the positions
by key). -/
def bucketPerm (nb : Nat) (keys : List Int) : List Int :=
  (List.range nb).flatMap (fun (b : Nat) =>
    ((enumPairs keys).filter (fun p => decide (p.1 = ((b : Nat) : Int)))).map Prod.snd)

/-- Stable partition of a list of pairs by their first component into nb buckets:
bucket b receives, in order, the pairs whose first component equals b. -/
def stablePart (nb : Nat) (l : List (Int × Int)) : List (Int × Int) :=
  (List.range nb).flatMap (fun (b : Nat) =>
    l.filter (fun p => decide (p.1 = ((b : Nat) : Int))))

/-- Component swap of a pair. -/
def pairSwap (p : Int × Int) : Int × Int := (p.2, p.1)

-- Concrete checks of the embedding on the spec scenarios (claims C2 and C8 data).
example : sp_diag 3 = ⟨3, 3, [0, 1, 2], [0, 1, 2, 3]⟩ := by rfl
example : sp_tril 3 = ⟨3, 3, [0, 0, 1, 0, 1, 2], [0, 1, 3, 6]⟩ := by rfl
example : sp_NZ [0] [5] 1 2 true = .ok ⟨1, 2, [5], [0, 1]⟩ := by rfl
example : sp_triplet_mapped 2 2 [1, 0, 1] [0, 1, 0] false =
    .ok (⟨2, 2, [1, 0], [0, 1, 2]⟩, [1, 2]) := by rfl
example : sp_triplet_mapped 1 1 [0, 0] [0, 0] true =
    .ok (⟨1, 1, [0, 0], [0, 2]⟩, [0, 1]) := by rfl

/-! Helper lemmas about list reads and writes. -/

theorem getD_set_self (l : List Int) (i : Nat) (v : Int) (h : i < l.length) :
    (l.set i v).getD i 0 = v := by
  simp [List.getD_eq_getElem?_getD, List.getElem?_set_self, h]

theorem getD_set_ne (l : List Int) (i j : Nat) (v : Int) (h : i ≠ j) :
    (l.set i v).getD j 0 = l.getD j 0 := by
  simp [List.getD_eq_getElem?_getD, List.getElem?_set_ne, h]

theorem setAt_ok (l : List Int) (i v : Int) (h0 : 0 ≤ i) (hl : i < (l.length : Int)) :
    setAt l i v = .ok (l.set i.toNat v) := by
  simp [setAt, h0, hl]

/-! Lemmas about startCnt, the cumulative-count specification of row pointers. -/

theorem startCnt_nonneg (keys : List Int) (i : Int) : 0 ≤ startCnt keys i := by
  simp [startCnt]

theorem startCnt_le_length (keys : List Int) (i : Int) :
    startCnt keys i ≤ (keys.length : Int) := by
  simp only [startCnt, Nat.cast_le]
  exact List.countP_le_length _

theorem startCnt_mono (keys : List Int) {i j : Int} (h : i ≤ j) :
    startCnt keys i ≤ startCnt keys j := by
  simp only [startCnt, Nat.cast_le]
  apply List.countP_mono_left
  intro a ha hai
  simp only [decide_eq_true_eq] at hai ⊢
  omega

theorem startCnt_cons (r : Int) (keys : List Int) (i : Int) :
    startCnt (r :: keys) i = (if r < i then 1 else 0) + startCnt keys i := by
  simp only [startCnt, List.countP_cons]
  by_cases h : r < i <;> (simp [h]; try omega)

theorem startCnt_of_all_lt (keys : List Int) (i : Int) (h : ∀ r ∈ keys, r < i) :
    startCnt keys i = (keys.length : Int) := by
  simp only [startCnt, Nat.cast_inj]
  rw [List.countP_eq_length]
  intro a ha
  simpa using h a ha

theorem startCnt_of_all_ge (keys : List Int) (i : Int) (h : ∀ r ∈ keys, i ≤ r) :
    startCnt keys i = 0 := by
  simp only [startCnt, Nat.cast_eq_zero]
  rw [List.countP_eq_zero]
  intro a ha
  simpa using not_lt.mpr (h a ha)

theorem startCnt_append (k1 k2 : List Int) (i : Int) :
    startCnt (k1 ++ k2) i = startCnt k1 i + startCnt k2 i := by
  simp [startCnt, List.countP_append]

/-- The value startCnt keys (i+1) - startCnt keys i is the number of keys equal to i. -/
theorem startCnt_succ_sub (keys : List Int) (i : Int) :
    startCnt keys (i + 1) = startCnt keys i + (keys.countP (fun r => decide (r = i)) : Nat) := by
  induction keys with
  | nil => simp [startCnt]
  | cons r keys ih =>
    rw [startCnt_cons, startCnt_cons, List.countP_cons, ih]
    by_cases h1 : r < i + 1 <;> by_cases h2 : r < i <;> by_cases h3 : r = i <;>
      simp [h1, h2, h3] <;> omega

/-! Characterization of fillUp. -/

theorem fillUpAux_succ_of_ok (cnt : Int) (n : Nat) (z : Int) {rowind rowind' : List Int}
    (h : setAt rowind (z + 1) cnt = .ok rowind') :
    fillUpAux cnt (n + 1) z rowind = fillUpAux cnt n (z + 1) rowind' := by
  simp only [fillUpAux, h]

theorem fillUpAux_succ_of_error (cnt : Int) (n : Nat) (z : Int) {rowind : List Int}
    {e : String} (h : setAt rowind (z + 1) cnt = .error e) :
    fillUpAux cnt (n + 1) z rowind = .error e := by
  simp only [fillUpAux, h]

theorem fillUpAux_spec (cnt : Int) : ∀ (n : Nat) (z : Int) (rowind : List Int),
    0 ≤ z → z + n < (rowind.length : Int) →
    ∃ rowind', fillUpAux cnt n z rowind = .ok (z + n, rowind') ∧
      rowind'.length = rowind.length ∧
      ∀ i : Nat, rowind'.getD i 0 =
        if z < (i : Int) ∧ (i : Int) ≤ z + n then cnt else rowind.getD i 0 := by
  intro n
  induction n with
  | zero =>
    intro z rowind h0 _
    refine ⟨rowind, by simp [fillUpAux], rfl, ?_⟩
    intro i
    rw [if_neg (by push_cast; omega : ¬ (z < (i : Int) ∧ (i : Int) ≤ z + ((0 : Nat) : Int)))]
  | succ n ih =>
    intro z rowind h0 hlen
    push_cast at hlen
    have hset : setAt rowind (z + 1) cnt = .ok (rowind.set (z + 1).toNat cnt) :=
      setAt_ok _ _ _ (by omega) (by omega)
    have hlen' : (rowind.set (z + 1).toNat cnt).length = rowind.length := by
      simp
    obtain ⟨rowind', hok, hl, hval⟩ := ih (z + 1) (rowind.set (z + 1).toNat cnt)
      (by omega) (by rw [hlen']; omega)
    rw [hlen'] at hl
    refine ⟨rowind', ?_, hl, ?_⟩
    · rw [fillUpAux_succ_of_ok cnt n z hset, hok]
      have : z + 1 + (n : Int) = z + ((n + 1 : Nat) : Int) := by push_cast; omega
      rw [this]
    · intro i
      rw [hval i]
      by_cases hc : z + 1 < (i : Int) ∧ (i : Int) ≤ z + 1 + n
      · rw [if_pos hc, if_pos (by push_cast; omega : z < (i : Int) ∧ (i : Int) ≤ z + ((n + 1 : Nat) : Int))]
      · rw [if_neg hc]
        by_cases he : (i : Int) = z + 1
        · have hiz : i = (z + 1).toNat := by omega
          rw [if_pos (by push_cast; omega : z < (i : Int) ∧ (i : Int) ≤ z + ((n + 1 : Nat) : Int)),
            hiz, getD_set_self]
          omega
        · rw [if_neg (by push_cast; omega : ¬ (z < (i : Int) ∧ (i : Int) ≤ z + ((n + 1 : Nat) : Int))),
            getD_set_ne]
          omega

theorem fillUp_spec (target z cnt : Int) (rowind : List Int) (h0 : 0 ≤ z)
    (hlen : target < (rowind.length : Int)) :
    ∃ rowind', fillUp target z cnt rowind = .ok (max z target, rowind') ∧
      rowind'.length = rowind.length ∧
      ∀ i : Nat, rowind'.getD i 0 =
        if z < (i : Int) ∧ (i : Int) ≤ target then cnt else rowind.getD i 0 := by
  by_cases hz : z < target
  · obtain ⟨rowind', hok, hl, hval⟩ := fillUpAux_spec cnt (target - z).toNat z rowind h0
      (by omega)
    have hn : z + (((target - z).toNat : Nat) : Int) = target := by omega
    have hmax : max z target = target := by omega
    refine ⟨rowind', ?_, hl, ?_⟩
    · show fillUpAux cnt (target - z).toNat z rowind = _
      rw [hok, hn, hmax]
    · intro i
      rw [hval i, hn]
  · have hn : (target - z).toNat = 0 := by omega
    have hmax : max z target = z := by omega
    refine ⟨rowind, ?_, rfl, ?_⟩
    · show fillUpAux cnt (target - z).toNat z rowind = _
      rw [hn, hmax]
      rfl
    · intro i
      rw [if_neg (by omega)]

theorem fillUpAux_fail (cnt : Int) : ∀ (n : Nat) (z : Int) (rowind : List Int),
    0 ≤ z → 0 < n → (rowind.length : Int) ≤ z + n →
    ∃ e, fillUpAux cnt n z rowind = .error e := by
  intro n
  induction n with
  | zero => omega
  | succ n ih =>
    intro z rowind h0 _ hlen
    push_cast at hlen
    by_cases hz : z + 1 < (rowind.length : Int)
    · have hset : setAt rowind (z + 1) cnt = .ok (rowind.set (z + 1).toNat cnt) :=
        setAt_ok _ _ _ (by omega) hz
      have hn : 0 < n := by omega
      obtain ⟨e, he⟩ := ih (z + 1) (rowind.set (z + 1).toNat cnt) (by omega) hn
        (by simp only [List.length_set]; omega)
      exact ⟨e, by rw [fillUpAux_succ_of_ok cnt n z hset, he]⟩
    · refine ⟨"out_of_range", fillUpAux_succ_of_error cnt n z ?_⟩
      simp only [setAt, ite_eq_right_iff]
      intro hcon
      omega

theorem fillUp_fail (target z cnt : Int) (rowind : List Int) (h0 : 0 ≤ z)
    (hz : z < target) (hlen : (rowind.length : Int) ≤ target) :
    ∃ e, fillUp target z cnt rowind = .error e := by
  obtain ⟨e, he⟩ := fillUpAux_fail cnt (target - z).toNat z rowind h0 (by omega) (by omega)
  exact ⟨e, he⟩

theorem fillUp_noop (target z cnt : Int) (rowind : List Int) (h : target ≤ z) :
    fillUp target z cnt rowind = .ok (z, rowind) := by
  show fillUpAux cnt (target - z).toNat z rowind = _
  rw [(by omega : (target - z).toNat = 0)]
  rfl

/-! Rewriting helpers for Except sequencing. -/

theorem bind_ok_eq {α β : Type} (x : Except String α) (a : α) (h : x = .ok a)
    (f : α → Except String β) : x >>= f = f a := by subst h; rfl

theorem bind_error_eq {α β : Type} (x : Except String α) (e : String) (h : x = .error e)
    (f : α → Except String β) : x >>= f = .error e := by subst h; rfl

/-! Characterization of the sp_NZ main loop on sorted in-range input.  The state
invariant: after processing a prefix with counter value cnt, slot i of rowind holds
for i up to the last processed row the count of already-processed entries below i,
the slot just above the last processed row holds the pre-increment counter (it is
overwritten later), and all higher slots are untouched. -/

theorem sp_NZ_main_spec : ∀ (S : List Int) (z cnt : Int) (rowind : List Int) (nrow : Nat),
    rowind.length = nrow + 1 →
    0 ≤ z →
    (∀ r ∈ S, z ≤ r ∧ r < (nrow : Int)) →
    S.Pairwise (· ≤ ·) →
    ∃ z2 rowind2, sp_NZ_main S z cnt rowind = .ok (z2, cnt + S.length, rowind2) ∧
      rowind2.length = rowind.length ∧
      z ≤ z2 ∧ (∀ r ∈ S, r ≤ z2) ∧ (S = [] → z2 = z) ∧ (S ≠ [] → z2 < (nrow : Int)) ∧
      ∀ i : Nat, rowind2.getD i 0 =
        if (i : Int) ≤ z then rowind.getD i 0
        else if (i : Int) ≤ z2 then cnt + startCnt S (i : Int)
        else if S ≠ [] ∧ (i : Int) = z2 + 1 then cnt + S.length - 1
        else rowind.getD i 0 := by
  intro S
  induction S with
  | nil =>
    intro z cnt rowind nrow hlen h0 hmem hsort
    refine ⟨z, rowind, by simp [sp_NZ_main], rfl, le_refl z, by simp, fun _ => rfl,
      by simp, ?_⟩
    intro i
    by_cases h1 : (i : Int) ≤ z
    · rw [if_pos h1]
    · rw [if_neg h1, if_neg h1, if_neg (by simp)]
  | cons r rest ih =>
    intro z cnt rowind nrow hlen h0 hmem hsort
    obtain ⟨hzr, hrn⟩ := hmem r (List.mem_cons_self ..)
    have hrest_ge : ∀ x ∈ rest, r ≤ x := (List.pairwise_cons.mp hsort).1
    obtain ⟨rowind1, hfill, hlen1, hval1⟩ := fillUp_spec r z cnt rowind h0
      (by rw [hlen]; push_cast; omega)
    rw [(by omega : max z r = r)] at hfill
    have hset : setAt rowind1 (r + 1) cnt = .ok (rowind1.set (r + 1).toNat cnt) :=
      setAt_ok _ _ _ (by omega) (by rw [hlen1, hlen]; push_cast; omega)
    have hlen1' : (rowind1.set (r + 1).toNat cnt).length = rowind.length := by
      simp [hlen1]
    obtain ⟨z2, rowind2, hrec, hlen2, hz2a, hz2b, hz2nil, hz2lt, hval2⟩ :=
      ih r (cnt + 1) (rowind1.set (r + 1).toNat cnt) nrow (by rw [hlen1']; exact hlen)
        (by omega)
        (fun x hx => ⟨hrest_ge x hx, (hmem x (List.mem_cons_of_mem _ hx)).2⟩)
        (List.pairwise_cons.mp hsort).2
    have hz2lt' : z2 < (nrow : Int) := by
      rcases eq_or_ne rest [] with h | h
      · rw [hz2nil h]
        exact hrn
      · exact hz2lt h
    refine ⟨z2, rowind2, ?_, by rw [hlen2, hlen1'], by omega,
      ?_, by simp, fun _ => hz2lt', ?_⟩
    · simp only [sp_NZ_main, hfill, hset, hrec, List.length_cons]
      have : cnt + 1 + (rest.length : Int) = cnt + ((rest.length + 1 : Nat) : Int) := by
        push_cast; omega
      rw [this]
    · intro x hx
      rcases List.mem_cons.mp hx with rfl | hx
      · omega
      · exact hz2b x hx
    · intro i
      rw [hval2 i]
      have hset_getD : ∀ j : Nat, (rowind1.set (r + 1).toNat cnt).getD j 0 =
          if (j : Int) = r + 1 then cnt else rowind1.getD j 0 := by
        intro j
        by_cases hj : (j : Int) = r + 1
        · rw [if_pos hj, (by omega : j = (r + 1).toNat),
            getD_set_self rowind1 (r + 1).toNat cnt (by rw [hlen1, hlen]; omega)]
        · rw [if_neg hj, getD_set_ne]
          omega
      by_cases hA : (i : Int) ≤ z
      · -- untouched below z
        rw [if_pos (by omega : (i : Int) ≤ r), hset_getD i, if_neg (by omega), hval1 i,
          if_neg (by omega), if_pos hA]
      · rw [if_neg hA]
        by_cases hB : (i : Int) ≤ r
        · -- z < i ≤ r: the fill zone, value cnt
          rw [if_pos hB, hset_getD i, if_neg (by omega), hval1 i, if_pos (by omega),
            if_pos (by omega : (i : Int) ≤ z2)]
          rw [startCnt_cons, startCnt_of_all_ge rest (i : Int) (fun x hx => by
            have := hrest_ge x hx; omega)]
          rw [if_neg (by omega)]
          omega
        · -- i > r
          rw [if_neg hB]
          by_cases hC : (i : Int) ≤ z2
          · rw [if_pos hC, if_pos hC, startCnt_cons, if_pos (by omega)]
            omega
          · rw [if_neg hC, if_neg hC]
            by_cases hD : (i : Int) = z2 + 1
            · by_cases hrest : rest = []
              · -- rest empty: z2 = r, slot r+1 holds cnt
                subst hrest
                have hir : (i : Int) = r + 1 := by rw [hz2nil rfl] at hD; omega
                rw [if_neg (by simp), if_pos ⟨by simp, hD⟩, hset_getD i, if_pos hir]
                simp only [List.length_cons, List.length_nil]
                push_cast
                omega
              · rw [if_pos ⟨hrest, hD⟩, if_pos ⟨by simp, hD⟩]
                simp only [List.length_cons]
                push_cast
                omega
            · have hir : ¬ (i : Int) = r + 1 := by omega
              rw [if_neg (by simp [hD]), if_neg (by simp [hD]), hset_getD i,
                if_neg hir, hval1 i, if_neg (by omega)]


/-! Lemmas about rowindOf, the specification row-pointer array. -/

theorem rowindOf_length (nrow : Nat) (keys : List Int) :
    (rowindOf nrow keys).length = nrow + 1 := by
  rw [rowindOf, List.length_map, List.length_range]

theorem rowindOf_getD (nrow : Nat) (keys : List Int) (i : Nat) (h : i < nrow + 1) :
    (rowindOf nrow keys).getD i 0 = startCnt keys (i : Int) := by
  have hl : i < (rowindOf nrow keys).length := by rw [rowindOf_length]; omega
  rw [List.getD_eq_getElem _ 0 hl]
  simp [rowindOf]

theorem getD_replicate_zero (n i : Nat) : (List.replicate n (0 : Int)).getD i 0 = 0 := by
  rw [List.getD_eq_getElem?_getD, List.getElem?_replicate]
  split <;> rfl

theorem list_eq_of_getD (l1 l2 : List Int) (hlen : l1.length = l2.length)
    (h : ∀ i, i < l1.length → l1.getD i 0 = l2.getD i 0) : l1 = l2 := by
  apply List.ext_getElem hlen
  intro i h1 h2
  have := h i h1
  rwa [List.getD_eq_getElem l1 0 h1, List.getD_eq_getElem l2 0 h2] at this

/-- Correctness of sp_NZ on sorted in-range input: the stored column list is returned
unchanged and the computed row pointer is the cumulative count of row indices. -/
theorem sp_NZ_spec (row col : List Int) (nrow ncol : Nat)
    (hlen : row.length = col.length)
    (hmem : ∀ r ∈ row, 0 ≤ r ∧ r < (nrow : Int))
    (hsort : row.Pairwise (· ≤ ·)) :
    sp_NZ row col nrow ncol true = .ok ⟨nrow, ncol, col, rowindOf nrow row⟩ := by
  obtain ⟨z2, rowind2, hmain, hlen2, hz2a, hz2b, hz2nil, hz2lt, hval⟩ :=
    sp_NZ_main_spec row 0 0 (List.replicate (nrow + 1) 0) nrow (by simp) le_rfl
      (fun r hr => ⟨(hmem r hr).1, (hmem r hr).2⟩) hsort
  obtain ⟨rowind3, hfillok, hlen3, hval3⟩ := fillUp_spec (nrow : Int) z2
    (0 + (row.length : Int)) rowind2 (by omega)
    (by rw [hlen2]; simp only [List.length_replicate]; push_cast; omega)
  have hmax : max z2 (nrow : Int) = (nrow : Int) := by
    rcases eq_or_ne row [] with h | h
    · rw [hz2nil h]
      simp
    · have := hz2lt h
      omega
  rw [hmax] at hfillok
  have hgoalrowind : rowind3 = rowindOf nrow row := by
    apply list_eq_of_getD
    · rw [hlen3, hlen2, List.length_replicate, rowindOf_length]
    · intro i hi
      rw [hlen3, hlen2, List.length_replicate] at hi
      rw [rowindOf_getD nrow row i hi, hval3 i]
      by_cases hA : z2 < (i : Int) ∧ (i : Int) ≤ (nrow : Int)
      · rw [if_pos hA, startCnt_of_all_lt row (i : Int) (fun x hx => by
          have := hz2b x hx; omega)]
        omega
      · have hile : (i : Int) ≤ z2 := by omega
        rw [if_neg hA, hval i]
        by_cases hB : (i : Int) ≤ 0
        · rw [if_pos hB, getD_replicate_zero,
            startCnt_of_all_ge row (i : Int) (fun x hx => by have := (hmem x hx).1; omega)]
        · rw [if_neg hB, if_pos hile]
          omega
  simp only [sp_NZ]
  rw [if_neg (by simp [hlen]), if_neg (by simp), hmain]
  simp only [hfillok, hgoalrowind]

/-! Stable partition lemmas: scanning buckets 0 .. nb-1 and collecting, per bucket,
the elements whose key equals the bucket index reconstitutes the original list when
it is sorted by key, and a permutation of it in general. -/

theorem sorted_filter_partition {α : Type} (key : α → Int) (c : Int) :
    ∀ l : List α, l.Pairwise (fun a b => key a ≤ key b) →
    l.filter (fun x => decide (key x < c)) ++ l.filter (fun x => !decide (key x < c)) = l := by
  intro l
  induction l with
  | nil => simp
  | cons x rest ih =>
    intro hsort
    obtain ⟨hx, hrest⟩ := List.pairwise_cons.mp hsort
    by_cases hc : key x < c
    · rw [List.filter_cons_of_pos (by simp [hc]), List.filter_cons_of_neg (by simp [hc]),
        List.cons_append, ih hrest]
    · have hnil : rest.filter (fun x => decide (key x < c)) = [] := by
        rw [List.filter_eq_nil_iff]
        intro a ha
        have := hx a ha
        simp only [decide_eq_true_eq]
        omega
      have hall : rest.filter (fun x => !decide (key x < c)) = rest := by
        rw [List.filter_eq_self]
        intro a ha
        have := hx a ha
        simp only [Bool.not_eq_eq_eq_not, Bool.not_true, decide_eq_false_iff_not]
        omega
      rw [List.filter_cons_of_neg (by simp [hc]), List.filter_cons_of_pos (by simp [hc]),
        hnil, hall]
      simp

/-- Restricting a bucket filter to the elements below the bucket bound changes
nothing. -/
theorem filter_eq_filter_lt {α : Type} (key : α → Int) (nb : Nat) (l : List α)
    (b : Nat) (hb : b < nb) :
    l.filter (fun x => decide (key x = (b : Int))) =
    (l.filter (fun x => decide (key x < (nb : Int)))).filter
      (fun x => decide (key x = (b : Int))) := by
  rw [List.filter_comm, List.filter_filter]
  apply (List.filter_congr ?_).symm
  intro x _
  by_cases hx : key x = (b : Int)
  · have hlt : key x < (nb : Int) := by rw [hx]; push_cast; omega
    rw [decide_eq_true hx, decide_eq_true hlt]
    rfl
  · rw [decide_eq_false hx]
    simp

theorem flatMap_filter_sorted {α : Type} (key : α → Int) :
    ∀ (nb : Nat) (l : List α), (∀ x ∈ l, 0 ≤ key x ∧ key x < nb) →
    l.Pairwise (fun a b => key a ≤ key b) →
    ((List.range nb).flatMap fun (b : Nat) =>
      l.filter (fun x => decide (key x = (b : Int)))) = l := by
  intro nb
  induction nb with
  | zero =>
    intro l hmem _
    have : l = [] := by
      cases l with
      | nil => rfl
      | cons x rest =>
        have := hmem x (List.mem_cons_self ..)
        push_cast at this
        omega
    subst this
    simp
  | succ nb ih =>
    intro l hmem hsort
    rw [List.range_succ, List.flatMap_append, List.flatMap_singleton]
    have hA : ((List.range nb).flatMap fun (b : Nat) =>
        l.filter (fun x => decide (key x = (b : Int)))) =
        l.filter (fun x => decide (key x < (nb : Int))) := by
      have hcg : ((List.range nb).flatMap fun (b : Nat) =>
          l.filter (fun x => decide (key x = (b : Int)))) =
          (List.range nb).flatMap fun (b : Nat) =>
            (l.filter (fun x => decide (key x < (nb : Int)))).filter
              (fun x => decide (key x = (b : Int))) :=
        List.flatMap_congr (fun b hb => filter_eq_filter_lt key nb l b (List.mem_range.mp hb))
      rw [hcg]
      exact ih (l.filter (fun x => decide (key x < (nb : Int))))
        (fun x hx => by
          have hm := List.mem_filter.mp hx
          have h2 := hm.2
          simp only [decide_eq_true_eq] at h2
          exact ⟨(hmem x hm.1).1, h2⟩)
        (hsort.filter _)
    rw [hA]
    have hlast : l.filter (fun x => decide (key x = (nb : Int))) =
        l.filter (fun x => !decide (key x < (nb : Int))) := by
      apply List.filter_congr
      intro x hx
      have := hmem x hx
      push_cast at this
      by_cases hc : key x = (nb : Int)
      · have : ¬ key x < (nb : Int) := by omega
        simp [hc, this]
      · have : key x < (nb : Int) := by omega
        simp [hc, this]
    rw [hlast]
    exact sorted_filter_partition key (nb : Int) l hsort

theorem flatMap_filter_perm {α : Type} (key : α → Int) :
    ∀ (nb : Nat) (l : List α), (∀ x ∈ l, 0 ≤ key x ∧ key x < nb) →
    List.Perm
      ((List.range nb).flatMap fun (b : Nat) =>
        l.filter (fun x => decide (key x = (b : Int)))) l := by
  intro nb
  induction nb with
  | zero =>
    intro l hmem
    have : l = [] := by
      cases l with
      | nil => rfl
      | cons x rest =>
        have := hmem x (List.mem_cons_self ..)
        push_cast at this
        omega
    subst this
    simp
  | succ nb ih =>
    intro l hmem
    rw [List.range_succ, List.flatMap_append, List.flatMap_singleton]
    have hcg : ((List.range nb).flatMap fun (b : Nat) =>
        l.filter (fun x => decide (key x = (b : Int)))) =
        (List.range nb).flatMap fun (b : Nat) =>
          (l.filter (fun x => decide (key x < (nb : Int)))).filter
            (fun x => decide (key x = (b : Int))) :=
      List.flatMap_congr (fun b hb => filter_eq_filter_lt key nb l b (List.mem_range.mp hb))
    rw [hcg]
    have hperm := ih (l.filter (fun x => decide (key x < (nb : Int))))
      (fun x hx => by
        have hm := List.mem_filter.mp hx
        have h2 := hm.2
        simp only [decide_eq_true_eq] at h2
        exact ⟨(hmem x hm.1).1, h2⟩)
    have hlast : l.filter (fun x => decide (key x = (nb : Int))) =
        l.filter (fun x => !decide (key x < (nb : Int))) := by
      apply List.filter_congr
      intro x hx
      have := hmem x hx
      push_cast at this
      by_cases hc : key x = (nb : Int)
      · have : ¬ key x < (nb : Int) := by omega
        simp [hc, this]
      · have : key x < (nb : Int) := by omega
        simp [hc, this]
    rw [hlast]
    exact List.Perm.trans (List.Perm.append hperm (List.Perm.refl _))
      (List.filter_append_perm _ l)

/-! Characterization of getRow. -/

theorem filter_eq_replicate_countP (keys : List Int) (b : Int) :
    keys.filter (fun x => decide (x = b)) =
    List.replicate (keys.countP (fun x => decide (x = b))) b := by
  induction keys with
  | nil => simp
  | cons x rest ih =>
    by_cases h : x = b
    · subst h
      rw [List.filter_cons_of_pos (by simp), List.countP_cons_of_pos _ _ (by simp), ih,
        List.replicate_succ]
    · rw [List.filter_cons_of_neg (by simp [h]), List.countP_cons_of_neg _ _ (by simp [h]), ih]

theorem getRow_mk_rowindOf (nrow ncol : Nat) (col keys : List Int) :
    (CRSSparsity.mk nrow ncol col (rowindOf nrow keys)).getRow =
    (List.range nrow).flatMap fun (b : Nat) =>
      keys.filter (fun x => decide (x = (b : Int))) := by
  unfold CRSSparsity.getRow
  dsimp only
  apply List.flatMap_congr
  intro i hi
  have hi' := List.mem_range.mp hi
  rw [rowindOf_getD nrow keys (i + 1) (by omega), rowindOf_getD nrow keys i (by omega),
    (by push_cast; rfl : ((i + 1 : Nat) : Int) = (i : Int) + 1), startCnt_succ_sub]
  have harith : startCnt keys (i : Int) +
      ((keys.countP (fun r => decide (r = (i : Int))) : Nat) : Int) -
      startCnt keys (i : Int) =
      ((keys.countP (fun r => decide (r = (i : Int))) : Nat) : Int) := by omega
  rw [harith, Int.toNat_natCast, filter_eq_replicate_countP]

theorem getRow_mk_rowindOf_sorted (nrow ncol : Nat) (col keys : List Int)
    (hmem : ∀ r ∈ keys, 0 ≤ r ∧ r < (nrow : Int)) (hsort : keys.Pairwise (· ≤ ·)) :
    (CRSSparsity.mk nrow ncol col (rowindOf nrow keys)).getRow = keys := by
  rw [getRow_mk_rowindOf]
  exact flatMap_filter_sorted (fun x : Int => x) nrow keys hmem hsort

theorem getRow_mk_rowindOf_perm (nrow ncol : Nat) (col keys : List Int)
    (hmem : ∀ r ∈ keys, 0 ≤ r ∧ r < (nrow : Int)) :
    List.Perm (CRSSparsity.mk nrow ncol col (rowindOf nrow keys)).getRow keys := by
  rw [getRow_mk_rowindOf]
  exact flatMap_filter_perm (fun x : Int => x) nrow keys hmem

theorem getRow_mem (s : CRSSparsity) : ∀ r ∈ s.getRow, 0 ≤ r ∧ r < (s.nrow : Int) := by
  intro r hr
  unfold CRSSparsity.getRow at hr
  obtain ⟨i, hi, hr⟩ := List.mem_flatMap.mp hr
  have hri := List.eq_of_mem_replicate hr
  subst hri
  have := List.mem_range.mp hi
  constructor
  · positivity
  · push_cast
    omega

theorem getRow_sorted (s : CRSSparsity) : s.getRow.Pairwise (· ≤ ·) := by
  have hrepr : s.getRow = ((List.range s.nrow).map
      (fun i => List.replicate ((s.rowind.getD (i + 1) 0) - (s.rowind.getD i 0)).toNat
        (i : Int))).flatten := rfl
  rw [hrepr, List.pairwise_flatten]
  constructor
  · intro l' hl'
    obtain ⟨i, _, rfl⟩ := List.mem_map.mp hl'
    apply List.pairwise_of_forall_mem_list
    intro a ha b hb
    rw [List.eq_of_mem_replicate ha, List.eq_of_mem_replicate hb]
  · apply List.Pairwise.map (R := fun a b : Nat => a < b)
      (S := fun l1 l2 : List Int => ∀ x ∈ l1, ∀ y ∈ l2, x ≤ y)
    · intro a b hab x hx y hy
      rw [List.eq_of_mem_replicate hx, List.eq_of_mem_replicate hy]
      push_cast
      omega
    · exact List.pairwise_lt_range s.nrow

theorem mono_from_zero (f : Nat → Int) (n : Nat) (h : ∀ i, i < n → f i ≤ f (i + 1)) :
    ∀ j, j ≤ n → f 0 ≤ f j := by
  intro j
  induction j with
  | zero => intro _; exact le_refl _
  | succ j ih =>
    intro hj
    exact le_trans (ih (by omega)) (h j (by omega))

theorem telescoping_toNat_sum (f : Nat → Int) :
    ∀ n : Nat, (∀ i, i < n → f i ≤ f (i + 1)) →
    ((List.range n).map (fun i => (f (i + 1) - f i).toNat)).sum = (f n - f 0).toNat := by
  intro n
  induction n with
  | zero => simp
  | succ n ih =>
    intro h
    rw [List.range_succ, List.map_append, List.sum_append]
    rw [ih (fun i hi => h i (by omega))]
    simp only [List.map_cons, List.map_nil, List.sum_cons, List.sum_nil]
    have h0n : f 0 ≤ f n := mono_from_zero f (n + 1) h n (by omega)
    have hn : f n ≤ f (n + 1) := h n (by omega)
    omega

theorem getRow_length_valid (s : CRSSparsity) (h : Valid s) :
    s.getRow.length = s.col.length := by
  obtain ⟨hlen, h0, hmono, htot, _⟩ := h
  unfold CRSSparsity.getRow
  rw [List.length_flatMap]
  have : ((List.range s.nrow).map (List.length ∘ fun i =>
      List.replicate ((s.rowind.getD (i + 1) 0) - (s.rowind.getD i 0)).toNat (i : Int))).sum =
      ((List.range s.nrow).map (fun i =>
        ((fun j => s.rowind.getD j 0) (i + 1) - (fun j => s.rowind.getD j 0) i).toNat)).sum := by
    apply congrArg
    apply List.map_congr_left
    intro i _
    simp
  rw [this, telescoping_toNat_sum (fun j => s.rowind.getD j 0) s.nrow hmono, h0, htot]
  omega

/-- The representation invariant for a pattern assembled from a cumulative-count row
pointer. -/
theorem Valid_mk_rowindOf (nb nc : Nat) (col keys : List Int)
    (hlen : keys.length = col.length)
    (hkeys : ∀ r ∈ keys, 0 ≤ r ∧ r < (nb : Int))
    (hcol : ∀ c ∈ col, 0 ≤ c ∧ c < (nc : Int)) :
    Valid ⟨nb, nc, col, rowindOf nb keys⟩ := by
  unfold Valid
  dsimp only
  refine ⟨rowindOf_length nb keys, ?_, ?_, ?_, hcol⟩
  · rw [rowindOf_getD nb keys 0 (by omega)]
    exact startCnt_of_all_ge keys 0 (fun x hx => (hkeys x hx).1)
  · intro i hi
    rw [rowindOf_getD nb keys i (by omega), rowindOf_getD nb keys (i + 1) (by omega)]
    exact startCnt_mono keys (by push_cast; omega)
  · rw [rowindOf_getD nb keys nb (by omega),
      startCnt_of_all_lt keys (nb : Int) (fun x hx => (hkeys x hx).2), hlen]

/-! Lemmas for the lower-triangular extraction. -/

theorem pairwise_zip_left {α β : Type} (R : α → α → Prop) :
    ∀ (l1 : List α) (l2 : List β), l1.Pairwise R →
    (l1.zip l2).Pairwise (fun p q => R p.1 q.1) := by
  intro l1
  induction l1 with
  | nil => intro l2 _; simp
  | cons a l1 ih =>
    intro l2 h
    cases l2 with
    | nil => simp
    | cons b l2 =>
      obtain ⟨ha, hl⟩ := List.pairwise_cons.mp h
      rw [List.zip_cons_cons, List.pairwise_cons]
      refine ⟨?_, ih l2 hl⟩
      intro q hq
      exact ha q.1 (List.of_mem_zip hq).1

theorem getD_zip (l1 l2 : List Int) (k : Nat) (h1 : k < l1.length) (h2 : k < l2.length) :
    (l1.zip l2).getD k (0, 0) = (l1.getD k 0, l2.getD k 0) := by
  rw [List.getD_eq_getElem _ _ (by rw [List.length_zip]; omega), List.getElem_zip,
    List.getD_eq_getElem _ _ h1, List.getD_eq_getElem _ _ h2]

/-- Collecting, over the positions whose element satisfies p, the elements themselves
yields exactly the filtered list. -/
theorem filter_range_getD_map {α : Type} (d : α) (p : α → Bool) :
    ∀ l : List α,
    ((List.range l.length).filter (fun k => p (l.getD k d))).map (fun k => l.getD k d) =
    l.filter p := by
  intro l
  induction l with
  | nil => simp
  | cons x xs ih =>
    rw [List.length_cons, List.range_succ_eq_map, List.filter_cons]
    have hshift : (((List.range xs.length).map (· + 1)).filter
        (fun k => p ((x :: xs).getD k d))).map (fun k => (x :: xs).getD k d) =
        ((List.range xs.length).filter (fun k => p (xs.getD k d))).map
          (fun k => xs.getD k d) := by
      rw [List.map_filter]
      rw [List.map_map]
      have hcomp1 : ((fun k => p ((x :: xs).getD k d)) ∘ (· + 1)) =
          (fun k => p (xs.getD k d)) := by
        funext k
        simp [List.getD_cons_succ]
      have hcomp2 : ((fun k => (x :: xs).getD k d) ∘ (· + 1)) =
          (fun k => xs.getD k d) := by
        funext k
        simp [List.getD_cons_succ]
      rw [hcomp1, hcomp2]
    by_cases hp : p x
    · have hget0 : (x :: xs).getD 0 d = x := rfl
      rw [if_pos (by simpa [hget0] using hp)]
      rw [List.map_cons, hget0, hshift, ih, List.filter_cons_of_pos hp]
    · rw [if_neg (by simpa using hp)]
      rw [hshift, ih, List.filter_cons_of_neg (by simpa using hp)]

/-- Claim C6: lowerSparsity(A) contains exactly the nonzeros of A with row index at
least column index, in the original traversal order, and lowerNZ(A) returns exactly
the original storage indices of those same nonzeros, so its length equals the
nonzero count of lowerSparsity(A). -/
theorem claim_C6_lowerSparsity_lowerNZ (A : CRSSparsity) (hA : Valid A) :
    ∃ L, lowerSparsity A = .ok L ∧
      L.toPairs = A.toPairs.filter (fun p => decide (p.2 ≤ p.1)) ∧
      (lowerNZ A).map (fun k => A.toPairs.getD k (0, 0)) =
        A.toPairs.filter (fun p => decide (p.2 ≤ p.1)) ∧
      (lowerNZ A).length = L.col.length := by
  have hglen := getRow_length_valid A hA
  have hkept : ((A.getRow.zip A.col).filter (fun p => decide (p.2 ≤ p.1))) =
      A.toPairs.filter (fun p => decide (p.2 ≤ p.1)) := rfl
  set kept := A.toPairs.filter (fun p => decide (p.2 ≤ p.1)) with hkeptdef
  have hrowmem : ∀ r ∈ kept.map Prod.fst, 0 ≤ r ∧ r < (A.nrow : Int) := by
    intro r hr
    obtain ⟨q, hq, rfl⟩ := List.mem_map.mp hr
    exact getRow_mem A q.1 (List.of_mem_zip (List.mem_of_mem_filter hq)).1
  have hrowsort : (kept.map Prod.fst).Pairwise (· ≤ ·) := by
    rw [List.pairwise_map]
    exact (pairwise_zip_left (· ≤ ·) A.getRow A.col (getRow_sorted A)).filter _
  have hlen2 : (kept.map Prod.fst).length = (kept.map Prod.snd).length := by
    simp
  have hspNZ := sp_NZ_spec (kept.map Prod.fst) (kept.map Prod.snd) A.nrow A.ncol
    hlen2 hrowmem hrowsort
  have hls : lowerSparsity A =
      sp_NZ (kept.map Prod.fst) (kept.map Prod.snd) A.nrow A.ncol true := rfl
  have hpairs : (CRSSparsity.mk A.nrow A.ncol (kept.map Prod.snd)
      (rowindOf A.nrow (kept.map Prod.fst))).toPairs = kept := by
    unfold CRSSparsity.toPairs
    rw [getRow_mk_rowindOf_sorted A.nrow A.ncol (kept.map Prod.snd) (kept.map Prod.fst)
      hrowmem hrowsort]
    exact Eq.symm (List.zip_of_prod rfl rfl)
  have htplen : A.toPairs.length = A.col.length := by
    unfold CRSSparsity.toPairs
    rw [List.length_zip, hglen]
    omega
  have hlnz : lowerNZ A = (List.range A.toPairs.length).filter
      (fun k => decide ((A.toPairs.getD k (0, 0)).2 ≤ (A.toPairs.getD k (0, 0)).1)) := by
    rw [lowerNZ, htplen]
    apply List.filter_congr
    intro k hk
    have hk' := List.mem_range.mp hk
    have hz := getD_zip A.getRow A.col k (by omega) hk'
    show decide (A.col.getD k 0 ≤ A.getRow.getD k 0) =
      decide (((A.getRow.zip A.col).getD k (0, 0)).2 ≤ ((A.getRow.zip A.col).getD k (0, 0)).1)
    rw [hz]
  have hmap : (lowerNZ A).map (fun k => A.toPairs.getD k (0, 0)) = kept := by
    rw [hlnz]
    exact filter_range_getD_map (0, 0) (fun p => decide (p.2 ≤ p.1)) A.toPairs
  refine ⟨_, by rw [hls]; exact hspNZ, hpairs, hmap, ?_⟩
  have := congrArg List.length hmap
  rw [List.length_map] at this
  rw [this]
  simp [hkeptdef]

/-! Reshape correctness. -/

theorem zipWith_eq_map_zip {α β γ : Type} (f : α → β → γ) :
    ∀ (l1 : List α) (l2 : List β),
    List.zipWith f l1 l2 = (l1.zip l2).map (fun p => f p.1 p.2) := by
  intro l1
  induction l1 with
  | nil => intro l2; simp
  | cons a l1 ih =>
    intro l2
    cases l2 with
    | nil => simp
    | cons b l2 => simp [ih]

theorem toPairs_mem_bounds (A : CRSSparsity) (hA : Valid A) :
    ∀ p ∈ A.toPairs, (0 ≤ p.1 ∧ p.1 < (A.nrow : Int)) ∧ 0 ≤ p.2 ∧ p.2 < (A.ncol : Int) := by
  intro p hp
  obtain ⟨a, b⟩ := p
  have h1 := (List.of_mem_zip hp).1
  have h2 := (List.of_mem_zip hp).2
  exact ⟨getRow_mem A a h1, hA.2.2.2.2 b h2⟩

theorem toPairs_rows_chain (A : CRSSparsity) :
    A.toPairs.Chain' (fun p q => p.1 ≤ q.1) :=
  (pairwise_zip_left (· ≤ ·) A.getRow A.col (getRow_sorted A)).chain'

theorem flatIdx_bounds (A : CRSSparsity) (hA : Valid A) :
    ∀ p ∈ A.toPairs, 0 ≤ flatIdx A.ncol p ∧ flatIdx A.ncol p < ((A.nrow * A.ncol : Nat) : Int) := by
  intro p hp
  obtain ⟨⟨h1, h2⟩, h3, h4⟩ := toPairs_mem_bounds A hA p hp
  unfold flatIdx
  constructor
  · positivity
  · push_cast
    nlinarith

theorem chain'_map_of_chain' {α β : Type} (f : α → β) (R : β → β → Prop) (l : List α)
    (S T : α → α → Prop) (hS : l.Chain' S) (hT : l.Chain' T)
    (hmem : ∀ a ∈ l, ∀ b ∈ l, S a b → T a b → R (f a) (f b)) :
    (l.map f).Chain' R := by
  rw [List.chain'_map]
  induction l with
  | nil => simp
  | cons a l ih =>
    cases l with
    | nil => simp
    | cons b l =>
      rw [List.chain'_cons] at hS hT ⊢
      refine ⟨hmem a (by simp) b (by simp) hS.1 hT.1, ?_⟩
      exact ih hS.2 hT.2 (fun x hx y hy => hmem x (List.mem_cons_of_mem _ hx)
        y (List.mem_cons_of_mem _ hy))

/-- One reshape: on a valid pattern whose within-row columns are non-decreasing, the
flat indices are non-decreasing, sp_NZ reconstructs them exactly, and every nonzero
lands at (z / m, z mod m). -/
theorem reshape_ok (A : CRSSparsity) (n m : Nat) (hA : Valid A)
    (hseq : A.toPairs.Chain' (fun p q => p.1 = q.1 → p.2 ≤ q.2))
    (hnm : A.numel = n * m) :
    ∃ B, reshape A n m = .ok B ∧ Valid B ∧
      B.toPairs = A.toPairs.map
        (fun p => (flatIdx A.ncol p / (m : Int), flatIdx A.ncol p % (m : Int))) ∧
      B.toPairs.Chain' (fun p q => p.1 = q.1 → p.2 ≤ q.2) ∧
      B.nrow = n ∧ B.ncol = m := by
  have hb := flatIdx_bounds A hA
  have hnmc : ((A.nrow * A.ncol : Nat) : Int) = (n : Int) * (m : Int) := by
    have h : A.nrow * A.ncol = n * m := hnm
    rw [h]
    push_cast
    try ring
  have hzchain : (A.toPairs.map (flatIdx A.ncol)).Chain' (· ≤ ·) := by
    apply chain'_map_of_chain' (flatIdx A.ncol) (· ≤ ·) A.toPairs
      (fun p q => p.1 ≤ q.1) (fun p q => p.1 = q.1 → p.2 ≤ q.2)
      (toPairs_rows_chain A) hseq
    intro p hp q hq hS hT
    obtain ⟨⟨hp1, hp2⟩, hp3, hp4⟩ := toPairs_mem_bounds A hA p hp
    obtain ⟨⟨hq1, hq2⟩, hq3, hq4⟩ := toPairs_mem_bounds A hA q hq
    unfold flatIdx
    rcases lt_or_eq_of_le hS with h | h
    · nlinarith
    · have := hT h
      rw [h]
      omega
  set zs := A.toPairs.map (flatIdx A.ncol) with hzs
  have hzmem : ∀ z ∈ zs, 0 ≤ z ∧ z < (n : Int) * m := by
    intro z hz
    obtain ⟨p, hp, rfl⟩ := List.mem_map.mp hz
    have := hb p hp
    rw [hnmc] at this
    exact this
  have hrowmem : ∀ r ∈ zs.map (fun z => z / (m : Int)), 0 ≤ r ∧ r < (n : Int) := by
    intro r hr
    obtain ⟨z, hz, rfl⟩ := List.mem_map.mp hr
    obtain ⟨h1, h2⟩ := hzmem z hz
    have hm : (0 : Int) < m := by nlinarith
    constructor
    · exact Int.ediv_nonneg h1 (by omega)
    · exact Int.ediv_lt_of_lt_mul hm (by linarith)
  have hrowsort : (zs.map (fun z => z / (m : Int))).Pairwise (· ≤ ·) := by
    rw [← List.chain'_iff_pairwise]
    apply chain'_map_of_chain' _ _ zs (· ≤ ·) (· ≤ ·) hzchain hzchain
    intro a ha b hb hab _
    have hm : (0 : Int) < m := by
      obtain ⟨h1, h2⟩ := hzmem a ha
      nlinarith
    exact Int.ediv_le_ediv hm hab
  have hlen : (zs.map (fun z => z / (m : Int))).length =
      (zs.map (fun z => z % (m : Int))).length := by simp
  have hspNZ := sp_NZ_spec (zs.map (fun z => z / (m : Int)))
    (zs.map (fun z => z % (m : Int))) n m hlen hrowmem hrowsort
  have hcolmem : ∀ c ∈ zs.map (fun z => z % (m : Int)), 0 ≤ c ∧ c < (m : Int) := by
    intro c hc
    obtain ⟨z, hz, rfl⟩ := List.mem_map.mp hc
    obtain ⟨h1, h2⟩ := hzmem z hz
    have hm : (0 : Int) < m := by nlinarith
    exact ⟨Int.emod_nonneg z (by omega), Int.emod_lt_of_pos z hm⟩
  have hreshape : reshape A n m = .ok ⟨n, m, zs.map (fun z => z % (m : Int)),
      rowindOf n (zs.map (fun z => z / (m : Int)))⟩ := by
    rw [reshape, if_neg (by omega)]
    dsimp only
    rw [zipWith_eq_map_zip]
    have hzs' : (A.getRow.zip A.col).map (fun p => p.2 + p.1 * (A.ncol : Int)) = zs := rfl
    rw [hzs']
    rw [List.map_map, List.map_map]
    rw [hzs] at hspNZ
    rw [List.map_map, List.map_map] at hspNZ
    exact hspNZ
  have hgetRow : (CRSSparsity.mk n m (zs.map (fun z => z % (m : Int)))
      (rowindOf n (zs.map (fun z => z / (m : Int))))).getRow =
      zs.map (fun z => z / (m : Int)) :=
    getRow_mk_rowindOf_sorted n m _ _ hrowmem hrowsort
  have hpairs : (CRSSparsity.mk n m (zs.map (fun z => z % (m : Int)))
      (rowindOf n (zs.map (fun z => z / (m : Int))))).toPairs =
      A.toPairs.map (fun p => (flatIdx A.ncol p / (m : Int), flatIdx A.ncol p % (m : Int))) := by
    unfold CRSSparsity.toPairs
    rw [hgetRow]
    show (zs.map (fun z => z / (m : Int))).zip (zs.map (fun z => z % (m : Int))) = _
    rw [List.zip_map' (fun z => z / (m : Int)) (fun z => z % (m : Int)) zs, hzs, List.map_map]
    rfl
  refine ⟨_, hreshape, ?_, ?_, ?_, rfl, rfl⟩
  · exact Valid_mk_rowindOf n m _ _ (by simp) hrowmem hcolmem
  · exact hpairs
  · rw [hpairs]
    have : A.toPairs.map (fun p => (flatIdx A.ncol p / (m : Int), flatIdx A.ncol p % (m : Int))) =
        zs.map (fun z => (z / (m : Int), z % (m : Int))) := by
      rw [hzs, List.map_map]
      rfl
    rw [this]
    apply chain'_map_of_chain' _ _ zs (· ≤ ·) (· ≤ ·) hzchain hzchain
    intro a ha b hbmem hab _
    intro hdiv
    simp only at hdiv ⊢
    have e1 := Int.emod_add_ediv a (m : Int)
    have e2 := Int.emod_add_ediv b (m : Int)
    rw [hdiv] at e1
    omega

/-- Claim C3 (amended): for every valid pattern A whose within-row column indices are
non-decreasing and every (n, m) with n * m equal to the element count,
reshape(reshape(A, n, m), A.nrow, A.ncol) reproduces exactly the nonzero (row,
column) sequence of A, and the intermediate reshape places the nonzero (i, j) at
(z / m, z mod m) with z = j + i * A.ncol. -/
theorem claim_C3_reshape_roundtrip (A : CRSSparsity) (n m : Nat) (hA : Valid A)
    (hseq : A.toPairs.Chain' (fun p q => p.1 = q.1 → p.2 ≤ q.2))
    (hnm : A.numel = n * m) :
    ∃ B C, reshape A n m = .ok B ∧ reshape B A.nrow A.ncol = .ok C ∧
      C.toPairs = A.toPairs ∧
      B.toPairs = A.toPairs.map
        (fun p => ((p.2 + p.1 * (A.ncol : Int)) / (m : Int),
                   (p.2 + p.1 * (A.ncol : Int)) % (m : Int))) := by
  obtain ⟨B, hB, hBval, hBpairs, hBseq, hBn, hBm⟩ := reshape_ok A n m hA hseq hnm
  have hBnumel : B.numel = A.nrow * A.ncol := by
    unfold CRSSparsity.numel
    rw [hBn, hBm]
    exact hnm.symm
  obtain ⟨C, hC, _, hCpairs, _, _, _⟩ := reshape_ok B A.nrow A.ncol hBval hBseq hBnumel
  refine ⟨B, C, hB, hC, ?_, hBpairs⟩
  rw [hCpairs, hBpairs, List.map_map]
  have hpt : ∀ p ∈ A.toPairs,
      ((fun q => (flatIdx B.ncol q / (A.ncol : Int), flatIdx B.ncol q % (A.ncol : Int))) ∘
       (fun p => (flatIdx A.ncol p / (m : Int), flatIdx A.ncol p % (m : Int)))) p = p := by
    intro p hp
    obtain ⟨⟨h1, h2⟩, h3, h4⟩ := toPairs_mem_bounds A hA p hp
    have hncol : (0 : Int) < A.ncol := by omega
    simp only [Function.comp_apply, flatIdx, hBm]
    set z := p.2 + p.1 * (A.ncol : Int) with hz
    have hzz : z % (m : Int) + z / (m : Int) * (m : Int) = z := by
      have h := Int.emod_add_ediv z (m : Int)
      rw [Int.mul_comm (m : Int) (z / (m : Int))] at h
      exact h
    rw [hzz]
    have hdiv : z / (A.ncol : Int) = p.1 := by
      rw [hz, Int.add_mul_ediv_right p.2 p.1 (by omega : (A.ncol : Int) ≠ 0),
        Int.ediv_eq_zero_of_lt h3 h4]
      omega
    have hmod : z % (A.ncol : Int) = p.2 := by
      rw [hz, Int.add_mul_emod_self, Int.emod_eq_of_lt h3 h4]
    rw [hdiv, hmod]
  rw [List.map_congr_left hpt, List.map_id']

/-- Claim C3 counterexample: the valid 1 x 4 pattern storing columns [2, 1] in row 0
(columns not sorted within the row) has element count 4 = 2 * 2, but reshaping to
2 x 2 and back to 1 x 4 yields the nonzero columns [0, 3] instead of [2, 1]:
the double reshape does not reproduce the nonzero set of A. -/
theorem claim_C3_counterexample :
    Valid ⟨1, 4, [2, 1], [0, 2]⟩ ∧
    (CRSSparsity.mk 1 4 [2, 1] [0, 2]).numel = 2 * 2 ∧
    reshape ⟨1, 4, [2, 1], [0, 2]⟩ 2 2 = .ok ⟨2, 2, [0, 1], [0, 1, 2]⟩ ∧
    reshape ⟨2, 2, [0, 1], [0, 1, 2]⟩ 1 4 = .ok ⟨1, 4, [0, 3], [0, 2]⟩ ∧
    (CRSSparsity.mk 1 4 [0, 3] [0, 2]).toPairs ≠ (CRSSparsity.mk 1 4 [2, 1] [0, 2]).toPairs := by
  refine ⟨by decide, rfl, rfl, rfl, by decide⟩

/-- Claim C3 witness: the round-trip theorem applied to the concrete valid pattern
sp_diag 2 reshaped through 1 x 4. -/
theorem claim_C3_reshape_witness :
    ∃ B C, reshape ⟨2, 2, [0, 1], [0, 1, 2]⟩ 1 4 = .ok B ∧
      reshape B 2 2 = .ok C ∧
      C.toPairs = (CRSSparsity.mk 2 2 [0, 1] [0, 1, 2]).toPairs ∧
      B.toPairs = (CRSSparsity.mk 2 2 [0, 1] [0, 1, 2]).toPairs.map
        (fun p => ((p.2 + p.1 * (2 : Int)) / (4 : Int),
                   (p.2 + p.1 * (2 : Int)) % (4 : Int))) :=
  claim_C3_reshape_roundtrip ⟨2, 2, [0, 1], [0, 1, 2]⟩ 1 4 (by decide)
    (by
      show List.Chain' _ [((0 : Int), (0 : Int)), (1, 1)]
      rw [List.chain'_pair]
      decide)
    rfl

/-- Claim C8: sp_diag(3) is the 3 x 3 pattern with rowPtr [0,1,2,3] and colIndex
[0,1,2], and sp_tril(3) is the 3 x 3 pattern with rowPtr [0,1,3,6] and colIndex
[0,0,1,0,1,2]. -/
theorem claim_C8_diag_tril_concrete :
    sp_diag 3 = ⟨3, 3, [0, 1, 2], [0, 1, 2, 3]⟩ ∧
    sp_tril 3 = ⟨3, 3, [0, 0, 1, 0, 1, 2], [0, 1, 3, 6]⟩ :=
  ⟨rfl, rfl⟩

/-- Claim C6 witness: the lower-triangular extraction theorem applied to the concrete
valid pattern with rows (0,0), (0,1), (1,0). -/
theorem claim_C6_witness :
    Valid ⟨2, 2, [0, 1, 0], [0, 2, 3]⟩ ∧
    ∃ L, lowerSparsity ⟨2, 2, [0, 1, 0], [0, 2, 3]⟩ = .ok L ∧
      L.toPairs = (CRSSparsity.mk 2 2 [0, 1, 0] [0, 2, 3]).toPairs.filter
        (fun p => decide (p.2 ≤ p.1)) ∧
      (lowerNZ ⟨2, 2, [0, 1, 0], [0, 2, 3]⟩).map
        (fun k => (CRSSparsity.mk 2 2 [0, 1, 0] [0, 2, 3]).toPairs.getD k (0, 0)) =
        (CRSSparsity.mk 2 2 [0, 1, 0] [0, 2, 3]).toPairs.filter
          (fun p => decide (p.2 ≤ p.1)) ∧
      (lowerNZ ⟨2, 2, [0, 1, 0], [0, 2, 3]⟩).length = L.col.length :=
  ⟨by decide, claim_C6_lowerSparsity_lowerNZ ⟨2, 2, [0, 1, 0], [0, 2, 3]⟩ (by decide)⟩

/-! Success and failure characterization of sp_rowcol. -/

theorem sp_rowcol_loop_ok (colsize : Nat) : ∀ (S : List Int) (z cnt : Int)
    (rowind : List Int) (nrow : Nat),
    rowind.length = nrow + 1 → 0 ≤ z →
    (∀ r ∈ S, -1 ≤ r ∧ r < (nrow : Int)) →
    ∃ z2 cnt2 rowind2, sp_rowcol_loop colsize S z cnt rowind = .ok (z2, cnt2, rowind2) ∧
      0 ≤ z2 ∧ rowind2.length = rowind.length := by
  intro S
  induction S with
  | nil =>
    intro z cnt rowind nrow hlen h0 _
    exact ⟨z, cnt, rowind, by simp [sp_rowcol_loop], h0, rfl⟩
  | cons r rest ih =>
    intro z cnt rowind nrow hlen h0 hmem
    obtain ⟨hr1, hr2⟩ := hmem r (List.mem_cons_self ..)
    obtain ⟨rowind1, hfill, hlen1, _⟩ := fillUp_spec r z cnt rowind h0
      (by rw [hlen]; push_cast; omega)
    have hset : setAt rowind1 (r + 1) (cnt + (colsize : Int)) =
        .ok (rowind1.set (r + 1).toNat (cnt + (colsize : Int))) :=
      setAt_ok _ _ _ (by omega) (by rw [hlen1, hlen]; push_cast; omega)
    obtain ⟨z2, cnt2, rowind2, hrec, hz2, hlen2⟩ :=
      ih (max z r) (cnt + (colsize : Int)) (rowind1.set (r + 1).toNat (cnt + (colsize : Int)))
        nrow (by simp [hlen1, hlen]) (by omega)
        (fun x hx => hmem x (List.mem_cons_of_mem _ hx))
    refine ⟨z2, cnt2, rowind2, ?_, hz2, by simp at hlen2; omega⟩
    simp only [sp_rowcol_loop, hfill, hset, hrec]

theorem sp_rowcol_loop_fail (colsize : Nat) : ∀ (S : List Int) (z cnt : Int)
    (rowind : List Int) (nrow : Nat),
    rowind.length = nrow + 1 → 0 ≤ z →
    (∃ r ∈ S, (nrow : Int) ≤ r ∨ r ≤ -2) →
    ∃ e, sp_rowcol_loop colsize S z cnt rowind = .error e := by
  intro S
  induction S with
  | nil =>
    intro z cnt rowind nrow _ _ hbad
    obtain ⟨r, hr, _⟩ := hbad
    cases hr
  | cons r rest ih =>
    intro z cnt rowind nrow hlen h0 hbad
    by_cases hrbad : (nrow : Int) ≤ r ∨ r ≤ -2
    · rcases hrbad with hge | hle
      · -- r at least nrow
        by_cases hz : z < r
        · by_cases hfits : r < (rowind.length : Int)
          · -- r = nrow exactly: the fill succeeds, the final store fails
            obtain ⟨rowind1, hfill, hlen1, _⟩ := fillUp_spec r z cnt rowind h0 hfits
            have hset : setAt rowind1 (r + 1) (cnt + (colsize : Int)) = .error "out_of_range" := by
              simp only [setAt, ite_eq_right_iff]
              intro hcon
              rw [hlen1, hlen] at hcon
              push_cast at hcon
              omega
            rw [(by omega : max z r = r)] at hfill
            exact ⟨"out_of_range", by simp only [sp_rowcol_loop, hfill, hset]⟩
          · obtain ⟨e, hfill⟩ := fillUp_fail r z cnt rowind h0 hz (by omega)
            exact ⟨e, by simp only [sp_rowcol_loop, hfill]⟩
        · -- no fill iterations; the store at r+1 is out of range
          have hfill := fillUp_noop r z cnt rowind (by omega)
          have hset : setAt rowind (r + 1) (cnt + (colsize : Int)) = .error "out_of_range" := by
            simp only [setAt, ite_eq_right_iff]
            intro hcon
            rw [hlen] at hcon
            push_cast at hcon
            omega
          exact ⟨"out_of_range", by simp only [sp_rowcol_loop, hfill, hset]⟩
      · -- r at most -2: no fill iterations, the store at r+1 has negative index
        obtain ⟨rowind1, hfill, hlen1, _⟩ := fillUp_spec r z cnt rowind h0
          (by rw [hlen]; push_cast; omega)
        have hset : setAt rowind1 (r + 1) (cnt + (colsize : Int)) = .error "out_of_range" := by
          simp only [setAt, ite_eq_right_iff]
          intro hcon
          omega
        exact ⟨"out_of_range", by simp only [sp_rowcol_loop, hfill, hset]⟩
    · push_neg at hrbad
      obtain ⟨hr1, hr2⟩ := hrbad
      obtain ⟨rowind1, hfill, hlen1, _⟩ := fillUp_spec r z cnt rowind h0
        (by rw [hlen]; push_cast; omega)
      have hset : setAt rowind1 (r + 1) (cnt + (colsize : Int)) =
          .ok (rowind1.set (r + 1).toNat (cnt + (colsize : Int))) :=
        setAt_ok _ _ _ (by omega) (by rw [hlen1, hlen]; push_cast; omega)
      have hbadrest : ∃ x ∈ rest, (nrow : Int) ≤ x ∨ x ≤ -2 := by
        obtain ⟨x, hx, hxbad⟩ := hbad
        rcases List.mem_cons.mp hx with rfl | hx'
        · omega
        · exact ⟨x, hx', hxbad⟩
      obtain ⟨e, hrec⟩ := ih (max z r) (cnt + (colsize : Int))
        (rowind1.set (r + 1).toNat (cnt + (colsize : Int))) nrow
        (by simp [hlen1, hlen]) (by omega) hbadrest
      exact ⟨e, by simp only [sp_rowcol_loop, hfill, hset, hrec]⟩

/-- Claim C9 (amended): sp_rowcol raises its out-of-range error exactly when some row
entry is at least nrow or at most -2; in particular it does not require the row list
to be strictly increasing, and a strictly increasing list with an entry at most -2
still fails. -/
theorem claim_C9_sp_rowcol_error_iff (row col : List Int) (nrow ncol : Nat) :
    (∃ s, sp_rowcol row col nrow ncol = .ok s) ↔
    ∀ r ∈ row, -1 ≤ r ∧ r < (nrow : Int) := by
  constructor
  · intro hok
    by_contra hbad
    push_neg at hbad
    obtain ⟨r, hr, hrbad⟩ := hbad
    have hbad' : ∃ x ∈ row, (nrow : Int) ≤ x ∨ x ≤ -2 := ⟨r, hr, by omega⟩
    obtain ⟨e, hfail⟩ := sp_rowcol_loop_fail col.length row 0 0
      (List.replicate (nrow + 1) 0) nrow (by simp) le_rfl hbad'
    obtain ⟨s, hs⟩ := hok
    rw [sp_rowcol, hfail] at hs
    cases hs
  · intro hmem
    obtain ⟨z2, cnt2, rowind2, hok, hz2, hlen2⟩ := sp_rowcol_loop_ok col.length row 0 0
      (List.replicate (nrow + 1) 0) nrow (by simp) le_rfl hmem
    obtain ⟨rowind3, hfill, _, _⟩ := fillUp_spec (nrow : Int) z2 cnt2 rowind2 hz2
      (by rw [hlen2]; simp only [List.length_replicate]; push_cast; omega)
    refine ⟨⟨nrow, ncol, (List.range row.length).flatMap (fun _ => col), rowind3⟩, ?_⟩
    simp only [sp_rowcol, hok, hfill]

/-- Claim C9 counterexample: the row list [1, 0] is not strictly increasing, yet
sp_rowcol(row=[1,0], col=[0], nrow=2, ncol=1) succeeds without raising; and the row
list [-2] is strictly increasing with entries below nrow, yet
sp_rowcol(row=[-2], col=[0], nrow=1, ncol=1) raises the out-of-range error. -/
theorem claim_C9_counterexample :
    sp_rowcol [1, 0] [0] 2 1 = .ok ⟨2, 1, [0, 0], [0, 2, 2]⟩ ∧
    ¬ List.Chain' (· < ·) [(1 : Int), 0] ∧
    (∀ r ∈ [(1 : Int), 0], r < 2) ∧
    sp_rowcol [-2] [0] 1 1 = .error "sp_rowcol: out-of-range error" ∧
    List.Chain' (· < ·) [(-2 : Int)] ∧
    (∀ r ∈ [(-2 : Int)], r < 1) := by
  refine ⟨rfl, ?_, by decide, rfl, ?_, by decide⟩
  · simp [List.chain'_cons]
  · simp

/-! Validity of the parameter-only builders. -/

theorem sp_diag_valid (n : Nat) : Valid (sp_diag n) := by
  unfold sp_diag Valid
  dsimp only
  have hcol : ((List.range n).map (fun (i : Nat) => (i : Int))).length = n := by simp
  have hget : ∀ i : Nat, i < n →
      (((List.range n).map (fun (i : Nat) => (i : Int))) ++ [(n : Int)]).getD i 0 = (i : Int) := by
    intro i hi
    rw [List.getD_eq_getElem _ _ (by simp; omega), List.getElem_append_left (by simp; omega)]
    simp
  have hgetn : (((List.range n).map (fun (i : Nat) => (i : Int))) ++ [(n : Int)]).getD n 0 =
      (n : Int) := by
    rw [List.getD_eq_getElem _ _ (by simp)]
    rw [List.getElem_append_right (by simp)]
    simp
  refine ⟨by simp, ?_, ?_, ?_, ?_⟩
  · cases Nat.eq_zero_or_pos n with
    | inl h => subst h; rfl
    | inr h => rw [hget 0 h]; rfl
  · intro i hi
    rcases Nat.lt_or_ge (i + 1) n with h | h
    · rw [hget i hi, hget (i + 1) h]
      push_cast
      omega
    · have : i + 1 = n := by omega
      rw [hget i hi, this, hgetn]
      push_cast
      omega
  · rw [hgetn, hcol]
  · intro c hc
    obtain ⟨i, hi, rfl⟩ := List.mem_map.mp hc
    have := List.mem_range.mp hi
    constructor
    · positivity
    · push_cast
      omega

theorem sp_band_valid (n : Nat) (p : Int) (s : CRSSparsity) (h : sp_band n p = .ok s) :
    Valid s := by
  unfold sp_band at h
  by_cases hp : (if p < 0 then -p else p) < (n : Int)
  · rw [if_pos hp] at h
    injection h with h
    subst h
    unfold Valid
    dsimp only
    set q := if p < 0 then -p else p with hq
    have hq0 : 0 ≤ q ∧ q < n := by
      rw [hq]
      split <;> omega
    set nc : Int := (n : Int) - q with hnc
    have hnc0 : 0 < nc := by omega
    have hgetr : ∀ i : Nat, i < n + 1 →
        ((List.range (n + 1)).map (fun (i : Nat) => max (min ((i : Int) + min p 0) nc) 0)).getD
          i 0 = max (min ((i : Int) + min p 0) nc) 0 := by
      intro i hi
      rw [List.getD_eq_getElem _ _ (by simp; omega)]
      simp
    refine ⟨by simp, ?_, ?_, ?_, ?_⟩
    · rw [hgetr 0 (by omega)]
      have : min p 0 ≤ 0 := by omega
      push_cast
      omega
    · intro i hi
      rw [hgetr i (by omega), hgetr (i + 1) (by omega)]
      push_cast
      omega
    · rw [hgetr n (by omega)]
      simp only [List.length_map, List.length_range]
      rw [Int.toNat_of_nonneg (by omega : (0 : Int) ≤ nc)]
      have h1 : p < 0 → q = -p := fun h => by rw [hq, if_pos h]
      have h2 : 0 ≤ p → q = p := fun h => by rw [hq, if_neg (by omega)]
      rcases lt_or_ge p 0 with hc | hc
      · have := h1 hc
        omega
      · have := h2 hc
        omega
    · intro c hc
      obtain ⟨i, hi, rfl⟩ := List.mem_map.mp hc
      have hi' := List.mem_range.mp hi
      have hi2 : (i : Int) < nc := by
        have : (i : Int) < nc.toNat := by push_cast; omega
        rw [Int.toNat_of_nonneg (by omega : (0 : Int) ≤ nc)] at this
        omega
      constructor
      · have : 0 ≤ max p 0 := by omega
        positivity
      · rw [hnc] at hi2
        have h1 : p < 0 → q = -p := fun h => by rw [hq, if_pos h]
        have h2 : 0 ≤ p → q = p := fun h => by rw [hq, if_neg (by omega)]
        rcases lt_or_ge p 0 with hc | hc
        · have := h1 hc
          omega
        · have := h2 hc
          omega
  · rw [if_neg hp] at h
    cases h

/-! Characterization of sp_tril. -/

theorem foldl_tril_iterate : ∀ (l : List Nat) (s : Int × Int × List Int),
    l.foldl sp_tril_colStep s = sp_tril_step^[l.length] s := by
  intro l
  induction l with
  | nil => intro s; rfl
  | cons x l ih =>
    intro s
    rw [List.foldl_cons, ih, List.length_cons, Function.iterate_succ_apply]
    rfl

theorem tril_row_steps : ∀ (d cN tN : Nat) (acc : List Int), tN + d = cN →
    sp_tril_step^[d + 1] ((cN : Int), (tN : Int), acc) =
    ((cN : Int) + 1, 0, acc ++ (List.range' tN (d + 1)).map (fun (x : Nat) => (x : Int))) := by
  intro d
  induction d with
  | zero =>
    intro cN tN acc h
    have : tN = cN := by omega
    subst this
    show sp_tril_step _ = _
    unfold sp_tril_step sp_tril_colStep
    dsimp only
    rw [if_pos (by omega)]
    simp [List.range']
  | succ d ih =>
    intro cN tN acc h
    rw [Function.iterate_succ_apply]
    have hstep : sp_tril_step ((cN : Int), (tN : Int), acc) =
        ((cN : Int), (tN : Int) + 1, acc ++ [(tN : Int)]) := by
      unfold sp_tril_step sp_tril_colStep
      dsimp only
      rw [if_neg (by push_cast; omega)]
    rw [hstep, (by push_cast; ring : ((tN : Int) + 1) = ((tN + 1 : Nat) : Int)),
      ih cN (tN + 1) (acc ++ [(tN : Int)]) (by omega), List.append_assoc]
    have : ([(tN : Int)] ++ (List.range' (tN + 1) (d + 1)).map (fun (x : Nat) => (x : Int))) =
        (List.range' tN (d + 1 + 1)).map (fun (x : Nat) => (x : Int)) := by
      conv_rhs => rw [List.range'_succ]
      simp
    rw [this]

theorem tril_outer : ∀ n : Nat, sp_tril_step^[n * (n + 1) / 2] ((0 : Int), (0 : Int), ([] : List Int)) =
    ((n : Int), 0, trilCols n) := by
  intro n
  induction n with
  | zero => rfl
  | succ n ih =>
    have harith : (n + 1) * (n + 1 + 1) / 2 = (n + 1) + n * (n + 1) / 2 := by
      have hexp : (n + 1) * (n + 1 + 1) = n * (n + 1) + 2 * (n + 1) := by ring
      obtain ⟨m, hm⟩ := Nat.even_mul_succ_self n
      omega
    rw [harith, Function.iterate_add_apply, ih]
    have hrow := tril_row_steps n n 0 (trilCols n) (by omega)
    rw [Nat.cast_zero] at hrow
    rw [hrow]
    have hcols : trilCols n ++ (List.range' 0 (n + 1)).map (fun (x : Nat) => (x : Int)) =
        trilCols (n + 1) := by
      rw [← List.range_eq_range']
      unfold trilCols
      simp [List.range_succ]
    rw [hcols]
    push_cast
    ring_nf

theorem tril_rowind_fold : ∀ n : Nat,
    (List.range n).foldl
      (fun (st : List Int × Int) (i : Nat) => (st.1 ++ [st.2 + 1 + (i : Int)], st.2 + 1 + (i : Int)))
      ([0], 0) =
    ((List.range (n + 1)).map (fun (i : Nat) => tri i), tri n) := by
  intro n
  induction n with
  | zero => rfl
  | succ n ih =>
    rw [List.range_succ, List.foldl_append, ih]
    simp only [List.foldl_cons, List.foldl_nil]
    have htri : tri n + 1 + (n : Int) = tri (n + 1) := by
      unfold tri
      have h2 : (n + 1) * (n + 1 + 1) / 2 = n * (n + 1) / 2 + 1 + n := by
        have hexp : (n + 1) * (n + 1 + 1) = n * (n + 1) + 2 * (n + 1) := by ring
        obtain ⟨m, hm⟩ := Nat.even_mul_succ_self n
        omega
      rw [h2]
      push_cast
      ring
    rw [htri, List.range_succ (n := n + 1), List.map_append]
    rfl

theorem sp_tril_eq (n : Nat) :
    sp_tril n = ⟨n, n, trilCols n, (List.range (n + 1)).map (fun (i : Nat) => tri i)⟩ := by
  unfold sp_tril
  dsimp only
  rw [foldl_tril_iterate, List.length_range, tril_outer, tril_rowind_fold]

theorem trilCols_length (n : Nat) : (trilCols n).length = n * (n + 1) / 2 := by
  induction n with
  | zero => rfl
  | succ n ih =>
    unfold trilCols at ih ⊢
    rw [List.range_succ, List.flatMap_append, List.flatMap_singleton, List.length_append, ih]
    simp only [List.length_map, List.length_range]
    have hexp : (n + 1) * (n + 1 + 1) = n * (n + 1) + 2 * (n + 1) := by ring
    obtain ⟨m, hm⟩ := Nat.even_mul_succ_self n
    omega

theorem sp_tril_valid (n : Nat) : Valid (sp_tril n) := by
  rw [sp_tril_eq]
  unfold Valid
  dsimp only
  have hget : ∀ i : Nat, i < n + 1 →
      ((List.range (n + 1)).map (fun (i : Nat) => tri i)).getD i 0 = tri i := by
    intro i hi
    rw [List.getD_eq_getElem _ _ (by simp; omega)]
    simp
  refine ⟨by simp, ?_, ?_, ?_, ?_⟩
  · rw [hget 0 (by omega)]
    rfl
  · intro i hi
    rw [hget i (by omega), hget (i + 1) (by omega)]
    unfold tri
    have h1 : i * (i + 1) ≤ (i + 1) * (i + 1 + 1) := Nat.mul_le_mul (by omega) (by omega)
    exact_mod_cast Nat.div_le_div_right h1
  · rw [hget n (by omega), trilCols_length]
    rfl
  · intro c hc
    unfold trilCols at hc
    obtain ⟨r, hr, hc⟩ := List.mem_flatMap.mp hc
    obtain ⟨j, hj, rfl⟩ := List.mem_map.mp hc
    have hr' := List.mem_range.mp hr
    have hj' := List.mem_range.mp hj
    constructor
    · positivity
    · push_cast
      omega

/-! Characterization of the counting sort used by sp_triplet and the transpose. -/

theorem bucketHistogram_ok_bounds (nb : Nat) : ∀ (keys acc h : List Int),
    bucketHistogram nb keys acc = .ok h → ∀ k ∈ keys, -1 ≤ k ∧ k < (nb : Int) := by
  intro keys
  induction keys with
  | nil => intro acc h _ k hk; cases hk
  | cons k0 rest ih =>
    intro acc h hok k hk
    rw [bucketHistogram] at hok
    by_cases h1 : k0 < (nb : Int)
    · rw [if_pos h1] at hok
      by_cases h2 : 0 ≤ k0 + 1
      · rw [if_pos h2] at hok
        rcases List.mem_cons.mp hk with rfl | hk'
        · omega
        · exact ih _ h hok k hk'
      · rw [if_neg h2] at hok
        cases hok
    · rw [if_neg h1] at hok
      cases hok

theorem bucketHistogram_spec (nb : Nat) : ∀ (keys acc : List Int),
    (∀ k ∈ keys, -1 ≤ k ∧ k < (nb : Int)) →
    acc.length = nb + 1 →
    ∃ h, bucketHistogram nb keys acc = .ok h ∧ h.length = acc.length ∧
      ∀ i : Nat, h.getD i 0 = acc.getD i 0 +
        ((keys.countP (fun r => decide (r + 1 = (i : Int)))) : Nat) := by
  intro keys
  induction keys with
  | nil =>
    intro acc _ _
    exact ⟨acc, rfl, rfl, fun i => by simp⟩
  | cons k0 rest ih =>
    intro acc hmem hlen
    obtain ⟨hk1, hk2⟩ := hmem k0 (List.mem_cons_self ..)
    set acc' := acc.set (k0 + 1).toNat (acc.getD (k0 + 1).toNat 0 + 1) with hacc'
    obtain ⟨h, hok, hhl, hval⟩ := ih acc'
      (fun k hk => hmem k (List.mem_cons_of_mem _ hk)) (by simp [hacc', hlen])
    refine ⟨h, ?_, by simp [hhl, hacc'], ?_⟩
    · rw [bucketHistogram, if_pos hk2, if_pos (by omega)]
      exact hok
    · intro i
      rw [hval i, List.countP_cons]
      by_cases hi : (i : Int) = k0 + 1
      · have hieq : i = (k0 + 1).toNat := by omega
        rw [hacc', hieq, getD_set_self _ _ _ (by rw [hlen]; omega)]
        simp only [hi, decide_eq_true_eq]
        rw [if_pos (by omega : k0 + 1 = (((k0 + 1).toNat : Nat) : Int))]
        push_cast
        omega
      · rw [hacc', getD_set_ne _ _ _ _ (by omega)]
        rw [if_neg (by simp only [decide_eq_true_eq]; omega)]
        push_cast
        omega

theorem cumsum_length (a : Int) : ∀ l : List Int, (cumsum a l).length = l.length := by
  intro l
  induction l generalizing a with
  | nil => rfl
  | cons x rest ih => simp [cumsum, ih]

theorem cumsum_getD : ∀ (l : List Int) (a : Int) (i : Nat), i < l.length →
    (cumsum a l).getD i 0 = a + (l.take (i + 1)).sum := by
  intro l
  induction l with
  | nil => intro a i hi; cases hi
  | cons x rest ih =>
    intro a i hi
    cases i with
    | zero => simp [cumsum]
    | succ i =>
      rw [cumsum]
      have : ((a + x) :: cumsum (a + x) rest).getD (i + 1) 0 =
          (cumsum (a + x) rest).getD i 0 := rfl
      rw [this, ih (a + x) i (by simpa using hi)]
      rw [List.take_succ_cons, List.sum_cons]
      ring

theorem take_succ_sum (l : List Int) (i : Nat) (hi : i < l.length) :
    (l.take (i + 1)).sum = (l.take i).sum + l.getD i 0 := by
  rw [List.take_succ, List.sum_append, List.getD_eq_getElem _ _ hi]
  simp [List.getElem?_eq_getElem hi]

theorem counting_starts (nb : Nat) (keys : List Int)
    (hmem : ∀ k ∈ keys, 0 ≤ k ∧ k < (nb : Int)) :
    ∃ hist, bucketHistogram nb keys (List.replicate (nb + 1) 0) = .ok hist ∧
      hist.length = nb + 1 ∧ cumsum 0 hist = rowindOf nb keys := by
  obtain ⟨hist, hok, hlen, hval⟩ := bucketHistogram_spec nb keys
    (List.replicate (nb + 1) 0)
    (fun k hk => ⟨by have := (hmem k hk).1; omega, (hmem k hk).2⟩) (by simp)
  rw [List.length_replicate] at hlen
  have hsum : ∀ i : Nat, i ≤ nb → (hist.take (i + 1)).sum = startCnt keys (i : Int) := by
    intro i
    induction i with
    | zero =>
      intro _
      have h0 : (hist.take 1).sum = hist.getD 0 0 := by
        rw [take_succ_sum hist 0 (by omega)]
        simp
      rw [h0, hval 0, getD_replicate_zero, Nat.cast_zero,
        startCnt_of_all_ge keys 0 (fun x hx => (hmem x hx).1)]
      have : keys.countP (fun r => decide (r + 1 = (0 : Int))) = 0 := by
        rw [List.countP_eq_zero]
        intro a ha
        have := (hmem a ha).1
        simp only [decide_eq_true_eq]
        omega
      rw [this]
      simp
    | succ i ih =>
      intro hi
      rw [take_succ_sum hist (i + 1) (by omega), ih (by omega), hval (i + 1),
        getD_replicate_zero]
      have hcg : keys.countP (fun r => decide (r + 1 = ((i + 1 : Nat) : Int))) =
          keys.countP (fun r => decide (r = (i : Int))) := by
        apply List.countP_congr
        intro a _
        simp only [decide_eq_true_eq]
        constructor
        · intro h; push_cast at h ⊢; omega
        · intro h; push_cast; omega
      rw [hcg, (by push_cast; ring : ((i + 1 : Nat) : Int) = (i : Int) + 1),
        startCnt_succ_sub]
      omega
  refine ⟨hist, hok, hlen, ?_⟩
  apply list_eq_of_getD
  · rw [cumsum_length, hlen, rowindOf_length]
  · intro i hi
    rw [cumsum_length, hlen] at hi
    rw [cumsum_getD hist 0 i (by omega), rowindOf_getD nb keys i hi, hsum i (by omega)]
    ring

theorem cntKey_nonneg (S : List (Int × Int)) (b : Int) : 0 ≤ cntKey S b := by
  simp [cntKey]

theorem cntKey_cons (k v : Int) (S : List (Int × Int)) (b : Int) :
    cntKey ((k, v) :: S) b = (if k = b then 1 else 0) + cntKey S b := by
  simp only [cntKey, List.countP_cons]
  by_cases h : k = b <;> (simp [h]; try omega)

theorem cntKey_head_pos (k v : Int) (S : List (Int × Int)) :
    1 ≤ cntKey ((k, v) :: S) k := by
  rw [cntKey_cons, if_pos rfl]
  have := cntKey_nonneg S k
  omega

theorem scatterPerm_spec : ∀ (S : List (Int × Int)) (cursor perm : List Int) (nb : Nat),
    cursor.length = nb + 1 →
    (∀ p ∈ S, 0 ≤ p.1 ∧ p.1 < (nb : Int)) →
    (∀ b : Nat, b < nb → 0 ≤ cursor.getD b 0) →
    (∀ b1 b2 : Nat, b1 < b2 → b2 < nb →
      cursor.getD b1 0 + cntKey S ((b1 : Nat) : Int) ≤ cursor.getD b2 0) →
    (∀ b : Nat, b < nb → cursor.getD b 0 + cntKey S ((b : Nat) : Int) ≤ (perm.length : Int)) →
    ∃ cursor2 perm2, scatterPerm S cursor perm = .ok (cursor2, perm2) ∧
      perm2.length = perm.length ∧
      (∀ b : Nat, b < nb → ∀ t : Nat, (t : Int) < cntKey S ((b : Nat) : Int) →
        perm2.getD (cursor.getD b 0 + (t : Int)).toNat 0 =
          ((S.filter (fun p => decide (p.1 = ((b : Nat) : Int)))).getD t (0, 0)).2) ∧
      (∀ j : Nat, j < perm.length →
        (∀ b : Nat, b < nb → ¬ (cursor.getD b 0 ≤ (j : Int) ∧
          (j : Int) < cursor.getD b 0 + cntKey S ((b : Nat) : Int))) →
        perm2.getD j 0 = perm.getD j 0) := by
  intro S
  induction S with
  | nil =>
    intro cursor perm nb hclen hmem hpos hdisj hcap
    refine ⟨cursor, perm, rfl, rfl, ?_, ?_⟩
    · intro b _ t ht
      have : cntKey ([] : List (Int × Int)) ((b : Nat) : Int) = 0 := by simp [cntKey]
      omega
    · intro j _ _
      rfl
  | cons head S ih =>
    obtain ⟨k0, v⟩ := head
    intro cursor perm nb hclen hmem hpos hdisj hcap
    obtain ⟨hk0a, hk0b⟩ := hmem (k0, v) (List.mem_cons_self ..)
    set b0 : Nat := k0.toNat with hb0def
    have hb0cast : ((b0 : Nat) : Int) = k0 := by omega
    have hb0lt : b0 < nb := by omega
    set c0 := cursor.getD b0 0 with hc0def
    have hc0pos : 0 ≤ c0 := hpos b0 hb0lt
    have hcnt1 : 1 ≤ cntKey ((k0, v) :: S) k0 := cntKey_head_pos k0 v S
    have hc0cap : c0 + cntKey ((k0, v) :: S) k0 ≤ (perm.length : Int) := by
      have := hcap b0 hb0lt
      rwa [hb0cast] at this
    have hsetok : setAt perm c0 v = .ok (perm.set c0.toNat v) :=
      setAt_ok _ _ _ hc0pos (by omega)
    have hcntS : ∀ b : Nat, cntKey ((k0, v) :: S) ((b : Nat) : Int) =
        (if b = b0 then 1 else 0) + cntKey S ((b : Nat) : Int) := by
      intro b
      rw [cntKey_cons]
      by_cases hb : b = b0
      · rw [if_pos (by omega : k0 = ((b : Nat) : Int)), if_pos hb]
      · rw [if_neg (by omega : ¬ k0 = ((b : Nat) : Int)), if_neg hb]
    have hgetset : ∀ b : Nat, b < nb →
        (cursor.set b0 (c0 + 1)).getD b 0 = if b = b0 then c0 + 1 else cursor.getD b 0 := by
      intro b _
      by_cases hb : b = b0
      · rw [if_pos hb, hb, getD_set_self _ _ _ (by omega)]
      · rw [if_neg hb, getD_set_ne _ _ _ _ (by omega)]
    obtain ⟨cursor2, perm2, hok2, hlen2, hslots2, huntouched2⟩ :=
      ih (cursor.set b0 (c0 + 1)) (perm.set c0.toNat v) nb
        (by simp [hclen])
        (fun p hp => hmem p (List.mem_cons_of_mem _ hp))
        (by
          intro b hb
          rw [hgetset b hb]
          by_cases hbb : b = b0
          · rw [if_pos hbb]; omega
          · rw [if_neg hbb]; exact hpos b hb)
        (by
          intro b1 b2 h12 h2
          rw [hgetset b1 (by omega), hgetset b2 h2]
          have horig := hdisj b1 b2 h12 h2
          rw [hcntS b1] at horig
          by_cases hb1 : b1 = b0
          · subst hb1
            rw [if_pos rfl, if_neg (by omega)]
            rw [if_pos rfl] at horig
            omega
          · rw [if_neg hb1]
            rw [if_neg hb1] at horig
            by_cases hb2 : b2 = b0
            · subst hb2
              rw [if_pos rfl]
              omega
            · rw [if_neg hb2]
              omega)
        (by
          intro b hb
          rw [hgetset b hb]
          have horig := hcap b hb
          rw [hcntS b] at horig
          simp only [List.length_set]
          by_cases hbb : b = b0
          · subst hbb
            rw [if_pos rfl]
            rw [if_pos rfl] at horig
            omega
          · rw [if_neg hbb]
            rw [if_neg hbb] at horig
            omega)
    have hrunfold : scatterPerm ((k0, v) :: S) cursor perm = .ok (cursor2, perm2) := by
      rw [scatterPerm, if_pos ⟨hk0a, by omega⟩]
      show (match setAt perm c0 v with
        | Except.error e => Except.error e
        | Except.ok perm' => scatterPerm S (cursor.set b0 (c0 + 1)) perm') =
          Except.ok (cursor2, perm2)
      rw [hsetok]
      exact hok2
    have houtside_c0 : ∀ b : Nat, b < nb →
        ¬ ((cursor.set b0 (c0 + 1)).getD b 0 ≤ c0 ∧
          c0 < (cursor.set b0 (c0 + 1)).getD b 0 + cntKey S ((b : Nat) : Int)) := by
      intro b hb
      rw [hgetset b hb]
      by_cases hbb : b = b0
      · rw [if_pos hbb]
        omega
      · rw [if_neg hbb]
        rcases Nat.lt_or_ge b b0 with hlt | hge
        · have := hdisj b b0 hlt hb0lt
          rw [hcntS b, if_neg hbb] at this
          rw [← hc0def] at this
          omega
        · have hgt : b0 < b := by omega
          have := hdisj b0 b hgt hb
          rw [hcntS b0, if_pos rfl, hb0cast, ← hc0def] at this
          have hj := cntKey_nonneg S k0
          omega
    have hperm2c0 : perm2.getD c0.toNat 0 = v := by
      rw [huntouched2 c0.toNat (by simp; omega) (by
        intro b hb
        have := houtside_c0 b hb
        rw [(by omega : ((c0.toNat : Nat) : Int) = c0)]
        exact this)]
      rw [getD_set_self _ _ _ (by omega)]
    refine ⟨cursor2, perm2, hrunfold, by simpa using hlen2, ?_, ?_⟩
    · intro b hb t ht
      by_cases hbb : b = b0
      · subst hbb
        have hfilterpos : ((k0, v) :: S).filter (fun p => decide (p.1 = ((b0 : Nat) : Int))) =
            (k0, v) :: S.filter (fun p => decide (p.1 = ((b0 : Nat) : Int))) :=
          List.filter_cons_of_pos (by simp; omega)
        rw [← hc0def]
        cases t with
        | zero =>
          rw [hfilterpos]
          simp only [Nat.cast_zero, add_zero, List.getD_cons_zero]
          exact hperm2c0
        | succ t =>
          rw [hfilterpos]
          have hcnteq := hcntS b0
          rw [if_pos rfl] at hcnteq
          have ht' : (t : Int) < cntKey S ((b0 : Nat) : Int) := by
            rw [hcnteq] at ht
            push_cast at ht ⊢
            omega
          have := hslots2 b0 hb t ht'
          rw [hgetset b0 hb, if_pos rfl] at this
          rw [(by push_cast; ring : c0 + ((t + 1 : Nat) : Int) = c0 + 1 + (t : Int)), this]
          rfl
      · have hfilterneg : ((k0, v) :: S).filter (fun p => decide (p.1 = ((b : Nat) : Int))) =
            S.filter (fun p => decide (p.1 = ((b : Nat) : Int))) :=
          List.filter_cons_of_neg (by simp; omega)
        rw [hfilterneg]
        have hcnteq := hcntS b
        rw [if_neg hbb] at hcnteq
        have ht' : (t : Int) < cntKey S ((b : Nat) : Int) := by omega
        have := hslots2 b hb t ht'
        rw [hgetset b hb, if_neg hbb] at this
        exact this
    · intro j hj houter
      have hS_outer : ∀ b : Nat, b < nb →
          ¬ ((cursor.set b0 (c0 + 1)).getD b 0 ≤ (j : Int) ∧
            (j : Int) < (cursor.set b0 (c0 + 1)).getD b 0 + cntKey S ((b : Nat) : Int)) := by
        intro b hb
        rw [hgetset b hb]
        have horig := houter b hb
        rw [hcntS b] at horig
        by_cases hbb : b = b0
        · rw [if_pos hbb]
          rw [if_pos hbb] at horig
          have hcb : cursor.getD b 0 = c0 := by rw [hbb]
          omega
        · rw [if_neg hbb]
          rw [if_neg hbb] at horig
          omega
      have hjc0 : j ≠ c0.toNat := by
        have := houter b0 hb0lt
        rw [hcntS b0, if_pos rfl, ← hc0def] at this
        have hk := cntKey_nonneg S ((b0 : Nat) : Int)
        omega
      rw [huntouched2 j (by simpa using hj) hS_outer, getD_set_ne _ _ _ _ (by omega)]

/-! Characterization of countingSortPerm. -/

theorem enumPairs_eq_zip (keys : List Int) :
    enumPairs keys =
    ((List.range keys.length).zip keys).map (fun p => (p.2, ((p.1 : Nat) : Int))) := by
  rw [enumPairs, List.enum_eq_zip_range]

theorem mem_enumPairs (keys : List Int) :
    ∀ p ∈ enumPairs keys, p.1 ∈ keys ∧ ∃ i : Nat, i < keys.length ∧ p.2 = (i : Int) := by
  intro p hp
  rw [enumPairs_eq_zip] at hp
  obtain ⟨⟨i, k⟩, hq, hpq⟩ := List.mem_map.mp hp
  obtain ⟨h1, h2⟩ := List.of_mem_zip hq
  subst hpq
  exact ⟨h2, i, List.mem_range.mp h1, rfl⟩

theorem countP_zip_snd (p : Int → Bool) : ∀ (l1 : List Nat) (l2 : List Int),
    l2.length ≤ l1.length →
    (l1.zip l2).countP (fun q => p q.2) = l2.countP p := by
  intro l1
  induction l1 with
  | nil =>
    intro l2 h
    cases l2 with
    | nil => simp
    | cons b l2 => simp at h
  | cons a l1 ih =>
    intro l2 h
    cases l2 with
    | nil => simp
    | cons b l2 =>
      rw [List.zip_cons_cons, List.countP_cons, List.countP_cons, ih l2 (by simpa using h)]

theorem countP_enumPairs_key (keys : List Int) (b : Int) :
    (enumPairs keys).countP (fun p => decide (p.1 = b)) =
    keys.countP (fun r => decide (r = b)) := by
  rw [enumPairs_eq_zip, List.countP_map]
  exact countP_zip_snd (fun r => decide (r = b)) (List.range keys.length) keys (by simp)

theorem cntKey_enumPairs (keys : List Int) (b : Int) :
    cntKey (enumPairs keys) b = ((keys.countP (fun r => decide (r = b))) : Nat) := by
  rw [cntKey, countP_enumPairs_key]

theorem block_length (keys : List Int) (b : Nat) :
    (((enumPairs keys).filter (fun p => decide (p.1 = ((b : Nat) : Int)))).map
      Prod.snd).length =
    keys.countP (fun r => decide (r = ((b : Nat) : Int))) := by
  rw [List.length_map, ← List.countP_eq_length_filter, countP_enumPairs_key]

theorem range_sum_cnt (keys : List Int) (hnn : ∀ r ∈ keys, 0 ≤ r) : ∀ n : Nat,
    ((((List.range n).map (fun (b : Nat) =>
      keys.countP (fun r => decide (r = ((b : Nat) : Int))))).sum : Nat) : Int) =
    startCnt keys (n : Int) := by
  intro n
  induction n with
  | zero =>
    rw [List.range_zero, List.map_nil, List.sum_nil, Nat.cast_zero,
      startCnt_of_all_ge keys 0 hnn]
  | succ n ih =>
    rw [List.range_succ, List.map_append, List.sum_append, List.map_singleton,
      List.sum_singleton, (by push_cast; ring : ((n + 1 : Nat) : Int) = (n : Int) + 1),
      startCnt_succ_sub]
    push_cast
    push_cast at ih
    omega

theorem bucketPerm_length (nb : Nat) (keys : List Int)
    (hmem : ∀ k ∈ keys, 0 ≤ k ∧ k < (nb : Int)) :
    (bucketPerm nb keys).length = keys.length := by
  rw [bucketPerm, List.length_flatMap]
  have hmap : (List.range nb).map (List.length ∘ (fun (b : Nat) =>
      ((enumPairs keys).filter (fun p => decide (p.1 = ((b : Nat) : Int)))).map
        Prod.snd)) =
      (List.range nb).map (fun (b : Nat) =>
        keys.countP (fun r => decide (r = ((b : Nat) : Int)))) :=
    List.map_congr_left (fun b _ => block_length keys b)
  rw [hmap]
  have h1 := range_sum_cnt keys (fun r hr => (hmem r hr).1) nb
  rw [startCnt_of_all_lt keys (nb : Int) (fun r hr => (hmem r hr).2)] at h1
  exact_mod_cast h1

theorem flatMap_range_getD (f : Nat → List Int) (nb b : Nat) (hb : b < nb) (t : Nat)
    (ht : t < (f b).length) :
    ((List.range nb).flatMap f).getD (((List.range b).flatMap f).length + t) 0 =
    (f b).getD t 0 := by
  have hsplit : List.range nb =
      List.range (b + 1) ++ (List.range (nb - (b + 1))).map ((b + 1) + ·) := by
    rw [← List.range_add]
    congr 1
    omega
  rw [hsplit, List.flatMap_append]
  have hlen1 : ((List.range (b + 1)).flatMap f).length =
      ((List.range b).flatMap f).length + (f b).length := by
    rw [List.range_succ, List.flatMap_append, List.length_append, List.flatMap_singleton]
  rw [List.getD_append _ _ _ _ (by rw [hlen1]; omega)]
  rw [List.range_succ, List.flatMap_append, List.flatMap_singleton]
  rw [List.getD_append_right _ _ _ _ (by omega), Nat.add_sub_cancel_left]

theorem getD_map_snd (l : List (Int × Int)) (t : Nat) (h : t < l.length) :
    (l.map Prod.snd).getD t 0 = (l.getD t (0, 0)).2 := by
  rw [List.getD_eq_getElem _ _ (by simpa using h), List.getElem_map,
    List.getD_eq_getElem _ _ h]

theorem bucketPerm_prefix (nb : Nat) (keys : List Int) (hnn : ∀ r ∈ keys, 0 ≤ r)
    (b : Nat) :
    ((((List.range b).flatMap (fun (b' : Nat) =>
      ((enumPairs keys).filter (fun p => decide (p.1 = ((b' : Nat) : Int)))).map
        Prod.snd)).length : Nat) : Int) =
    startCnt keys (b : Int) := by
  rw [List.length_flatMap]
  have hmap : (List.range b).map (List.length ∘ (fun (b' : Nat) =>
      ((enumPairs keys).filter (fun p => decide (p.1 = ((b' : Nat) : Int)))).map
        Prod.snd)) =
      (List.range b).map (fun (b' : Nat) =>
        keys.countP (fun r => decide (r = ((b' : Nat) : Int)))) :=
    List.map_congr_left (fun b' _ => block_length keys b')
  rw [hmap]
  exact range_sum_cnt keys hnn b

theorem bucketPerm_getD (nb : Nat) (keys : List Int) (hnn : ∀ r ∈ keys, 0 ≤ r)
    (b : Nat) (hb : b < nb) (t : Nat)
    (ht : t < keys.countP (fun r => decide (r = ((b : Nat) : Int)))) :
    (bucketPerm nb keys).getD ((startCnt keys (b : Int)).toNat + t) 0 =
    (((enumPairs keys).filter (fun p => decide (p.1 = ((b : Nat) : Int)))).getD t
      (0, 0)).2 := by
  rw [bucketPerm]
  have hpre := bucketPerm_prefix nb keys hnn b
  have hsnn := startCnt_nonneg keys (b : Int)
  have hidx : (startCnt keys (b : Int)).toNat + t =
      (((List.range b).flatMap (fun (b' : Nat) =>
        ((enumPairs keys).filter (fun p => decide (p.1 = ((b' : Nat) : Int)))).map
          Prod.snd)).length) + t := by omega
  rw [hidx, flatMap_range_getD _ nb b hb t (by rw [block_length]; exact ht)]
  exact getD_map_snd _ t (by rw [← List.countP_eq_length_filter, countP_enumPairs_key]; exact ht)

theorem window_exists (keys : List Int) (hnn : ∀ r ∈ keys, 0 ≤ r) :
    ∀ (nb : Nat) (j : Nat), (j : Int) < startCnt keys (nb : Int) →
    ∃ b : Nat, b < nb ∧ startCnt keys (b : Int) ≤ (j : Int) ∧
      (j : Int) < startCnt keys ((b : Int) + 1) := by
  intro nb
  induction nb with
  | zero =>
    intro j hj
    rw [Nat.cast_zero, startCnt_of_all_ge keys 0 hnn] at hj
    omega
  | succ nb ih =>
    intro j hj
    by_cases hcase : (j : Int) < startCnt keys (nb : Int)
    · obtain ⟨b, h1, h2, h3⟩ := ih j hcase
      exact ⟨b, by omega, h2, h3⟩
    · refine ⟨nb, by omega, by omega, ?_⟩
      rw [(by push_cast; ring : ((nb + 1 : Nat) : Int) = (nb : Int) + 1)] at hj
      exact hj

/-- Full characterization of countingSortPerm on in-range keys: the returned start
array is the cumulative key count and the returned permutation lists the input
positions grouped by key, stably. -/
theorem countingSortPerm_spec (nb : Nat) (keys : List Int)
    (hmem : ∀ k ∈ keys, 0 ≤ k ∧ k < (nb : Int)) :
    countingSortPerm nb keys = .ok (rowindOf nb keys, bucketPerm nb keys) := by
  obtain ⟨hist, hok, hlenh, hstarts⟩ := counting_starts nb keys hmem
  have hnn : ∀ r ∈ keys, 0 ≤ r := fun r hr => (hmem r hr).1
  obtain ⟨cursor2, perm2, hsok, hslen, hslots, huntouched⟩ :=
    scatterPerm_spec (enumPairs keys) (rowindOf nb keys)
      (List.replicate keys.length 0) nb
      (rowindOf_length nb keys)
      (fun p hp => (hmem p.1 (mem_enumPairs keys p hp).1))
      (fun b hb => by
        rw [rowindOf_getD nb keys b (by omega)]
        exact startCnt_nonneg keys (b : Int))
      (fun b1 b2 h12 h2 => by
        rw [rowindOf_getD nb keys b1 (by omega), rowindOf_getD nb keys b2 (by omega),
          cntKey_enumPairs]
        have hsucc := startCnt_succ_sub keys (b1 : Int)
        have hmono := startCnt_mono keys
          (show (b1 : Int) + 1 ≤ (b2 : Int) by push_cast; omega)
        omega)
      (fun b hb => by
        rw [rowindOf_getD nb keys b (by omega), cntKey_enumPairs,
          List.length_replicate]
        have hsucc := startCnt_succ_sub keys (b : Int)
        have hle := startCnt_le_length keys ((b : Int) + 1)
        omega)
  have hperm : perm2 = bucketPerm nb keys := by
    apply list_eq_of_getD
    · rw [hslen, List.length_replicate, bucketPerm_length nb keys hmem]
    · intro j hj
      rw [hslen, List.length_replicate] at hj
      have hjlt : (j : Int) < startCnt keys (nb : Int) := by
        rw [startCnt_of_all_lt keys _ (fun r hr => (hmem r hr).2)]
        exact_mod_cast hj
      obtain ⟨b, hb, hge, hlt⟩ := window_exists keys hnn nb j hjlt
      have hsucc := startCnt_succ_sub keys (b : Int)
      have hsnn := startCnt_nonneg keys (b : Int)
      have htlt : ((j - (startCnt keys (b : Int)).toNat : Nat) : Int) <
          cntKey (enumPairs keys) ((b : Nat) : Int) := by
        rw [cntKey_enumPairs]
        omega
      have hs := hslots b hb (j - (startCnt keys (b : Int)).toNat) htlt
      rw [rowindOf_getD nb keys b (by omega)] at hs
      have hidx : (startCnt keys (b : Int) +
          ((j - (startCnt keys (b : Int)).toNat : Nat) : Int)).toNat = j := by omega
      rw [hidx] at hs
      have hbp := bucketPerm_getD nb keys hnn b hb
        (j - (startCnt keys (b : Int)).toNat) (by
          have := htlt
          rw [cntKey_enumPairs] at this
          omega)
      have hidx2 : (startCnt keys (b : Int)).toNat +
          (j - (startCnt keys (b : Int)).toNat) = j := by omega
      rw [hidx2] at hbp
      rw [hs, hbp]
  simp only [countingSortPerm, hok, hstarts, hsok, hperm]

/-! The sorted-input case: the scatter permutation is the identity. -/

theorem pairwise_zip_right {α β : Type} (R : β → β → Prop) :
    ∀ (l1 : List α) (l2 : List β), l2.Pairwise R →
    (l1.zip l2).Pairwise (fun p q => R p.2 q.2) := by
  intro l1
  induction l1 with
  | nil => intro l2 _; simp
  | cons a l1 ih =>
    intro l2 h
    cases l2 with
    | nil => simp
    | cons b l2 =>
      obtain ⟨hb, hl⟩ := List.pairwise_cons.mp h
      rw [List.zip_cons_cons, List.pairwise_cons]
      refine ⟨?_, ih l2 hl⟩
      intro q hq
      exact hb q.2 (List.of_mem_zip hq).2

theorem enumPairs_pairwise_key (keys : List Int) (hsort : keys.Pairwise (· ≤ ·)) :
    (enumPairs keys).Pairwise (fun p q => p.1 ≤ q.1) := by
  rw [enumPairs_eq_zip]
  exact (pairwise_zip_right (· ≤ ·) (List.range keys.length) keys hsort).map _
    (fun p q h => h)

theorem bucketPerm_sorted (nb : Nat) (keys : List Int)
    (hmem : ∀ k ∈ keys, 0 ≤ k ∧ k < (nb : Int)) (hsort : keys.Pairwise (· ≤ ·)) :
    bucketPerm nb keys = (List.range keys.length).map (fun (i : Nat) => (i : Int)) := by
  rw [bucketPerm, ← List.map_flatMap,
    flatMap_filter_sorted Prod.fst nb (enumPairs keys)
      (fun p hp => hmem p.1 (mem_enumPairs keys p hp).1)
      (enumPairs_pairwise_key keys hsort),
    enumPairs_eq_zip, List.map_map]
  have hcomp : (Prod.snd ∘ fun (p : Nat × Int) => ((p.2 : Int), ((p.1 : Nat) : Int))) =
      ((fun (i : Nat) => (i : Int)) ∘ Prod.fst) := rfl
  rw [hcomp, ← List.map_map, List.map_fst_zip _ _ (by simp)]

theorem mem_zip_of_mem_left {α β : Type} :
    ∀ (l1 : List α) (l2 : List β), l1.length = l2.length →
    ∀ a ∈ l1, ∃ b, (a, b) ∈ l1.zip l2 := by
  intro l1
  induction l1 with
  | nil => intro l2 _ a ha; simp at ha
  | cons x l1 ih =>
    intro l2 hlen a ha
    cases l2 with
    | nil => simp at hlen
    | cons y l2 =>
      rcases List.mem_cons.mp ha with h | h
      · exact ⟨y, by rw [h, List.zip_cons_cons]; exact List.mem_cons_self ..⟩
      · obtain ⟨b, hb⟩ := ih l2 (by simpa using hlen) a h
        exact ⟨b, by rw [List.zip_cons_cons]; exact List.mem_cons_of_mem _ hb⟩

theorem pairwise_fst_of_zip {α β : Type} (R : α × β → α × β → Prop) (S : α → α → Prop)
    (himp : ∀ p q, R p q → S p.1 q.1) :
    ∀ (l1 : List α) (l2 : List β), l1.length = l2.length →
    (l1.zip l2).Pairwise R → l1.Pairwise S := by
  intro l1
  induction l1 with
  | nil => intro l2 _ _; simp
  | cons x l1 ih =>
    intro l2 hlen hp
    cases l2 with
    | nil => simp at hlen
    | cons y l2 =>
      rw [List.zip_cons_cons, List.pairwise_cons] at hp
      obtain ⟨hhead, htail⟩ := hp
      rw [List.pairwise_cons]
      refine ⟨?_, ih l2 (by simpa using hlen) htail⟩
      intro a ha
      obtain ⟨b, hb⟩ := mem_zip_of_mem_left l1 l2 (by simpa using hlen) a ha
      exact himp (x, y) (a, b) (hhead (a, b) hb)

/-- Claim C7: for every input with the sorted hint set whose (row, column) pairs are
strictly increasing in row-major order (sorted by row then column with no duplicate
pairs), and whose row indices are in range, sp_triplet succeeds and the returned
output-to-input mapping is the identity permutation on [0, nnz) (here nnz equals the
input length, as nothing is coalesced on this path). -/
theorem claim_C7_sorted_identity_mapping (nrow ncol : Nat) (row col : List Int)
    (hlen : row.length = col.length)
    (hmem : ∀ r ∈ row, 0 ≤ r ∧ r < (nrow : Int))
    (hlex : (row.zip col).Pairwise
      (fun p q => p.1 < q.1 ∨ (p.1 = q.1 ∧ p.2 < q.2))) :
    ∃ s, sp_triplet_mapped nrow ncol row col true =
      .ok (s, (List.range row.length).map (fun (i : Nat) => (i : Int))) := by
  have hsort : row.Pairwise (· ≤ ·) :=
    pairwise_fst_of_zip _ _
      (fun p q h => by rcases h with h | ⟨h, _⟩ <;> omega) row col hlen hlex
  have hcsp := countingSortPerm_spec nrow row hmem
  refine ⟨⟨nrow, ncol, (bucketPerm nrow row).map (fun k => col.getD k.toNat 0),
    rowindOf nrow row⟩, ?_⟩
  rw [← bucketPerm_sorted nrow row hmem hsort]
  rw [sp_triplet_mapped, if_neg (by omega : ¬ row.length ≠ col.length), hcsp]
  rfl

/-- Claim C7 witness: the identity-mapping theorem applied to the concrete sorted
duplicate-free input rows [0, 1], columns [1, 0] on a 2 x 2 pattern. -/
theorem claim_C7_witness :
    ∃ s, sp_triplet_mapped 2 2 [0, 1] [1, 0] true =
      .ok (s, (List.range ([0, 1] : List Int).length).map (fun (i : Nat) => (i : Int))) :=
  claim_C7_sorted_identity_mapping 2 2 [0, 1] [1, 0] (by decide)
    (by decide) (by decide)

/-- Claim C10: sp_triplet's input validation errors exactly when the row and column
arrays have different lengths or some row index is at least nrow; negative row
indices pass the bound check, and column indices are never inspected: the validation
result is unchanged under replacing the column list (of equal length), and a column
entry at or above ncol is accepted without error by the full assembler. -/
theorem claim_C10_validation :
    (∀ (nrow : Nat) (row col : List Int),
      (∃ u, sp_triplet_checks nrow row col = .ok u) ↔
        (row.length = col.length ∧ ∀ r ∈ row, r < (nrow : Int))) ∧
    (∀ (nrow : Nat) (row col col' : List Int), col.length = col'.length →
      sp_triplet_checks nrow row col = sp_triplet_checks nrow row col') ∧
    sp_triplet_checks 1 [-1] [0] = .ok () ∧
    sp_triplet_mapped 1 1 [0] [7] true = .ok (⟨1, 1, [7], [0, 1]⟩, [0]) := by
  refine ⟨?_, ?_, by rfl, by rfl⟩
  · intro nrow row col
    rw [sp_triplet_checks]
    by_cases h1 : row.length ≠ col.length
    · rw [if_pos h1]
      constructor
      · rintro ⟨u, hu⟩
        simp at hu
      · intro h
        exact absurd h.1 h1
    · rw [if_neg h1]
      by_cases h2 : row.all (fun r => decide (r < (nrow : Int))) = true
      · rw [if_pos h2]
        constructor
        · intro _
          refine ⟨by omega, fun r hr => ?_⟩
          have := List.all_eq_true.mp h2 r hr
          simpa using this
        · intro _
          exact ⟨(), rfl⟩
      · rw [if_neg h2]
        constructor
        · rintro ⟨u, hu⟩
          simp at hu
        · rintro ⟨_, hall⟩
          exact absurd (List.all_eq_true.mpr fun r hr => by simpa using hall r hr) h2
  · intro nrow row col col' hl
    rw [sp_triplet_checks, sp_triplet_checks, hl]

/-- Claim C10 witness: the validation characterization applied to concrete input with
a negative row index and out-of-range column values, which is accepted. -/
theorem claim_C10_witness :
    ∃ u, sp_triplet_checks 2 [-3, 1] [5, -9] = .ok u :=
  (claim_C10_validation.1 2 [-3, 1] [5, -9]).mpr ⟨by decide, by decide⟩

/-! Validity of the triplet-assembly pipeline. -/

theorem bucketPerm_mem (nb : Nat) (keys : List Int) :
    ∀ k ∈ bucketPerm nb keys, ∃ i : Nat, i < keys.length ∧ k = (i : Int) := by
  intro k hk
  rw [bucketPerm] at hk
  obtain ⟨b, _, hk⟩ := List.mem_flatMap.mp hk
  obtain ⟨p, hp, hpk⟩ := List.mem_map.mp hk
  have hp' := List.mem_filter.mp hp
  obtain ⟨_, i, hi, h2⟩ := mem_enumPairs keys p hp'.1
  exact ⟨i, hi, by rw [← hpk, h2]⟩

theorem transpose_spec (s : CRSSparsity)
    (hcol : ∀ c ∈ s.col, 0 ≤ c ∧ c < (s.ncol : Int)) :
    s.transpose = .ok
      (⟨s.ncol, s.nrow, (bucketPerm s.ncol s.col).map (fun k => s.getRow.getD k.toNat 0),
        rowindOf s.ncol s.col⟩, bucketPerm s.ncol s.col) := by
  rw [CRSSparsity.transpose, countingSortPerm_spec s.ncol s.col hcol]

theorem transpose_valid (s : CRSSparsity) (hV : Valid s) :
    Valid ⟨s.ncol, s.nrow,
      (bucketPerm s.ncol s.col).map (fun k => s.getRow.getD k.toNat 0),
      rowindOf s.ncol s.col⟩ := by
  apply Valid_mk_rowindOf
  · rw [List.length_map, bucketPerm_length s.ncol s.col hV.2.2.2.2]
  · exact hV.2.2.2.2
  · intro c hc
    obtain ⟨k, hk, hck⟩ := List.mem_map.mp hc
    obtain ⟨i, hi, rfl⟩ := bucketPerm_mem s.ncol s.col k hk
    rw [← hck]
    have hlen := getRow_length_valid s hV
    refine getRow_mem s _ ?_
    rw [List.getD_eq_getElem _ _ (by simp only [Int.toNat_natCast]; omega)]
    exact List.getElem_mem _

theorem dedupAdj_subset : ∀ (l : List (Int × Int)), ∀ p ∈ dedupAdj l, p ∈ l := by
  intro l
  induction l with
  | nil => intro p hp; simpa [dedupAdj] using hp
  | cons a l ih =>
    cases l with
    | nil => intro p hp; simpa [dedupAdj] using hp
    | cons b l =>
      intro p hp
      rw [dedupAdj] at hp
      by_cases hab : a.1 = b.1
      · rw [if_pos hab] at hp
        exact List.mem_cons_of_mem _ (ih p hp)
      · rw [if_neg hab] at hp
        rcases List.mem_cons.mp hp with h | h
        · exact h ▸ List.mem_cons_self ..
        · exact List.mem_cons_of_mem _ (ih p h)

theorem removeDuplicates_valid (s : CRSSparsity) (mapping : List Int) (hV : Valid s) :
    Valid (removeDuplicates s mapping).1 := by
  rw [removeDuplicates]
  dsimp only
  set rows := (List.range s.nrow).map (fun i =>
    dedupAdj (((s.col.zip mapping).take (s.rowind.getD (i + 1) 0).toNat).drop
      (s.rowind.getD i 0).toNat)) with hrows
  set lens := rows.map (fun r => ((r.length : Nat) : Int)) with hlens
  have hlenslen : lens.length = s.nrow := by
    rw [hlens, List.length_map, hrows, List.length_map, List.length_range]
  have hlensnn : ∀ i : Nat, 0 ≤ lens.getD i 0 := by
    intro i
    by_cases hi : i < lens.length
    · rw [hlens, List.getD_eq_getElem _ _ hi, List.getElem_map]
      positivity
    · rw [List.getD_eq_default _ _ (by omega)]
  have hflatlen : ((rows.flatMap (fun r => r.map Prod.fst)).length : Int) = lens.sum := by
    rw [List.length_flatMap, hlens]
    rw [Nat.cast_list_sum, List.map_map]
    congr 1
    apply List.map_congr_left
    intro r _
    simp
  have hcums : ∀ i : Nat, i < s.nrow →
      (cumsum 0 lens).getD i 0 = (lens.take (i + 1)).sum := by
    intro i hi
    rw [cumsum_getD lens 0 i (by omega)]
    ring
  unfold Valid
  dsimp only
  refine ⟨?_, rfl, ?_, ?_, ?_⟩
  · rw [List.length_cons, cumsum_length, hlenslen]
  · intro i hi
    cases i with
    | zero =>
      rw [List.getD_cons_zero, List.getD_cons_succ, hcums 0 hi]
      rw [take_succ_sum lens 0 (by omega), List.take_zero, List.sum_nil]
      have := hlensnn 0
      omega
    | succ j =>
      rw [List.getD_cons_succ, List.getD_cons_succ, hcums j (by omega),
        hcums (j + 1) (by omega), take_succ_sum lens (j + 1) (by omega)]
      have := hlensnn (j + 1)
      omega
  · cases hn : s.nrow with
    | zero =>
      have : lens = [] := by
        have := hlenslen
        rw [hn] at this
        exact List.eq_nil_of_length_eq_zero this
      rw [this]
      have : rows = [] := by
        rw [hrows, hn]
        simp
      rw [this]
      rfl
    | succ m =>
      rw [List.getD_cons_succ, hcums m (by omega), hflatlen]
      have : lens.take (m + 1) = lens := by
        rw [← hn, ← hlenslen]
        exact List.take_length lens
      rw [this]
  · intro c hc
    obtain ⟨r, hr, hcr⟩ := List.mem_flatMap.mp hc
    obtain ⟨p, hp, hpc⟩ := List.mem_map.mp hcr
    rw [hrows] at hr
    obtain ⟨i, _, hri⟩ := List.mem_map.mp hr
    rw [← hri] at hp
    have hpz := List.of_mem_zip
      (List.mem_of_mem_take (List.mem_of_mem_drop (dedupAdj_subset _ p hp)))
    rw [← hpc]
    exact hV.2.2.2.2 p.1 hpz.1

theorem sortStep_valid (hint : Bool) (ret : CRSSparsity) (mapping : List Int)
    (hV : Valid ret) :
    ∃ ret2 mapping2, sp_triplet_sortStep hint ret mapping = .ok (ret2, mapping2) ∧
      Valid ret2 := by
  rw [sp_triplet_sortStep]
  by_cases hcond : (!hint && !(columnsSequential ret false)) = true
  · rw [if_pos hcond]
    have h1 := transpose_spec ret hV.2.2.2.2
    have h1V := transpose_valid ret hV
    have h2 := transpose_spec _ h1V.2.2.2.2
    have h2V := transpose_valid _ h1V
    simp only [h1, h2]
    exact ⟨_, _, rfl, h2V⟩
  · rw [if_neg hcond]
    exact ⟨ret, mapping, rfl, hV⟩

theorem dedupStep_valid (hint : Bool) (ret : CRSSparsity) (mapping : List Int)
    (hV : Valid ret) :
    ∃ ret2 mapping2, sp_triplet_dedupStep hint ret mapping = .ok (ret2, mapping2) ∧
      Valid ret2 := by
  rw [sp_triplet_dedupStep]
  by_cases hcond : (!hint && !(columnsSequential ret true)) = true
  · rw [if_pos hcond]
    exact ⟨_, _, rfl, removeDuplicates_valid ret mapping hV⟩
  · rw [if_neg hcond]
    exact ⟨ret, mapping, rfl, hV⟩

theorem sp_triplet_mapped_valid (nrow ncol : Nat) (row col : List Int) (hint : Bool)
    (hlen : row.length = col.length)
    (hrow : ∀ r ∈ row, 0 ≤ r ∧ r < (nrow : Int))
    (hcol : ∀ c ∈ col, 0 ≤ c ∧ c < (ncol : Int)) :
    ∃ s m, sp_triplet_mapped nrow ncol row col hint = .ok (s, m) ∧ Valid s := by
  have hcsp := countingSortPerm_spec nrow row hrow
  have hretV : Valid ⟨nrow, ncol,
      (bucketPerm nrow row).map (fun k => col.getD k.toNat 0), rowindOf nrow row⟩ := by
    apply Valid_mk_rowindOf
    · rw [List.length_map, bucketPerm_length nrow row hrow]
    · exact hrow
    · intro c hc
      obtain ⟨k, hk, hck⟩ := List.mem_map.mp hc
      obtain ⟨i, hi, rfl⟩ := bucketPerm_mem nrow row k hk
      rw [← hck]
      refine hcol _ ?_
      rw [List.getD_eq_getElem _ _ (by simp only [Int.toNat_natCast]; omega)]
      exact List.getElem_mem _
  obtain ⟨ret2, mapping2, hs2, hs2V⟩ :=
    sortStep_valid hint
      ⟨nrow, ncol, (bucketPerm nrow row).map (fun k => col.getD k.toNat 0),
        rowindOf nrow row⟩ (bucketPerm nrow row) hretV
  obtain ⟨ret3, mapping3, hs3, hs3V⟩ := dedupStep_valid hint ret2 mapping2 hs2V
  refine ⟨ret3, mapping3, ?_, hs3V⟩
  rw [sp_triplet_mapped, if_neg (by omega : ¬ row.length ≠ col.length), hcsp]
  show (match sp_triplet_sortStep hint
      ⟨nrow, ncol, (bucketPerm nrow row).map (fun k => col.getD k.toNat 0),
        rowindOf nrow row⟩ (bucketPerm nrow row) with
    | Except.error e => Except.error e
    | Except.ok (ret2, mapping2) => sp_triplet_dedupStep hint ret2 mapping2) =
      Except.ok (ret3, mapping3)
  rw [hs2]
  exact hs3

/-- Claim C1 (amended): every constructor in this core yields a pattern satisfying
the representation invariant — rowPtr non-decreasing, rowPtr[0] = 0, rowPtr[nrow]
equal to the colIndex length, and every colIndex entry in [0, ncol) — for sp_diag,
sp_tril and sp_band unconditionally, for sp_NZ under sorted in-range rows and
in-range columns, and for sp_triplet (both values of the sorted hint) under in-range
rows and columns.  The column containment requires the column-range hypothesis,
because neither sp_NZ nor sp_triplet inspects the column values (see the
counterexample). -/
theorem claim_C1_builder_invariants :
    (∀ n : Nat, Valid (sp_diag n)) ∧
    (∀ n : Nat, Valid (sp_tril n)) ∧
    (∀ (n : Nat) (p : Int) (s : CRSSparsity), sp_band n p = .ok s → Valid s) ∧
    (∀ (row col : List Int) (nrow ncol : Nat),
      row.length = col.length →
      (∀ r ∈ row, 0 ≤ r ∧ r < (nrow : Int)) →
      row.Pairwise (· ≤ ·) →
      (∀ c ∈ col, 0 ≤ c ∧ c < (ncol : Int)) →
      ∃ s, sp_NZ row col nrow ncol true = .ok s ∧ Valid s) ∧
    (∀ (nrow ncol : Nat) (row col : List Int) (hint : Bool),
      row.length = col.length →
      (∀ r ∈ row, 0 ≤ r ∧ r < (nrow : Int)) →
      (∀ c ∈ col, 0 ≤ c ∧ c < (ncol : Int)) →
      ∃ s m, sp_triplet_mapped nrow ncol row col hint = .ok (s, m) ∧ Valid s) := by
  refine ⟨sp_diag_valid, sp_tril_valid, sp_band_valid, ?_, sp_triplet_mapped_valid⟩
  intro row col nrow ncol hlen hmem hsort hcol
  exact ⟨_, sp_NZ_spec row col nrow ncol hlen hmem hsort,
    Valid_mk_rowindOf nrow ncol col row hlen hmem hcol⟩

/-- Claim C1 counterexample: the claim fails as universally stated.  sp_NZ accepts
the stored column index 5 on a 1 x 2 pattern, so the returned colIndex entry is not
in [0, ncol); and on the unsorted row list [2, 0] sp_NZ returns the row pointer
[0, 1, 0, 2], which is not non-decreasing. -/
theorem claim_C1_counterexample :
    sp_NZ [0] [5] 1 2 true = .ok ⟨1, 2, [5], [0, 1]⟩ ∧
    ¬ Valid ⟨1, 2, [5], [0, 1]⟩ ∧
    sp_NZ [2, 0] [0, 0] 3 1 true = .ok ⟨3, 1, [0, 0], [0, 1, 0, 2]⟩ ∧
    ¬ Valid ⟨3, 1, [0, 0], [0, 1, 0, 2]⟩ :=
  ⟨by rfl, by decide, by rfl, by decide⟩

/-- Claim C1 witness: the sp_triplet conjunct applied to the concrete in-range input
of the spec's duplicate-coalescing scenario, with the sorted hint false. -/
theorem claim_C1_witness :
    ∃ s m, sp_triplet_mapped 2 2 [1, 0, 1] [0, 1, 0] false = .ok (s, m) ∧ Valid s :=
  claim_C1_builder_invariants.2.2.2.2 2 2 [1, 0, 1] [0, 1, 0] false (by decide)
    (by decide) (by decide)

/-! The marking discipline of casadi_qr. -/

theorem bind_ok_inv {α β : Type} {x : Except String α} {f : α → Except String β} {b : β}
    (h : x >>= f = .ok b) : ∃ a, x = .ok a ∧ f a = .ok b := by
  cases x with
  | error e =>
    rw [bind_error_eq _ e rfl f] at h
    exact Except.noConfusion h
  | ok a => exact ⟨a, rfl, h⟩

theorem setAt_ok_inv (l : List Int) (i v : Int) (out : List Int)
    (h : setAt l i v = .ok out) : out = l.set i.toNat v := by
  rw [setAt] at h
  by_cases hc : 0 ≤ i ∧ i < (l.length : Int)
  · rw [if_pos hc] at h
    cases h
    rfl
  · rw [if_neg hc] at h
    exact Except.noConfusion h

theorem qr_walkAux_iw_mem (c : Int) (parent : List Int) : ∀ (fuel : Nat) (r len : Int)
    (st iw : List Int) (res : Int × List Int × List Int),
    qr_walkAux c parent fuel r len st iw = .ok res →
    ∀ v ∈ res.2.2, v ∈ iw ∨ v = c := by
  intro fuel
  induction fuel with
  | zero =>
    intro r len st iw res h
    exact Except.noConfusion h
  | succ fuel ih =>
    intro r len st iw res h
    rw [qr_walkAux] at h
    by_cases h1 : 0 ≤ r ∧ r < (iw.length : Int)
    · rw [if_pos h1] at h
      by_cases h2 : iw.getD r.toNat 0 = c
      · rw [if_pos h2] at h
        cases h
        intro v hv
        exact Or.inl hv
      · rw [if_neg h2] at h
        by_cases h3 : 0 ≤ len ∧ len < (st.length : Int)
        · rw [if_pos h3] at h
          by_cases h4 : 0 ≤ r ∧ r < (parent.length : Int)
          · rw [if_pos h4] at h
            intro v hv
            rcases ih _ _ _ _ res h v hv with hin | hc
            · rcases List.mem_or_eq_of_mem_set hin with h5 | h5
              · exact Or.inl h5
              · exact Or.inr h5
            · exact Or.inr hc
          · rw [if_neg h4] at h
            exact Except.noConfusion h
        · rw [if_neg h3] at h
          exact Except.noConfusion h
    · rw [if_neg h1] at h
      exact Except.noConfusion h

theorem qr_entry_iw_mem (inp : QRInput) (c k top : Int) (st iw : List Int)
    (nnz_v : Int) (res : Int × List Int × List Int × Int)
    (h : qr_entry inp c k top st iw nnz_v = .ok res) :
    ∀ v ∈ res.2.2.1, v ∈ iw ∨ v = c := by
  rw [qr_entry] at h
  obtain ⟨rk, hrk, h⟩ := bind_ok_inv h
  obtain ⟨r0, hr0, h⟩ := bind_ok_inv h
  obtain ⟨⟨len, st1, iw1⟩, hwalk, h⟩ := bind_ok_inv h
  obtain ⟨⟨top1, st2⟩, hpush, h⟩ := bind_ok_inv h
  obtain ⟨r1, hr1, h⟩ := bind_ok_inv h
  rw [qr_walk] at hwalk
  have hiw1 := qr_walkAux_iw_mem c inp.parent _ _ _ _ _ (len, st1, iw1) hwalk
  by_cases hc1 : c < r1
  · rw [if_pos hc1] at h
    obtain ⟨m, hm, h⟩ := bind_ok_inv h
    by_cases hc2 : m < c
    · rw [if_pos hc2] at h
      cases h
      intro v hv
      rcases List.mem_or_eq_of_mem_set hv with h5 | h5
      · exact hiw1 v h5
      · exact Or.inr h5
    · rw [if_neg hc2] at h
      cases h
      intro v hv
      exact hiw1 v hv
  · rw [if_neg hc1] at h
    cases h
    intro v hv
    exact hiw1 v hv

theorem qr_entries_iw_mem (inp : QRInput) (c : Int) : ∀ (ks : List Int)
    (top : Int) (st iw : List Int) (nnz_v : Int) (res : Int × List Int × List Int × Int),
    qr_entries inp c ks top st iw nnz_v = .ok res →
    ∀ v ∈ res.2.2.1, v ∈ iw ∨ v = c := by
  intro ks
  induction ks with
  | nil =>
    intro top st iw nnz_v res h
    cases h
    intro v hv
    exact Or.inl hv
  | cons k rest ih =>
    intro top st iw nnz_v res h
    rw [qr_entries] at h
    obtain ⟨⟨top1, st1, iw1, nnz_v1⟩, hstep, h⟩ := bind_ok_inv h
    have h1 := qr_entry_iw_mem inp c k top st iw nnz_v (top1, st1, iw1, nnz_v1) hstep
    intro v hv
    rcases ih top1 st1 iw1 nnz_v1 res h v hv with hin | hc
    · exact h1 v hin
    · exact Or.inr hc

theorem qr_fillLoop_iw_mem (inp : QRInput) (c : Int) : ∀ (ks : List Int)
    (iw : List Int) (nnz_v : Int) (res : List Int × Int),
    qr_fillLoop inp c ks iw nnz_v = .ok res →
    ∀ v ∈ res.1, v ∈ iw ∨ v = c := by
  intro ks
  induction ks with
  | nil =>
    intro iw nnz_v res h
    cases h
    intro v hv
    exact Or.inl hv
  | cons k2 rest ih =>
    intro iw nnz_v res h
    rw [qr_fillLoop] at h
    obtain ⟨r2, hr2, h⟩ := bind_ok_inv h
    obtain ⟨m, hm, h⟩ := bind_ok_inv h
    by_cases hc2 : m < c
    · rw [if_pos hc2] at h
      intro v hv
      rcases ih _ _ res h v hv with hin | hc
      · rcases List.mem_or_eq_of_mem_set hin with h5 | h5
        · exact Or.inl h5
        · exact Or.inr h5
      · exact Or.inr hc
    · rw [if_neg hc2] at h
      exact ih _ _ res h

theorem qr_drain_iw_mem (inp : QRInput) (c : Int) : ∀ (ks : List Int)
    (st iw : List Int) (nnz_v nnz_r : Int) (res : List Int × Int × Int),
    qr_drain inp c ks st iw nnz_v nnz_r = .ok res →
    ∀ v ∈ res.1, v ∈ iw ∨ v = c := by
  intro ks
  induction ks with
  | nil =>
    intro st iw nnz_v nnz_r res h
    cases h
    intro v hv
    exact Or.inl hv
  | cons k rest ih =>
    intro st iw nnz_v nnz_r res h
    rw [qr_drain] at h
    obtain ⟨r, hr, h⟩ := bind_ok_inv h
    obtain ⟨a, ha, h⟩ := bind_ok_inv h
    obtain ⟨b, hb, h⟩ := bind_ok_inv h
    obtain ⟨p, hp, h⟩ := bind_ok_inv h
    by_cases hpc : p = c
    · rw [if_pos hpc] at h
      obtain ⟨⟨iw1, nnz_v1⟩, hfill, h⟩ := bind_ok_inv h
      have h1 := qr_fillLoop_iw_mem inp c (intRange a b) iw nnz_v (iw1, nnz_v1) hfill
      intro v hv
      rcases ih st iw1 nnz_v1 (nnz_r + 1) res h v hv with hin | hc
      · exact h1 v hin
      · exact Or.inr hc
    · rw [if_neg hpc] at h
      exact ih st iw nnz_v (nnz_r + 1) res h

theorem qr_column_iw_mem (inp : QRInput) (st : QRState) (c : Int) (st' : QRState)
    (h : qr_column inp st c = .ok st') :
    ∀ v ∈ st'.iw, v ∈ st.iw ∨ v = c := by
  rw [qr_column] at h
  obtain ⟨iw0, hiw0, h⟩ := bind_ok_inv h
  obtain ⟨a, ha, h⟩ := bind_ok_inv h
  obtain ⟨b, hb, h⟩ := bind_ok_inv h
  obtain ⟨⟨top, st1, iw1, nnz_v1⟩, hent, h⟩ := bind_ok_inv h
  obtain ⟨⟨iw2, nnz_v2, nnz_r2⟩, hdr, h⟩ := bind_ok_inv h
  cases h
  have h0 := setAt_ok_inv st.iw c c iw0 hiw0
  have h1 := qr_entries_iw_mem inp c _ _ _ _ _ (top, st1, iw1, nnz_v1) hent
  have h2 := qr_drain_iw_mem inp c _ _ _ _ _ (iw2, nnz_v2, nnz_r2) hdr
  intro v hv
  rcases h2 v hv with hin | hc
  · rcases h1 v hin with hin0 | hc
    · rw [h0] at hin0
      rcases List.mem_or_eq_of_mem_set hin0 with h5 | h5
      · exact Or.inl h5
      · exact Or.inr h5
    · exact Or.inr hc
  · exact Or.inr hc

theorem casadi_qr_marks_succ (inp : QRInput) (n : Nat) :
    casadi_qr_marks inp (n + 1) =
    casadi_qr_marks inp n >>= fun st => qr_column inp st (n : Int) := by
  rw [casadi_qr_marks, casadi_qr_marks, List.range_succ, List.foldlM_append]
  congr 1
  funext st
  rw [List.foldlM_cons]
  simp only [List.foldlM_nil]
  exact bind_pure (qr_column inp st (n : Int))

theorem casadi_qr_marks_iw (inp : QRInput) : ∀ (ccount : Nat) (st : QRState),
    casadi_qr_marks inp ccount = .ok st →
    ∀ v ∈ st.iw, v = -1 ∨ (0 ≤ v ∧ v < (ccount : Int)) := by
  intro ccount
  induction ccount with
  | zero =>
    intro st h v hv
    rw [casadi_qr_marks] at h
    cases h
    left
    exact List.eq_of_mem_replicate hv
  | succ n ih =>
    intro st h v hv
    rw [casadi_qr_marks_succ] at h
    obtain ⟨st0, h0, h1⟩ := bind_ok_inv h
    rcases qr_column_iw_mem inp st0 (n : Int) st h1 v hv with hin | hc
    · rcases ih st0 h0 v hin with h2 | h2
      · exact Or.inl h2
      · right
        push_cast
        omega
    · right
      rw [hc]
      constructor
      · positivity
      · push_cast
        omega

/-- Claim C5: in the integer/marking projection of casadi_qr, (1) each column c
writes only its own identity c into the marker array iw, so every marker entry after
processing column c is either unchanged or equal to c; (2) after any complete run
over ccount columns from the freshly cleared workspace, every marker entry is either
the initial value -1 or the identity of the (unique) column in [0, ccount) that set
it; and (3) consequently no mark left by an earlier column can be read as current for
the next column to be processed: no entry equals ccount.  Together these express that
a row is treated as visited for column c exactly when iw[r] = c, and that marks of
earlier columns (or of an earlier call, which this run's cleared workspace models)
are never misread as current. -/
theorem claim_C5_qr_marking (inp : QRInput) :
    (∀ (st : QRState) (c : Int) (st' : QRState), qr_column inp st c = .ok st' →
      ∀ v ∈ st'.iw, v ∈ st.iw ∨ v = c) ∧
    (∀ (ccount : Nat) (st : QRState), casadi_qr_marks inp ccount = .ok st →
      ∀ v ∈ st.iw, v = -1 ∨ (0 ≤ v ∧ v < (ccount : Int))) ∧
    (∀ (ccount : Nat) (st : QRState), casadi_qr_marks inp ccount = .ok st →
      ∀ v ∈ st.iw, ¬ v = (ccount : Int)) := by
  refine ⟨fun st c st' h => qr_column_iw_mem inp st c st' h,
    fun ccount st h => casadi_qr_marks_iw inp ccount st h, ?_⟩
  intro ccount st h v hv
  rcases casadi_qr_marks_iw inp ccount st h v hv with h1 | h1
  · intro hc
    rw [hc] at h1
    have : (0 : Int) ≤ (ccount : Int) := by positivity
    omega
  · intro hc
    rw [hc] at h1
    omega

/-- Claim C5 witness: the invariant applied to the complete run of the single-column
1 x 1 dense system, whose marker array after the run is [0]. -/
theorem claim_C5_witness :
    ∀ v ∈ (QRState.mk [0] [0] 1 1).iw, v = -1 ∨ (0 ≤ v ∧ v < ((1 : Nat) : Int)) :=
  (claim_C5_qr_marking ⟨1, [0, 1], [0], 1, [0, 1], [0], [0], [1], [0]⟩).2.1 1
    ⟨[0], [0], 1, 1⟩ (by rfl)

/-! Counting distinct pairs through the triplet pipeline. -/

theorem countP_zip_fst (p : Int → Bool) : ∀ (l1 : List Int) (l2 : List Int),
    l1.length ≤ l2.length →
    (l1.zip l2).countP (fun q => p q.1) = l1.countP p := by
  intro l1
  induction l1 with
  | nil => intro l2 h; simp
  | cons a l1 ih =>
    intro l2 h
    cases l2 with
    | nil => simp at h
    | cons b l2 =>
      rw [List.zip_cons_cons, List.countP_cons, List.countP_cons, ih l2 (by simpa using h)]

theorem zip_take_eq {α β : Type} : ∀ (l1 : List α) (l2 : List β) (n : Nat),
    (l1.zip l2).take n = (l1.take n).zip (l2.take n) := by
  intro l1
  induction l1 with
  | nil => intro l2 n; simp
  | cons a l1 ih =>
    intro l2 n
    cases l2 with
    | nil => simp
    | cons b l2 =>
      cases n with
      | zero => simp
      | succ n =>
        rw [List.zip_cons_cons, List.take_succ_cons, List.take_succ_cons,
          List.take_succ_cons, List.zip_cons_cons, ih l2 n]

theorem zip_drop_eq {α β : Type} : ∀ (l1 : List α) (l2 : List β) (n : Nat),
    (l1.zip l2).drop n = (l1.drop n).zip (l2.drop n) := by
  intro l1
  induction l1 with
  | nil => intro l2 n; simp
  | cons a l1 ih =>
    intro l2 n
    cases l2 with
    | nil => simp
    | cons b l2 =>
      cases n with
      | zero => simp
      | succ n =>
        rw [List.zip_cons_cons, List.drop_succ_cons, List.drop_succ_cons,
          List.drop_succ_cons, ih l2 n]

theorem zip_flatMap_blocks {α β : Type} (f : Nat → List α) (g : Nat → List β) :
    ∀ (L : List Nat), (∀ b ∈ L, (f b).length = (g b).length) →
    (L.flatMap f).zip (L.flatMap g) = L.flatMap (fun b => (f b).zip (g b)) := by
  intro L
  induction L with
  | nil => intro _; simp
  | cons b L ih =>
    intro h
    rw [List.flatMap_cons, List.flatMap_cons, List.flatMap_cons,
      List.zip_append (h b (List.mem_cons_self ..)), ih (fun x hx => h x (List.mem_cons_of_mem _ hx))]

theorem flatMap_slice {α : Type} (f : Nat → List α) (nb b : Nat) (hb : b < nb) :
    ((((List.range nb).flatMap f).take
      (((List.range (b + 1)).flatMap f).length)).drop
        (((List.range b).flatMap f).length)) = f b := by
  have hsplit : List.range nb =
      List.range (b + 1) ++ (List.range (nb - (b + 1))).map ((b + 1) + ·) := by
    rw [← List.range_add]
    congr 1
    omega
  rw [hsplit, List.flatMap_append, List.take_left, List.range_succ, List.flatMap_append,
    List.flatMap_singleton, List.drop_left]

theorem zip_replicate_snd (b : Int) : ∀ (l : List (Int × Int)),
    (List.replicate l.length b).zip (l.map Prod.snd) = l.map (fun p => (b, p.2)) := by
  intro l
  induction l with
  | nil => simp
  | cons p l ih =>
    rw [List.length_cons, List.replicate_succ, List.map_cons, List.zip_cons_cons,
      List.map_cons, ih]

theorem dedupAdj_length_sorted : ∀ (l : List (Int × Int)),
    (l.map Prod.fst).Pairwise (· ≤ ·) →
    (dedupAdj l).length = (l.map Prod.fst).dedup.length := by
  intro l
  induction l with
  | nil => intro _; simp [dedupAdj]
  | cons p l ih =>
    cases l with
    | nil => intro _; simp [dedupAdj]
    | cons q l =>
      intro hsort
      rw [List.map_cons, List.pairwise_cons] at hsort
      obtain ⟨hp, hsort'⟩ := hsort
      have hcons : (p :: q :: l).map Prod.fst = p.1 :: (q :: l).map Prod.fst := rfl
      rw [dedupAdj]
      by_cases hpq : p.1 = q.1
      · rw [if_pos hpq, ih hsort', hcons,
          List.dedup_cons_of_mem (by
            rw [hpq, List.map_cons]
            exact List.mem_cons_self ..)]
      · have hnotmem : p.1 ∉ (q :: l).map Prod.fst := by
          intro hmem
          rw [List.map_cons] at hmem
          rcases List.mem_cons.mp hmem with h | h
          · exact hpq h
          · have h1 : p.1 ≤ q.1 :=
              hp q.1 (by rw [List.map_cons]; exact List.mem_cons_self ..)
            have h2 : q.1 ≤ p.1 := by
              rw [List.map_cons] at hsort'
              exact List.rel_of_pairwise_cons hsort' h
            exact hpq (by omega)
        rw [if_neg hpq, List.length_cons, ih hsort', hcons,
          List.dedup_cons_of_not_mem hnotmem, List.length_cons]

theorem dedup_length_map_pair (b : Int) : ∀ (l : List Int),
    ((l.map (fun c => ((b : Int), c))).dedup).length = l.dedup.length := by
  intro l
  induction l with
  | nil => simp
  | cons c l ih =>
    rw [List.map_cons]
    by_cases h : c ∈ l
    · rw [List.dedup_cons_of_mem h, List.dedup_cons_of_mem, ih]
      exact List.mem_map_of_mem _ h
    · rw [List.dedup_cons_of_not_mem h, List.dedup_cons_of_not_mem, List.length_cons,
        List.length_cons, ih]
      intro hmem
      obtain ⟨c', hc', he⟩ := List.mem_map.mp hmem
      have : c' = c := congrArg Prod.snd he
      exact h (this ▸ hc')

theorem dedup_length_append {α : Type} [DecidableEq α] : ∀ (A B : List α),
    (∀ a ∈ A, a ∉ B) → ((A ++ B).dedup).length = A.dedup.length + B.dedup.length := by
  intro A
  induction A with
  | nil => intro B _; simp
  | cons a A ih =>
    intro B hdis
    rw [List.cons_append]
    by_cases h : a ∈ A
    · rw [List.dedup_cons_of_mem (List.mem_append_left B h), List.dedup_cons_of_mem h,
        ih B (fun x hx => hdis x (List.mem_cons_of_mem _ hx))]
    · have hnb : a ∉ B := hdis a (List.mem_cons_self ..)
      rw [List.dedup_cons_of_not_mem (by
          intro hm
          rcases List.mem_append.mp hm with h1 | h1
          · exact h h1
          · exact hnb h1),
        List.dedup_cons_of_not_mem h, List.length_cons, List.length_cons,
        ih B (fun x hx => hdis x (List.mem_cons_of_mem _ hx))]
      omega

theorem zip_eq_enumPairs_map (keys payload : List Int) (h : keys.length ≤ payload.length) :
    keys.zip payload =
    (enumPairs keys).map (fun p => (p.1, payload.getD p.2.toNat 0)) := by
  rw [enumPairs_eq_zip, List.map_map]
  apply List.ext_getElem
  · rw [List.length_zip, List.length_map, List.length_zip, List.length_range]
    omega
  · intro i h1 h2
    have hik : i < keys.length := by rw [List.length_zip] at h1; omega
    have hip : i < payload.length := by omega
    rw [List.getElem_zip, List.getElem_map, List.getElem_zip]
    simp only [Function.comp_apply, List.getElem_range, Int.toNat_natCast]
    rw [List.getD_eq_getElem _ _ hip]

theorem zip_filter_block (keys payload : List Int) (h : keys.length ≤ payload.length)
    (b : Nat) :
    (keys.zip payload).filter (fun p => decide (p.1 = ((b : Nat) : Int))) =
    ((enumPairs keys).filter (fun p => decide (p.1 = ((b : Nat) : Int)))).map
      (fun p => (p.1, payload.getD p.2.toNat 0)) := by
  rw [zip_eq_enumPairs_map keys payload h, List.map_filter]
  rfl

theorem mapped_bucketPerm_eq_flatMap (nb : Nat) (keys payload : List Int)
    (h : keys.length ≤ payload.length) :
    (bucketPerm nb keys).map (fun k => payload.getD k.toNat 0) =
    (List.range nb).flatMap (fun (b : Nat) =>
      ((keys.zip payload).filter (fun p => decide (p.1 = ((b : Nat) : Int)))).map
        Prod.snd) := by
  rw [bucketPerm, List.map_flatMap]
  apply List.flatMap_congr
  intro b _
  rw [List.map_map, zip_filter_block keys payload h b, List.map_map]
  rfl

theorem block_filter_length (keys payload : List Int) (h : keys.length ≤ payload.length)
    (b : Nat) :
    ((keys.zip payload).filter (fun p => decide (p.1 = ((b : Nat) : Int)))).length =
    keys.countP (fun r => decide (r = ((b : Nat) : Int))) := by
  rw [← List.countP_eq_length_filter]
  exact countP_zip_fst (fun r => decide (r = ((b : Nat) : Int))) keys payload h

theorem toPairs_mk_bucket (nb nc : Nat) (keys payload : List Int)
    (hlen : keys.length ≤ payload.length) :
    (CRSSparsity.mk nb nc
      ((bucketPerm nb keys).map (fun k => payload.getD k.toNat 0))
      (rowindOf nb keys)).toPairs =
    stablePart nb (keys.zip payload) := by
  rw [CRSSparsity.toPairs]
  have hrow := getRow_mk_rowindOf nb nc
    ((bucketPerm nb keys).map (fun k => payload.getD k.toNat 0)) keys
  rw [hrow, mapped_bucketPerm_eq_flatMap nb keys payload hlen,
    zip_flatMap_blocks _ _ (List.range nb) (fun b _ => by
      rw [List.length_map, block_filter_length keys payload hlen b,
        ← List.countP_eq_length_filter])]
  rw [stablePart]
  apply List.flatMap_congr
  intro b _
  rw [filter_eq_replicate_countP keys ((b : Nat) : Int),
    (block_filter_length keys payload hlen b).symm, zip_replicate_snd]
  have hid : ∀ p ∈ (keys.zip payload).filter
      (fun p => decide (p.1 = ((b : Nat) : Int))), (((b : Nat) : Int), p.2) = p := by
    intro p hp
    have := (List.mem_filter.mp hp).2
    simp only [decide_eq_true_eq] at this
    rw [← this]
  rw [List.map_congr_left hid, List.map_id']

theorem sortedRun_false_iff : ∀ l : List Int,
    sortedRun false l = true ↔ l.Chain' (· ≤ ·) := by
  intro l
  induction l with
  | nil => simp [sortedRun]
  | cons a l ih =>
    cases l with
    | nil => simp [sortedRun]
    | cons b l =>
      rw [sortedRun, Bool.and_eq_true, List.chain'_cons, ih]
      simp

theorem sortedRun_true_iff : ∀ l : List Int,
    sortedRun true l = true ↔ l.Chain' (· < ·) := by
  intro l
  induction l with
  | nil => simp [sortedRun]
  | cons a l ih =>
    cases l with
    | nil => simp [sortedRun]
    | cons b l =>
      rw [sortedRun, Bool.and_eq_true, List.chain'_cons, ih]
      simp

theorem rowSliceCol_mk (nb nc : Nat) (keys payload : List Int)
    (hlen : keys.length ≤ payload.length) (hnn : ∀ r ∈ keys, 0 ≤ r)
    (b : Nat) (hb : b < nb) :
    rowSliceCol (CRSSparsity.mk nb nc
      ((bucketPerm nb keys).map (fun k => payload.getD k.toNat 0))
      (rowindOf nb keys)) b =
    ((keys.zip payload).filter (fun p => decide (p.1 = ((b : Nat) : Int)))).map
      Prod.snd := by
  rw [rowSliceCol]
  dsimp only
  have hpre : ∀ j : Nat, j ≤ nb → (startCnt keys ((j : Nat) : Int)).toNat =
      ((List.range j).flatMap (fun (b' : Nat) =>
        ((keys.zip payload).filter (fun p => decide (p.1 = ((b' : Nat) : Int)))).map
          Prod.snd)).length := by
    intro j _
    have h1 := range_sum_cnt keys hnn j
    rw [List.length_flatMap]
    have h2 : (List.range j).map (List.length ∘ (fun (b' : Nat) =>
        ((keys.zip payload).filter (fun p => decide (p.1 = ((b' : Nat) : Int)))).map
          Prod.snd)) =
        (List.range j).map (fun (b' : Nat) =>
          keys.countP (fun r => decide (r = ((b' : Nat) : Int)))) :=
      List.map_congr_left (fun b' _ => by
        simp only [Function.comp_apply, List.length_map]
        exact block_filter_length keys payload hlen b')
    rw [h2]
    omega
  rw [mapped_bucketPerm_eq_flatMap nb keys payload hlen,
    rowindOf_getD nb keys b (by omega), rowindOf_getD nb keys (b + 1) (by omega),
    hpre b (by omega), hpre (b + 1) (by omega)]
  exact flatMap_slice _ nb b hb

theorem columnsSequential_mk_iff (nb nc : Nat) (keys payload : List Int)
    (hlen : keys.length ≤ payload.length) (hnn : ∀ r ∈ keys, 0 ≤ r) (strict : Bool) :
    columnsSequential (CRSSparsity.mk nb nc
      ((bucketPerm nb keys).map (fun k => payload.getD k.toNat 0))
      (rowindOf nb keys)) strict = true ↔
    ∀ b : Nat, b < nb → sortedRun strict
      (((keys.zip payload).filter (fun p => decide (p.1 = ((b : Nat) : Int)))).map
        Prod.snd) = true := by
  rw [columnsSequential, List.all_eq_true]
  constructor
  · intro h b hb
    have := h b (List.mem_range.mpr hb)
    rwa [rowSliceCol_mk nb nc keys payload hlen hnn b hb] at this
  · intro h b hb
    rw [rowSliceCol_mk nb nc keys payload hlen hnn b (List.mem_range.mp hb)]
    exact h b (List.mem_range.mp hb)

theorem stablePart_subset (nb : Nat) (Q : List (Int × Int)) :
    ∀ p ∈ stablePart nb Q, p ∈ Q := by
  intro p hp
  rw [stablePart] at hp
  obtain ⟨b, _, hp⟩ := List.mem_flatMap.mp hp
  exact (List.mem_filter.mp hp).1

theorem stablePart_perm (nb : Nat) (Q : List (Int × Int))
    (hmem : ∀ p ∈ Q, 0 ≤ p.1 ∧ p.1 < (nb : Int)) :
    (stablePart nb Q).Perm Q :=
  flatMap_filter_perm Prod.fst nb Q hmem

theorem stablePart_fst_sorted (nb : Nat) (Q : List (Int × Int)) :
    (stablePart nb Q).Pairwise (fun p q => p.1 ≤ q.1) := by
  rw [stablePart]
  induction nb with
  | zero => simp
  | succ n ih =>
    rw [List.range_succ, List.flatMap_append, List.flatMap_singleton,
      List.pairwise_append]
    refine ⟨ih, ?_, ?_⟩
    · apply List.pairwise_of_forall_mem_list
      intro p hp q hq
      have h1 := (List.mem_filter.mp hp).2
      have h2 := (List.mem_filter.mp hq).2
      simp only [decide_eq_true_eq] at h1 h2
      omega
    · intro p hp q hq
      obtain ⟨b', hb', hp⟩ := List.mem_flatMap.mp hp
      have h1 := (List.mem_filter.mp hp).2
      have h2 := (List.mem_filter.mp hq).2
      simp only [decide_eq_true_eq] at h1 h2
      have hb'n := List.mem_range.mp hb'
      rw [h1, h2]
      push_cast
      omega

theorem zip_map_pairSwap : ∀ (A B : List Int), (A.zip B).map pairSwap = B.zip A := by
  intro A
  induction A with
  | nil => intro B; simp
  | cons a A ih =>
    intro B
    cases B with
    | nil => simp
    | cons b B =>
      rw [List.zip_cons_cons, List.map_cons, ih, List.zip_cons_cons]
      rfl

theorem dedup_length_map_inj {α β : Type} [DecidableEq α] [DecidableEq β] (f : α → β)
    (hf : ∀ a b, f a = f b → a = b) : ∀ l : List α,
    ((l.map f).dedup).length = l.dedup.length := by
  intro l
  induction l with
  | nil => simp
  | cons a l ih =>
    rw [List.map_cons]
    by_cases h : a ∈ l
    · rw [List.dedup_cons_of_mem h, List.dedup_cons_of_mem (List.mem_map_of_mem f h), ih]
    · have hnm : f a ∉ l.map f := by
        intro hm
        obtain ⟨a', ha', he⟩ := List.mem_map.mp hm
        exact h (hf a' a he ▸ ha')
      rw [List.dedup_cons_of_not_mem h, List.dedup_cons_of_not_mem hnm,
        List.length_cons, List.length_cons, ih]

theorem pair_repr (v : Int) : ∀ (l : List (Int × Int)), (∀ p ∈ l, p.1 = v) →
    l = (l.map Prod.snd).map (fun c => (v, c)) := by
  intro l hall
  rw [List.map_map]
  have : ∀ p ∈ l, p = ((fun c => (v, c)) ∘ Prod.snd) p := by
    intro p hp
    have := hall p hp
    simp only [Function.comp_apply]
    rw [← this]
  calc l = l.map (fun a => a) := (List.map_id' l).symm
    _ = l.map ((fun c => (v, c)) ∘ Prod.snd) := List.map_congr_left this

theorem flatMap_blocks_dedup (L : Nat → List (Int × Int)) : ∀ nb : Nat,
    (∀ b : Nat, b < nb → ∀ p ∈ L b, p.1 = ((b : Nat) : Int)) →
    (((List.range nb).flatMap L).dedup).length =
    ((List.range nb).map (fun b => (((L b).map Prod.snd).dedup).length)).sum := by
  intro nb
  induction nb with
  | zero => intro _; simp
  | succ n ih =>
    intro hall
    rw [List.range_succ, List.flatMap_append, List.flatMap_singleton, List.map_append,
      List.map_singleton, List.sum_append, List.sum_singleton,
      dedup_length_append _ _ (by
        intro p hp hpB
        obtain ⟨b', hb', hp⟩ := List.mem_flatMap.mp hp
        have h1 := hall b' (by have := List.mem_range.mp hb'; omega) p hp
        have h2 := hall n (by omega) p hpB
        have := List.mem_range.mp hb'
        rw [h1] at h2
        have : b' = n := by exact_mod_cast h2
        omega),
      ih (fun b hb p hp => hall b (by omega) p hp)]
    congr 1
    conv_lhs => rw [pair_repr ((n : Nat) : Int) (L n) (hall n (by omega))]
    rw [dedup_length_map_inj (fun c => (((n : Nat) : Int), c))
      (fun a b h => congrArg Prod.snd h)]

theorem flatMap_blocks_nodup (L : Nat → List (Int × Int)) : ∀ nb : Nat,
    (∀ b : Nat, b < nb → ∀ p ∈ L b, p.1 = ((b : Nat) : Int)) →
    (∀ b : Nat, b < nb → ((L b).map Prod.snd).Pairwise (· < ·)) →
    ((List.range nb).flatMap L).Nodup := by
  intro nb
  induction nb with
  | zero => intro _ _; simp
  | succ n ih =>
    intro hall hsort
    rw [List.range_succ, List.flatMap_append, List.flatMap_singleton]
    refine List.Nodup.append (ih (fun b hb p hp => hall b (by omega) p hp)
      (fun b hb => hsort b (by omega))) ?_ ?_
    · rw [pair_repr ((n : Nat) : Int) (L n) (hall n (by omega))]
      refine List.Nodup.map (fun a b h => congrArg Prod.snd h) ?_
      have := hsort n (by omega)
      exact this.imp (fun h => by omega)
    · intro p hp hpB
      obtain ⟨b', hb', hp⟩ := List.mem_flatMap.mp hp
      have h1 := hall b' (by have := List.mem_range.mp hb'; omega) p hp
      have h2 := hall n (by omega) p hpB
      have := List.mem_range.mp hb'
      rw [h1] at h2
      have : b' = n := by exact_mod_cast h2
      omega

theorem removeDuplicates_size (s : CRSSparsity) (mapping : List Int) :
    (removeDuplicates s mapping).1.size =
    ((List.range s.nrow).map (fun i =>
      (dedupAdj (((s.col.zip mapping).take (s.rowind.getD (i + 1) 0).toNat).drop
        (s.rowind.getD i 0).toNat)).length)).sum := by
  rw [removeDuplicates]
  dsimp only [CRSSparsity.size]
  rw [List.length_flatMap, List.map_map]
  congr 1
  apply List.map_congr_left
  intro i _
  simp only [Function.comp_apply, List.length_map]

theorem dedup_count (nb nc : Nat) (keys payload mapping : List Int)
    (hlen : keys.length ≤ payload.length)
    (hmem : ∀ k ∈ keys, 0 ≤ k ∧ k < (nb : Int))
    (hsorted : ∀ b : Nat, b < nb →
      (((keys.zip payload).filter (fun p => decide (p.1 = ((b : Nat) : Int)))).map
        Prod.snd).Pairwise (· ≤ ·))
    (hmaplen : keys.length ≤ mapping.length) :
    ∃ t' m', sp_triplet_dedupStep false
      (CRSSparsity.mk nb nc
        ((bucketPerm nb keys).map (fun k => payload.getD k.toNat 0))
        (rowindOf nb keys)) mapping = .ok (t', m') ∧
      t'.size = ((keys.zip payload).dedup).length := by
  have hnn : ∀ r ∈ keys, 0 ≤ r := fun r hr => (hmem r hr).1
  set t := CRSSparsity.mk nb nc
    ((bucketPerm nb keys).map (fun k => payload.getD k.toNat 0))
    (rowindOf nb keys) with ht
  set Q := keys.zip payload with hQ
  have hQfst : ∀ b : Nat,
      ∀ p ∈ Q.filter (fun p => decide (p.1 = ((b : Nat) : Int))),
      p.1 = ((b : Nat) : Int) := by
    intro b p hp
    have := (List.mem_filter.mp hp).2
    simpa using this
  have hQmem : ∀ p ∈ Q, 0 ≤ p.1 ∧ p.1 < (nb : Int) := by
    rintro ⟨a, c⟩ hp
    exact hmem a (List.of_mem_zip hp).1
  have hperm := stablePart_perm nb Q hQmem
  have hdedupQ : ((stablePart nb Q).dedup).length = (Q.dedup).length :=
    (hperm.dedup).length_eq
  have hblocks : ((stablePart nb Q).dedup).length = ((List.range nb).map (fun b =>
      (((Q.filter (fun p => decide (p.1 = ((b : Nat) : Int)))).map
        Prod.snd).dedup).length)).sum := by
    rw [stablePart]
    exact flatMap_blocks_dedup _ nb (fun b _ => hQfst b)
  have hsize : t.size = keys.length := by
    rw [ht]
    dsimp only [CRSSparsity.size]
    rw [List.length_map, bucketPerm_length nb keys hmem]
  rw [sp_triplet_dedupStep]
  by_cases hseq : columnsSequential t true = true
  · rw [if_neg (by rw [hseq]; decide)]
    refine ⟨t, mapping, rfl, ?_⟩
    have hseq' := hseq
    rw [ht] at hseq'
    have hnodup : (stablePart nb Q).Nodup := by
      rw [stablePart]
      apply flatMap_blocks_nodup _ nb (fun b _ => hQfst b)
      intro b hb
      have h1 := (columnsSequential_mk_iff nb nc keys payload hlen hnn true).mp hseq' b hb
      exact List.chain'_iff_pairwise.mp ((sortedRun_true_iff _).mp h1)
    rw [hsize, ← hdedupQ, List.Nodup.dedup hnodup, hperm.length_eq, hQ,
      List.length_zip]
    omega
  · have hseqf : columnsSequential t true = false := by
      cases hcs : columnsSequential t true with
      | false => rfl
      | true => exact absurd hcs hseq
    rw [if_pos (by rw [hseqf]; decide)]
    refine ⟨(removeDuplicates t mapping).1, (removeDuplicates t mapping).2, rfl, ?_⟩
    rw [removeDuplicates_size]
    have hnrow : t.nrow = nb := by rw [ht]
    have hdedupAdj : ∀ b : Nat, b < nb →
        (dedupAdj (((t.col.zip mapping).take (t.rowind.getD (b + 1) 0).toNat).drop
          (t.rowind.getD b 0).toNat)).length =
        (((Q.filter (fun p => decide (p.1 = ((b : Nat) : Int)))).map
          Prod.snd).dedup).length := by
      intro b hb
      have hsliceeq : rowSliceCol t b =
          (Q.filter (fun p => decide (p.1 = ((b : Nat) : Int)))).map Prod.snd := by
        rw [ht]
        exact rowSliceCol_mk nb nc keys payload hlen hnn b hb
      have hri1 : t.rowind.getD (b + 1) 0 = startCnt keys ((b + 1 : Nat) : Int) := by
        rw [ht]
        exact rowindOf_getD nb keys (b + 1) (by omega)
      have hri0 : t.rowind.getD b 0 = startCnt keys ((b : Nat) : Int) := by
        rw [ht]
        exact rowindOf_getD nb keys b (by omega)
      have hcnt := startCnt_succ_sub keys ((b : Nat) : Int)
      have hs0 := startCnt_nonneg keys ((b : Nat) : Int)
      have hs1 := startCnt_le_length keys ((b + 1 : Nat) : Int)
      have hcast : ((b + 1 : Nat) : Int) = ((b : Nat) : Int) + 1 := by push_cast; ring
      have hcslen : (rowSliceCol t b).length =
          keys.countP (fun r => decide (r = ((b : Nat) : Int))) := by
        rw [hsliceeq, List.length_map, hQ, block_filter_length keys payload hlen b]
      have hmslen : ((mapping.take (t.rowind.getD (b + 1) 0).toNat).drop
          (t.rowind.getD b 0).toNat).length =
          keys.countP (fun r => decide (r = ((b : Nat) : Int))) := by
        rw [List.length_drop, List.length_take, hri1, hri0, hcast]
        rw [hcast] at hs1
        omega
      have hzip : ((t.col.zip mapping).take (t.rowind.getD (b + 1) 0).toNat).drop
          (t.rowind.getD b 0).toNat =
          (rowSliceCol t b).zip ((mapping.take (t.rowind.getD (b + 1) 0).toNat).drop
            (t.rowind.getD b 0).toNat) := by
        rw [zip_take_eq, zip_drop_eq, rowSliceCol]
      rw [hzip]
      have hfst : ((rowSliceCol t b).zip ((mapping.take
          (t.rowind.getD (b + 1) 0).toNat).drop (t.rowind.getD b 0).toNat)).map
            Prod.fst = rowSliceCol t b :=
        List.map_fst_zip _ _ (by rw [hcslen, hmslen])
      rw [dedupAdj_length_sorted _ (by
        rw [hfst, hsliceeq]
        exact hsorted b hb), hfst, hsliceeq]
    rw [hnrow]
    have hmapeq : (List.range nb).map (fun i =>
        (dedupAdj (((t.col.zip mapping).take (t.rowind.getD (i + 1) 0).toNat).drop
          (t.rowind.getD i 0).toNat)).length) =
        (List.range nb).map (fun b =>
          (((Q.filter (fun p => decide (p.1 = ((b : Nat) : Int)))).map
            Prod.snd).dedup).length) :=
      List.map_congr_left (fun b hb => hdedupAdj b (List.mem_range.mp hb))
    rw [hmapeq, ← hblocks, hdedupQ]

theorem pairSwap_inj : ∀ a b : Int × Int, pairSwap a = pairSwap b → a = b := by
  rintro ⟨a1, a2⟩ ⟨b1, b2⟩ h
  rw [pairSwap, pairSwap, Prod.mk.injEq] at h
  rw [Prod.mk.injEq]
  exact ⟨h.2, h.1⟩

theorem scatter_pattern_valid (nrow ncol : Nat) (row col : List Int)
    (hlen : row.length ≤ col.length)
    (hrow : ∀ r ∈ row, 0 ≤ r ∧ r < (nrow : Int))
    (hcol : ∀ c ∈ col, 0 ≤ c ∧ c < (ncol : Int)) :
    Valid (CRSSparsity.mk nrow ncol
      ((bucketPerm nrow row).map (fun k => col.getD k.toNat 0))
      (rowindOf nrow row)) := by
  apply Valid_mk_rowindOf
  · rw [List.length_map, bucketPerm_length nrow row hrow]
  · exact hrow
  · intro c hc
    obtain ⟨k, hk, hck⟩ := List.mem_map.mp hc
    obtain ⟨i, hi, rfl⟩ := bucketPerm_mem nrow row k hk
    rw [← hck]
    refine hcol _ ?_
    rw [List.getD_eq_getElem _ _ (by simp only [Int.toNat_natCast]; omega)]
    exact List.getElem_mem _

theorem sortStep_pos_spec (t1 : CRSSparsity) (perm : List Int) (hV : Valid t1)
    (hcond : (!false && !(columnsSequential t1 false)) = true) :
    sp_triplet_sortStep false t1 perm = .ok
      (CRSSparsity.mk t1.nrow t1.ncol
        ((bucketPerm t1.nrow
            ((bucketPerm t1.ncol t1.col).map (fun k => t1.getRow.getD k.toNat 0))).map
          (fun k => (CRSSparsity.mk t1.ncol t1.nrow
            ((bucketPerm t1.ncol t1.col).map (fun k => t1.getRow.getD k.toNat 0))
            (rowindOf t1.ncol t1.col)).getRow.getD k.toNat 0))
        (rowindOf t1.nrow
          ((bucketPerm t1.ncol t1.col).map (fun k => t1.getRow.getD k.toNat 0))),
      (bucketPerm t1.nrow ((bucketPerm t1.ncol t1.col).map
        (fun k => t1.getRow.getD k.toNat 0))).map (fun it =>
          ((bucketPerm t1.ncol t1.col).map (fun it2 => perm.getD it2.toNat 0)).getD
            it.toNat 0)) := by
  rw [sp_triplet_sortStep, if_pos hcond]
  have h1 := transpose_spec t1 hV.2.2.2.2
  have h1V := transpose_valid t1 hV
  have h2 := transpose_spec _ h1V.2.2.2.2
  simp only [h1, h2]

theorem sp_triplet_nnz_false (nrow ncol : Nat) (row col : List Int)
    (hlen : row.length = col.length)
    (hrow : ∀ r ∈ row, 0 ≤ r ∧ r < (nrow : Int))
    (hcol : ∀ c ∈ col, 0 ≤ c ∧ c < (ncol : Int)) :
    ∃ s m, sp_triplet_mapped nrow ncol row col false = .ok (s, m) ∧
      s.size = ((row.zip col).dedup).length := by
  have hcsp := countingSortPerm_spec nrow row hrow
  simp only [sp_triplet_mapped, if_neg (show ¬ row.length ≠ col.length by omega), hcsp]
  set t1 := CRSSparsity.mk nrow ncol
    ((bucketPerm nrow row).map (fun k => col.getD k.toNat 0))
    (rowindOf nrow row) with ht1
  have ht1V : Valid t1 := by
    rw [ht1]
    exact scatter_pattern_valid nrow ncol row col (by omega) hrow hcol
  have hpairs1 : t1.toPairs = stablePart nrow (row.zip col) := by
    rw [ht1]
    exact toPairs_mk_bucket nrow ncol row col (by omega)
  have hd1 : ((row.zip col).dedup).length = ((t1.toPairs).dedup).length := by
    rw [hpairs1]
    exact (((stablePart_perm nrow (row.zip col) (by
      rintro ⟨a, c⟩ hp
      exact hrow a (List.of_mem_zip hp).1)).dedup).length_eq).symm
  by_cases hcond : (!false && !(columnsSequential t1 false)) = true
  · have hss := sortStep_pos_spec t1 (bucketPerm nrow row) ht1V hcond
    simp only [hss]
    have hlenRC : t1.getRow.length = t1.col.length := getRow_length_valid t1 ht1V
    have h1V := transpose_valid t1 ht1V
    have hproj1 : (CRSSparsity.mk t1.ncol t1.nrow
        ((bucketPerm t1.ncol t1.col).map (fun k => t1.getRow.getD k.toNat 0))
        (rowindOf t1.ncol t1.col)).col =
        (bucketPerm t1.ncol t1.col).map (fun k => t1.getRow.getD k.toNat 0) := rfl
    have hproj2 : (CRSSparsity.mk t1.ncol t1.nrow
        ((bucketPerm t1.ncol t1.col).map (fun k => t1.getRow.getD k.toNat 0))
        (rowindOf t1.ncol t1.col)).ncol = t1.nrow := rfl
    have hl2 := getRow_length_valid _ h1V
    rw [hproj1] at hl2
    have hm2 := h1V.2.2.2.2
    rw [hproj1, hproj2] at hm2
    have hsorted2 : ∀ b : Nat, b < t1.nrow →
        (((((bucketPerm t1.ncol t1.col).map (fun k => t1.getRow.getD k.toNat 0)).zip
          ((CRSSparsity.mk t1.ncol t1.nrow
            ((bucketPerm t1.ncol t1.col).map (fun k => t1.getRow.getD k.toNat 0))
            (rowindOf t1.ncol t1.col)).getRow)).filter
              (fun p => decide (p.1 = ((b : Nat) : Int)))).map Prod.snd).Pairwise
          (· ≤ ·) := by
      intro b _
      have hzs := pairwise_zip_right (· ≤ ·)
        ((bucketPerm t1.ncol t1.col).map (fun k => t1.getRow.getD k.toNat 0))
        ((CRSSparsity.mk t1.ncol t1.nrow
          ((bucketPerm t1.ncol t1.col).map (fun k => t1.getRow.getD k.toNat 0))
          (rowindOf t1.ncol t1.col)).getRow)
        (getRow_sorted
          (CRSSparsity.mk t1.ncol t1.nrow
            ((bucketPerm t1.ncol t1.col).map (fun k => t1.getRow.getD k.toNat 0))
            (rowindOf t1.ncol t1.col)))
      have hf := List.Pairwise.filter (fun p => decide (p.1 = ((b : Nat) : Int))) hzs
      exact hf.map Prod.snd (fun p q h => h)
    obtain ⟨t', m', hds, hsize⟩ := dedup_count t1.nrow t1.ncol
      ((bucketPerm t1.ncol t1.col).map (fun k => t1.getRow.getD k.toNat 0))
      ((CRSSparsity.mk t1.ncol t1.nrow
        ((bucketPerm t1.ncol t1.col).map (fun k => t1.getRow.getD k.toNat 0))
        (rowindOf t1.ncol t1.col)).getRow)
      ((bucketPerm t1.nrow ((bucketPerm t1.ncol t1.col).map
        (fun k => t1.getRow.getD k.toNat 0))).map (fun it =>
          ((bucketPerm t1.ncol t1.col).map (fun it2 =>
            (bucketPerm nrow row).getD it2.toNat 0)).getD it.toNat 0))
      (by omega) hm2 hsorted2
      (by
        conv_rhs => rw [List.length_map, bucketPerm_length _ _ hm2]
        try exact le_rfl)
    refine ⟨t', m', hds, ?_⟩
    rw [hsize]
    have e1 := (zip_map_pairSwap
      ((CRSSparsity.mk t1.ncol t1.nrow
        ((bucketPerm t1.ncol t1.col).map (fun k => t1.getRow.getD k.toNat 0))
        (rowindOf t1.ncol t1.col)).getRow)
      ((bucketPerm t1.ncol t1.col).map (fun k => t1.getRow.getD k.toNat 0))).symm
    have e3 := toPairs_mk_bucket t1.ncol t1.nrow t1.col t1.getRow (by omega)
    have e4 : t1.col.zip t1.getRow = (t1.toPairs).map pairSwap := by
      rw [CRSSparsity.toPairs, zip_map_pairSwap]
    calc ((((bucketPerm t1.ncol t1.col).map (fun k => t1.getRow.getD k.toNat 0)).zip
          ((CRSSparsity.mk t1.ncol t1.nrow
            ((bucketPerm t1.ncol t1.col).map (fun k => t1.getRow.getD k.toNat 0))
            (rowindOf t1.ncol t1.col)).getRow)).dedup).length
        = ((((CRSSparsity.mk t1.ncol t1.nrow
            ((bucketPerm t1.ncol t1.col).map (fun k => t1.getRow.getD k.toNat 0))
            (rowindOf t1.ncol t1.col)).getRow.zip
              ((bucketPerm t1.ncol t1.col).map
                (fun k => t1.getRow.getD k.toNat 0))).map pairSwap).dedup).length := by
          rw [e1]
      _ = (((CRSSparsity.mk t1.ncol t1.nrow
            ((bucketPerm t1.ncol t1.col).map (fun k => t1.getRow.getD k.toNat 0))
            (rowindOf t1.ncol t1.col)).getRow.zip
              ((bucketPerm t1.ncol t1.col).map
                (fun k => t1.getRow.getD k.toNat 0))).dedup).length :=
          dedup_length_map_inj pairSwap pairSwap_inj _
      _ = (((CRSSparsity.mk t1.ncol t1.nrow
            ((bucketPerm t1.ncol t1.col).map (fun k => t1.getRow.getD k.toNat 0))
            (rowindOf t1.ncol t1.col)).toPairs).dedup).length := by rfl
      _ = ((stablePart t1.ncol (t1.col.zip t1.getRow)).dedup).length := by rw [e3]
      _ = (((t1.col.zip t1.getRow)).dedup).length :=
          ((stablePart_perm _ _ (by
            rintro ⟨a, c⟩ hp
            exact ht1V.2.2.2.2 a (List.of_mem_zip hp).1)).dedup).length_eq
      _ = (((t1.toPairs).map pairSwap).dedup).length := by rw [e4]
      _ = ((t1.toPairs).dedup).length := dedup_length_map_inj pairSwap pairSwap_inj _
      _ = ((row.zip col).dedup).length := hd1.symm
  · have hseq : columnsSequential t1 false = true := by
      cases hcs : columnsSequential t1 false with
      | true => rfl
      | false => exact absurd (by rw [hcs]; rfl) hcond
    have hss : sp_triplet_sortStep false t1 (bucketPerm nrow row) =
        .ok (t1, bucketPerm nrow row) := by
      rw [sp_triplet_sortStep, if_neg (by rw [hseq]; decide)]
    simp only [hss]
    have hseq' := hseq
    rw [ht1] at hseq'
    have hsorted : ∀ b : Nat, b < nrow →
        (((row.zip col).filter (fun p => decide (p.1 = ((b : Nat) : Int)))).map
          Prod.snd).Pairwise (· ≤ ·) := by
      intro b hb
      have h1 := (columnsSequential_mk_iff nrow ncol row col (by omega)
        (fun r hr => (hrow r hr).1) false).mp hseq' b hb
      exact List.chain'_iff_pairwise.mp ((sortedRun_false_iff _).mp h1)
    obtain ⟨t', m', hds, hsize⟩ := dedup_count nrow ncol row col (bucketPerm nrow row)
      (by omega) hrow hsorted (by rw [bucketPerm_length nrow row hrow])
    rw [← ht1] at hds
    exact ⟨t', m', hds, hsize⟩

/-- Claim C2 (amended): with the sorted hint false and in-range inputs, the nonzero
count of the pattern assembled by sp_triplet equals the number of distinct
(row, column) pairs of the input, and the concrete duplicate scenario
sp_triplet(2,2, rows=[1,0,1], cols=[0,1,0], hint=false) coalesces the duplicate
(1,0) entries into nnz = 2 with rowPtr = [0,1,2], colIndex = [1,0], the mapping
[1, 2] keeping exactly one surviving input identity per entry and no summation of
values (the pattern stores no values to sum).  The original claim's "either value of
the sorted hint" fails: with the hint set, duplicates are not coalesced (see the
counterexample). -/
theorem claim_C2_triplet_distinct :
    (∀ (nrow ncol : Nat) (row col : List Int),
      row.length = col.length →
      (∀ r ∈ row, 0 ≤ r ∧ r < (nrow : Int)) →
      (∀ c ∈ col, 0 ≤ c ∧ c < (ncol : Int)) →
      ∃ s m, sp_triplet_mapped nrow ncol row col false = .ok (s, m) ∧
        s.size = ((row.zip col).dedup).length) ∧
    sp_triplet_mapped 2 2 [1, 0, 1] [0, 1, 0] false =
      .ok (⟨2, 2, [1, 0], [0, 1, 2]⟩, [1, 2]) :=
  ⟨sp_triplet_nnz_false, by rfl⟩

/-- Claim C2 counterexample: with the sorted hint true, duplicates are not
coalesced — sp_triplet(1,1, rows=[0,0], cols=[0,0], hint=true) returns nnz = 2
although the input has a single distinct (row, column) pair. -/
theorem claim_C2_counterexample :
    sp_triplet_mapped 1 1 [0, 0] [0, 0] true = .ok (⟨1, 1, [0, 0], [0, 2]⟩, [0, 1]) ∧
    (CRSSparsity.mk 1 1 [0, 0] [0, 2]).size = 2 ∧
    ((([0, 0] : List Int).zip ([0, 0] : List Int)).dedup).length = 1 :=
  ⟨by rfl, by rfl, by decide⟩

/-- Claim C2 witness: the distinct-count theorem applied to a concrete in-range
input with a duplicate pair and the sorted hint false. -/
theorem claim_C2_witness :
    ∃ s m, sp_triplet_mapped 2 3 [1, 0, 1] [0, 2, 0] false = .ok (s, m) ∧
      s.size = ((([1, 0, 1] : List Int).zip ([0, 2, 0] : List Int)).dedup).length :=
  claim_C2_triplet_distinct.1 2 3 [1, 0, 1] [0, 2, 0] (by decide) (by decide) (by decide)
